import Mathlib

/-!
# cvs-fast-export: export core and node hash

A shallow embedding of `export.c` and `nodehash.c`.

Conventions of the embedding.

* C strings are `List Char`.  An atom is an interned string, so two atoms are
  pointer-equal exactly when the strings are equal: atoms are compared with `=`.
* A record that the C code reaches through a pointer and compares by address
  (`rev_file`, `git_commit`, `Node`) carries its address in a field `addr`.
* Acyclic linked lists (`heads`, `all_tags`, hash buckets, the parent chain of a
  commit) are Lean lists or inductive values.
* Everything written with `printf` to stdout is recorded as a list of `Out`
  events, one constructor per format string.
* Machine integers are `Nat` / `Int`; where the source relies on a fixed width
  the width is written out.
-/

namespace CvsFastExport

/-! ## Data model (`cvs.h`, as used by the two source files) -/

/-- An interned string handle; pointer equality of atoms is string equality. -/
abbrev Atom := List Char

/-- The dotted revision number `cvs_number`: a component count `c` and the array `n`.
The array is indexed beyond `c` by `hash_number`, hence a total function. -/
structure cvs_number where
  c : Nat
  n : Nat → Nat

/-- A Bloom signature `bloom_t`: the words `el[0 .. BLOOMLENGTH-1]`. -/
abbrev bloom_t := List Nat

/-- A file at one revision, `rev_file`.  `addr` is the address of the record;
the scratch link `u.other` is kept outside, in `Links`. -/
structure rev_file where
  addr : Nat
  file_name : Atom
  number : cvs_number
  mode : Nat
  serial : Nat

/-- The scratch field `u.other` of every `rev_file`, by address of the record.
The record pointed to is stored by value: nothing but `u.other` is ever written in it. -/
abbrev Links := Nat → Option rev_file

/-- One commit, `git_commit`, with its chain of parents.  `dirs` is `dirs[0..ndirs-1]`,
each a `rev_dir` given by its `files[0..nfiles-1]`.  The field `serial`, which
`export_commit` writes, is kept in the exporter state, by `addr`. -/
inductive git_commit where
  | mk (addr : Nat) (parent : Option git_commit) (tail : Bool) (date : Nat)
       (author : Atom) (log : List Char) (dirs : List (List rev_file)) (bloom : bloom_t)

namespace git_commit

def addr : git_commit → Nat
  | mk a _ _ _ _ _ _ _ => a

def parent : git_commit → Option git_commit
  | mk _ p _ _ _ _ _ _ => p

def tail : git_commit → Bool
  | mk _ _ t _ _ _ _ _ => t

def date : git_commit → Nat
  | mk _ _ _ d _ _ _ _ => d

def author : git_commit → Atom
  | mk _ _ _ _ a _ _ _ => a

def log : git_commit → List Char
  | mk _ _ _ _ _ l _ _ => l

def dirs : git_commit → List (List rev_file)
  | mk _ _ _ _ _ _ d _ => d

def bloom : git_commit → bloom_t
  | mk _ _ _ _ _ _ _ b => b

end git_commit

/-! ## Path canonicalization (`export_filename`) -/

/-- The inner `for (snext = s; *snext; snext++)` of `export_filename`: the component
that starts at `s`, with its `/` when it has one, and what follows it. -/
def next_component : List Char → List Char × List Char
  | [] => ([], [])
  | ch :: rest =>
    if ch = '/' then (['/'], rest)
    else ((next_component rest).1.cons ch, (next_component rest).2)

/-- The components that the outer `while (*s)` loop of `export_filename` visits, in order. -/
def path_components (fuel : Nat) (s : List Char) : List (List Char) :=
  match fuel, s with
  | 0, _ => []
  | _, [] => []
  | fuel + 1, ch :: rest =>
    (next_component (ch :: rest)).1 :: path_components fuel (next_component (ch :: rest)).2

/-- What `export_filename` copies for a final component (`*snext == 0`): the trailing
`,v` is trimmed when `len > 2`, and with `ignoreconv` a component that is then exactly
`.cvsignore` is replaced by `.gitignore`. -/
def final_component (comp : List Char) (ignoreconv : Bool) : List Char :=
  let len := comp.length
  let len1 := if 2 < len ∧ comp.getD (len - 2) ' ' = ',' ∧ comp.getD (len - 1) ' ' = 'v'
              then len - 2 else len
  if ignoreconv ∧ len1 = 10 ∧ comp.take len1 = ".cvsignore".toList then ".gitignore".toList
  else comp.take len1

/-- What `export_filename` copies for a component that is followed by more text:
nothing for `Attic/` and `RCS/` (the `goto skip`), the component otherwise. -/
def dir_component (comp : List Char) : List Char :=
  if comp.length = 6 ∧ comp = "Attic/".toList then []
  else if comp.length = 4 ∧ comp = "RCS/".toList then []
  else comp

/-- The body of the outer loop of `export_filename` over the components. -/
def export_components (ignoreconv : Bool) : List (List Char) → List Char
  | [] => []
  | [comp] => final_component comp ignoreconv
  | comp :: rest => dir_component comp ++ export_components ignoreconv rest

/-- The string `export_filename(file, ignoreconv)` builds in `name`, for the text
`file_name + striplen`.  (The call is fatal when this string does not fit `PATH_MAX`;
see `export_filename_fits`.) -/
def export_filename (striplen : Nat) (file_name : Atom) (ignoreconv : Bool) : List Char :=
  export_components ignoreconv
    (path_components (file_name.drop striplen).length (file_name.drop striplen))

/-- The guard `p + len >= name + sizeof name` never fires: the result, which only
grows, stays shorter than `PATH_MAX`. -/
def export_filename_fits (PATH_MAX striplen : Nat) (file_name : Atom) (ignoreconv : Bool) : Bool :=
  decide ((export_filename striplen file_name ignoreconv).length < PATH_MAX)

/-! ## File iterator and parent links (`compute_parent_links`) -/

/-- A `file_iter` cursor, represented by the files it has yet to return, in order. -/
abbrev file_iter := List rev_file

/-- `file_iter_start`: the cursor at the first file of the first directory. -/
def file_iter_start (dirs : List (List rev_file)) : file_iter := dirs.flatten

/-- `file_iter_next`: the next file (empty directories are skipped) and the advanced
cursor, or `none` for the `NULL` sentinel. -/
def file_iter_next : file_iter → Option (rev_file × file_iter)
  | [] => none
  | f :: rest => some (f, rest)

/-- The probe `for (k = 0; k < BLOOMLENGTH; ++k) if (bloom->el[k] & parent->bloom.el[k])`:
true when the `goto next` is taken. -/
def bloom_probe (bloom parent_bloom : bloom_t) : Bool :=
  (List.zipWith (fun a b => a &&& b) bloom parent_bloom).any (fun w => w != 0)

/-- The inner `while ((pf = file_iter_next(&it)))` of `compute_parent_links`: scan forward
for the first parent file with the atom of `cf`.  Returns that file and the cursor after it. -/
def scan_parent (cf : rev_file) : file_iter → Option (rev_file × file_iter)
  | [] => none
  | pf :: it => if cf.file_name = pf.file_name then some (pf, it) else scan_parent cf it

/-- The linking loop of `compute_parent_links` (third `while`), with the state it carries:
the commit cursor, the saved parent cursor `parent_iter`, `maxmatch` (an `unsigned`, so
`--maxmatch` is taken modulo 2^32) and the links. -/
def link_loop (atom_bloom : Atom → bloom_t) (parent_bloom : bloom_t) :
    file_iter → file_iter → Nat → Links → Links
  | [], _, _, other => other
  | cf :: commit_iter, parent_iter, maxmatch, other =>
    if bloom_probe (atom_bloom cf.file_name) parent_bloom then
      link_loop atom_bloom parent_bloom commit_iter parent_iter maxmatch other
    else
      match scan_parent cf parent_iter with
      | none => link_loop atom_bloom parent_bloom commit_iter parent_iter maxmatch other
      | some (pf, it) =>
        let other1 := Function.update (Function.update other cf.addr (some pf)) pf.addr (some cf)
        let maxmatch1 := (maxmatch + 4294967295) % 4294967296
        if maxmatch1 = 0 then other1
        else link_loop atom_bloom parent_bloom commit_iter it maxmatch1 other1

/-- The two clearing loops of `compute_parent_links`: `u.other = NULL` on every file of the
list. -/
def clear_links (files : List rev_file) (other : Links) : Links :=
  files.foldl (fun o f => Function.update o f.addr none) other

/-- `compute_parent_links(commit)` for a commit whose parent is `parent`: the `u.other`
fields afterwards. -/
def compute_parent_links (atom_bloom : Atom → bloom_t) (commit parent : git_commit)
    (other : Links) : Links :=
  let ncommit := (file_iter_start commit.dirs).length
  let other1 := clear_links (file_iter_start commit.dirs) other
  let nparent := (file_iter_start parent.dirs).length
  let other2 := clear_links (file_iter_start parent.dirs) other1
  let maxmatch := if nparent < ncommit then nparent else ncommit
  link_loop atom_bloom parent.bloom (file_iter_start commit.dirs)
    (file_iter_start parent.dirs) maxmatch other2

/-! ## File operations of one commit (`export_commit`, first half) -/

/-- One entry of the `operations` array, `struct fileop`.  A `D` entry leaves `mode` and
`serial` unset; they are never read and are recorded as 0. -/
structure fileop where
  op : Char
  mode : Nat
  serial : Nat
  path : Atom
deriving DecidableEq

/-- The test `!present || changed` of `export_commit` for a file `f`. -/
def needs_M (has_parent : Bool) (other : Links) (f : rev_file) : Bool :=
  let present := has_parent && (other f.addr).isSome
  let changed := has_parent && (match other f.addr with
    | some pf => decide (f.serial ≠ pf.serial)
    | none => false)
  !present || changed

/-- The `M` entry `export_commit` appends for `f`: mode 0755 when `f->mode & 0100`,
else 0644 (both kept as the octal numerals they print as). -/
def M_op (striplen : Nat) (f : rev_file) : fileop :=
  { op := 'M'
    mode := if f.mode &&& 0o100 ≠ 0 then 0o755 else 0o644
    serial := f.serial
    path := export_filename striplen f.file_name true }

/-- The `D` entry `export_commit` appends for a parent file `f`. -/
def D_op (striplen : Nat) (f : rev_file) : fileop :=
  { op := 'D', mode := 0, serial := 0, path := export_filename striplen f.file_name true }

/-- The `operations` array as `export_commit` builds it, before the sort, from the links
`other` that `compute_parent_links` left: the `M` entries of the commit, directory by
directory, then (with a parent) the `D` entries of the parent. -/
def fileops_of (striplen : Nat) (commit : git_commit) (other : Links) : List fileop :=
  match commit.parent with
  | none =>
    (commit.dirs.flatten.filter (needs_M false other)).map (M_op striplen)
  | some parent =>
    (commit.dirs.flatten.filter (needs_M true other)).map (M_op striplen) ++
    (parent.dirs.flatten.filter (fun f => (other f.addr).isNone)).map (D_op striplen)

/-- The links in force while `export_commit` builds the operations: recomputed by
`compute_parent_links` when the commit has a parent, left alone otherwise. -/
def links_of (atom_bloom : Atom → bloom_t) (commit : git_commit) (other0 : Links) : Links :=
  match commit.parent with
  | none => other0
  | some parent => compute_parent_links atom_bloom commit parent other0

/-- The `operations` array of `export_commit(commit, ...)`, before the sort. -/
def build_fileops (striplen : Nat) (atom_bloom : Atom → bloom_t) (commit : git_commit)
    (other0 : Links) : List fileop :=
  fileops_of striplen commit (links_of atom_bloom commit other0)

/-! ## Node hash (`nodehash.c`) -/

/-- The size of the bucket array, `NODE_HASH_SIZE`. -/
def NODE_HASH_SIZE : Nat := 4096

/-- One interned revision number, `Node`.  Pointers to nodes (`next`, `to`, `down`, `sib`)
are node addresses (`to_` is the field `to`); `version` and `patch` hold the address of the bound record.  The link
`hash_next` is the tail of the bucket chain the node is in (see `NodeTable.table`). -/
structure Node where
  number : cvs_number
  version : Option Nat
  patch : Option Nat
  next : Option Nat
  to_ : Option Nat
  down : Option Nat
  sib : Option Nat
  starts : Bool

/-- The globals of `nodehash.c`: the store of allocated nodes by address, the address the
allocator hands out next, each bucket `table[h]` as the chain of node addresses reached
from it through `hash_next` (head first), `nentries` and `head_node`. -/
structure NodeTable where
  node : Nat → Node
  brk : Nat
  table : Nat → List Nat
  nentries : Nat
  head_node : Option Nat

/-- What `xcalloc(1, sizeof(Node))` returns, with `number` then set to `key`. -/
def Node.fresh (key : cvs_number) : Node :=
  { number := key, version := none, patch := none, next := none, to_ := none,
    down := none, sib := none, starts := false }

/-- The table after `clean_hash`, and at program start. -/
def NodeTable.empty : NodeTable :=
  { node := fun _ => Node.fresh ⟨0, fun _ => 0⟩, brk := 0, table := fun _ => [],
    nentries := 0, head_node := none }

/-- The first step of `hash_number` on its copy `key` of `*n`: a zero before the last
component is collapsed, once. -/
def collapse_magic (n : cvs_number) : cvs_number :=
  if 2 < n.c ∧ n.n (n.c - 2) = 0 then ⟨n.c - 1, Function.update n.n (n.c - 2) (n.n (n.c - 1))⟩
  else n

/-- The second step: `if (key.c & 1) key.n[key.c] = 0`. -/
def zero_odd (key : cvs_number) : cvs_number :=
  if key.c % 2 = 1 then ⟨key.c, Function.update key.n key.c 0⟩ else key

/-- The key `hash_number` computes from `*n`. -/
def normalize_key (n : cvs_number) : cvs_number :=
  zero_odd (collapse_magic n)

/-- The bucket index both `hash_number` and `find_parent` compute for `key` (for `key.c >= 1`;
the source reads `key.n[-1]` otherwise). -/
def bucket_of (key : cvs_number) : Nat :=
  (((List.range (key.c - 1)).map key.n).sum * 256 + key.n (key.c - 1)) % NODE_HASH_SIZE

/-- The match test of the bucket walk: same count and the same first `key.c` components. -/
def same_number (stored key : cvs_number) : Bool :=
  decide (stored.c = key.c) && (List.range key.c).all (fun i => decide (stored.n i = key.n i))

/-- The walk `for (p = table[hash]; p; p = p->hash_next)` shared by `hash_number` and
`find_parent`: the first node of the chain whose number matches `key`. -/
def bucket_find (t : NodeTable) (key : cvs_number) : Option Nat :=
  (t.table (bucket_of key)).find? (fun p => same_number (t.node p).number key)

/-- The allocation at the end of `hash_number`: a zeroed node with `number = key` is pushed
on the chain of its bucket and counted. -/
def NodeTable.alloc (t : NodeTable) (key : cvs_number) : NodeTable :=
  { t with
    node := Function.update t.node t.brk (Node.fresh key)
    brk := t.brk + 1
    table := Function.update t.table (bucket_of key) (t.brk :: t.table (bucket_of key))
    nentries := t.nentries + 1 }

/-- `hash_number(n)`: the node returned and the table afterwards. -/
def hash_number (t : NodeTable) (n : cvs_number) : Nat × NodeTable :=
  match bucket_find t (normalize_key n) with
  | some p => (p, t)
  | none => (t.brk, t.alloc (normalize_key n))

/-- `find_parent(n, depth)`: the node of the prefix of `n` that is `depth` shorter, if
interned (for `depth < n.c`; the source reads `key.n[-1]` otherwise). -/
def find_parent (t : NodeTable) (n : cvs_number) (depth : Nat) : Option Nat :=
  bucket_find t ⟨n.c - depth, n.n⟩

/-- The loop of `compare` over the components. -/
def compare_from (x y : cvs_number) : List Nat → Int
  | [] => 0
  | i :: rest =>
    if x.n i < y.n i then -1
    else if x.n i > y.n i then 1
    else compare_from x y rest

/-- `compare`, on the numbers of the two nodes: by count, then by components. -/
def compare (x y : cvs_number) : Int :=
  if x.c < y.c then -1
  else if x.c > y.c then 1
  else compare_from x y (List.range x.c)

/-- A write to one field of the node at address `a`. -/
def NodeTable.modify (t : NodeTable) (a : Nat) (f : Node → Node) : NodeTable :=
  { t with node := Function.update t.node a (f (t.node a)) }

/-- The tail of `try_pair`: `if ((b->number.c & 1) == 0)`, marking `b` as a branch start. -/
def try_pair_starts (t : NodeTable) (b : Nat) : NodeTable :=
  if (t.node b).number.c % 2 = 0 then
    let t1 := t.modify b (fun nd => { nd with starts := true })
    match find_parent t1 (t1.node b).number 1 with
    | some p => t1.modify p (fun nd => { nd with next := some b })
    | none => t1
  else t

/-- `try_pair(a, b)` on two node addresses. -/
def try_pair (t : NodeTable) (a b : Nat) : NodeTable :=
  let n := (t.node a).number.c
  if n = (t.node b).number.c then
    if n = 2 then
      (t.modify a (fun nd => { nd with next := some b })).modify b (fun nd => { nd with to_ := some a })
    else if (List.range (n - 1)).all
        (fun i => decide ((t.node a).number.n i = (t.node b).number.n i)) then
      (t.modify a (fun nd => { nd with next := some b })).modify a (fun nd => { nd with to_ := some b })
    else try_pair_starts t b
  else if n = 2 then try_pair_starts { t with head_node := some a } b
  else try_pair_starts t b

/-- The second loop of `build_branches`, for one node `a`: a branch start is pushed on the
`down` list of the node two components shorter; without such a node nothing is linked. -/
def link_down (t : NodeTable) (a : Nat) : NodeTable :=
  if (t.node a).starts then
    match find_parent t (t.node a).number 2 with
    | none => t
    | some b =>
      let t1 := t.modify a (fun nd => { nd with sib := (t.node b).down })
      t1.modify b (fun nd => { nd with down := some a })
  else t

/-- The array `v` of `build_branches` before the sort: the chains of `table[0]`,
`table[1]`, ... one after the other. -/
def all_nodes (t : NodeTable) : List Nat :=
  (List.range NODE_HASH_SIZE).flatMap t.table

/-- `build_branches()`.  `qsort` is the C library sort, called with `compare` on the
numbers of the nodes.  The first loop runs over the adjacent pairs of the sorted array
from the last pair down to the first, the second over its entries from the last down. -/
def build_branches (qsort : (Nat → Nat → Int) → List Nat → List Nat) (t : NodeTable) :
    NodeTable :=
  if t.nentries = 0 then t
  else
    let v := qsort (fun a b => compare (t.node a).number (t.node b).number) (all_nodes t)
    let t1 : NodeTable :=
      match v.getLast? with
      | some l => if (t.node l).number.c = 2 then { t with head_node := some l } else t
      | none => t
    let t2 := (v.zip v.tail).foldr (fun ab s => try_pair s ab.1 ab.2) t1
    v.foldr (fun a s => link_down s a) t2

/-- The table after interning the numbers `ns` one after the other, starting from the
empty table. -/
def intern_all (ns : List cvs_number) : NodeTable :=
  ns.foldl (fun t n => (hash_number t n).2) NodeTable.empty

/-- The invariant of the table that `hash_number` maintains: every node of a chain was
allocated, sits in the bucket of its number and has at least one component; no chain
repeats a node; no two nodes have the same number; `nentries` counts the nodes. -/
def NodeTable.WF (t : NodeTable) : Prop :=
  (∀ h a, a ∈ t.table h →
    a < t.brk ∧ h < NODE_HASH_SIZE ∧ bucket_of (t.node a).number = h ∧ 1 ≤ (t.node a).number.c) ∧
  (∀ h, (t.table h).Nodup) ∧
  (∀ h1 h2 a b, a ∈ t.table h1 → b ∈ t.table h2 →
    same_number (t.node a).number (t.node b).number = true → a = b) ∧
  t.nentries = (all_nodes t).length

/-! ## Exporter state and output stream (`export.c` globals, stdout) -/

/-- One slot of `markmap`, `struct mark`. -/
structure mark where
  external : Nat
  emitted : Bool

/-- What is written to stdout, one constructor per `printf` format of `export_commit` and
`export_commits` (and `puts("done")` of `export_wrap`).  `blob m s` stands for
`blob\nmark :m\n` followed by the bytes of the spooled file of serial `s`. -/
inductive Out where
  | blob (m : Nat) (serial : Nat)
  | commit (ref : List Char)
  | mark_line (m : Nat)
  | committer (full email : Atom) (ct : Int) (timezone : Atom)
  | data (log : List Char)
  | from_ (m : Nat)
  | M (mode : Nat) (m : Nat) (path : Atom)
  | D (path : Atom)
  | ignores
  | property (revpairs : List Char)
  | newline
  | anchor (ref : List Char)
  | tag_reset (name : Atom) (m : Nat)
  | branch_reset (ref : List Char) (m : Nat)
  | done
deriving DecidableEq, Repr

/-- A store into `markmap`, for the history variable `Exporter.stores`. -/
inductive Store where
  | external (slot : Nat) (value : Nat)
  | emitted (slot : Nat)
deriving DecidableEq

/-- The mutable state of the export core: the statics `markmap`, `seqno`, `mark` and
`need_ignores`, the blob spool (`present s`: the file `blobfile(s)` exists and can be
read), the field `serial` of every `git_commit` and `u.other` of every `rev_file` by
address, and what has been written to stdout and to the revmap file.  `stores` is a
history variable, never read by the code: every store into `markmap`, in order. -/
structure Exporter where
  markmap : Nat → mark
  seqno : Nat
  mark : Nat
  need_ignores : Bool
  present : Nat → Bool
  commit_serial : Nat → Nat
  other : Links
  out : List Out
  revmap_out : List Char
  stores : List Store

/-- The state when `export_commits` is entered after `export_init` and `seqno0` calls of
`export_blob`: blobs 1..`seqno0` are spooled, `mark` is 0, nothing has been printed, and
the `serial` of every commit is still 0. -/
def Exporter.start (seqno0 : Nat) : Exporter :=
  { markmap := fun _ => ⟨0, false⟩
    seqno := seqno0
    mark := 0
    need_ignores := true
    present := fun s => decide (1 ≤ s ∧ s ≤ seqno0)
    commit_serial := fun _ => 0
    other := fun _ => none
    out := []
    revmap_out := []
    stores := [] }

/-- A `printf` to stdout. -/
def Exporter.print (st : Exporter) (e : Out) : Exporter :=
  { st with out := st.out ++ [e] }

/-- The statement `markmap[slot].external = ++mark`. -/
def Exporter.next_mark (st : Exporter) (slot : Nat) : Exporter :=
  { st with
    mark := st.mark + 1
    markmap := Function.update st.markmap slot ⟨st.mark + 1, (st.markmap slot).emitted⟩
    stores := st.stores ++ [Store.external slot (st.mark + 1)] }

/-- The statements `unlink(fn); markmap[slot].emitted = true` after a blob was copied out. -/
def Exporter.set_emitted (st : Exporter) (slot : Nat) : Exporter :=
  { st with
    present := Function.update st.present slot false
    markmap := Function.update st.markmap slot ⟨(st.markmap slot).external, true⟩
    stores := st.stores ++ [Store.emitted slot] }

/-- An author-map entry, `cvs_author`. -/
structure cvs_author where
  full : Atom
  email : Atom
  timezone : Option Atom

/-- A branch head, `rev_ref`, with the address of the record. -/
structure rev_ref where
  addr : Nat
  ref_name : Atom
  commit : git_commit
  tail : Bool

/-- A symbolic name pinned to a commit, `Tag`. -/
structure Tag where
  name : Atom
  commit : git_commit

/-- One entry of the flattened `history` array of `export_commits`.  The flag `realized`
is kept by the export loop as the set of heads already realized. -/
structure commit_seq where
  commit : git_commit
  head : rev_ref

/-- What the export core takes from the rest of the program: the globals `striplen`,
`commit_time_window` and `all_tags`, the constant `RCS_EPOCH`, the atom interner
(`atom_bloom`), the author map (`fullname`), and the C library sort as called on the
`operations` array with `fileop_sort` and on `history` with a comparison function. -/
structure Env where
  striplen : Nat
  commit_time_window : Int
  RCS_EPOCH : Int
  all_tags : List Tag
  atom_bloom : Atom → bloom_t
  fullname : Atom → Option cvs_author
  qsort_fileops : List fileop → List fileop
  qsort_history : (commit_seq → commit_seq → Int) → List commit_seq → List commit_seq

/-! ## `export_commit` -/

/-- The body of the blob-flush loop of `export_commit` for one entry `op2`. -/
def flush_op (report : Bool) (st : Exporter) (op2 : fileop) : Exporter :=
  if op2.op = 'M' ∧ (st.markmap op2.serial).emitted = false then
    let st1 := st.next_mark op2.serial
    if report ∧ st1.present op2.serial = true then
      (st1.print (Out.blob st1.mark op2.serial)).set_emitted op2.serial
    else st1
  else st

/-- The macro `display_date(c, m)`. -/
def display_date (env : Env) (force_dates : Bool) (c : git_commit) (m : Nat) : Int :=
  if force_dates then (m : Int) * env.commit_time_window * 2 else (c.date : Int) + env.RCS_EPOCH

/-- The loop of `export_commit` that prints the sorted operations: one line per entry, and
`need_ignores` is dropped at an entry whose path is the atom `.gitignore`. -/
def print_op (st : Exporter) (op2 : fileop) : Exporter :=
  let st1 := if op2.op = 'M' then st.print (Out.M op2.mode (st.markmap op2.serial).external op2.path)
             else st
  let st2 := if op2.op = 'D' then st1.print (Out.D op2.path) else st1
  if st2.need_ignores = true ∧ op2.path = ".gitignore".toList then { st2 with need_ignores := false }
  else st2

/-- The `committer` and `data` lines of a commit record. -/
def print_committer (env : Env) (force_dates : Bool) (commit : git_commit) (st : Exporter) :
    Exporter :=
  let full := match env.fullname commit.author with
    | none => commit.author
    | some a => a.full
  let email := match env.fullname commit.author with
    | none => commit.author
    | some a => a.email
  let timezone := match env.fullname commit.author with
    | none => "UTC".toList
    | some a => a.timezone.getD "UTC".toList
  (st.print (Out.committer full email (display_date env force_dates commit st.mark) timezone)).print
    (Out.data commit.log)

/-- The line `from :%d` with `markmap[commit->parent->serial].external`, for a commit that
has a parent. -/
def print_from (commit : git_commit) (st : Exporter) : Exporter :=
  match commit.parent with
  | some parent => st.print (Out.from_ (st.markmap (st.commit_serial parent.addr)).external)
  | none => st

/-- The one-shot default ignores: `if (need_ignores) ...` after the operations. -/
def print_ignores (st : Exporter) : Exporter :=
  if st.need_ignores = true then { st with need_ignores := false }.print Out.ignores
  else st

/-- The block `if (report) ...` of `export_commit` that follows the mark line: committer,
log, `from`, the operations and the one-shot default ignores. -/
def print_commit_body (env : Env) (force_dates : Bool) (commit : git_commit)
    (ops : List fileop) (st : Exporter) : Exporter :=
  print_ignores (ops.foldl print_op (print_from commit (print_committer env force_dates commit st)))

/-- Modelled from the spec: `cvs_number_string` is not in the two source files; the spec
calls its result the dotted revision (`1.2.2.1`): the first `c` components in decimal,
separated by dots. -/
def cvs_number_string (n : cvs_number) : List Char :=
  ".".toList.intercalate ((List.range n.c).map (fun i => Nat.toDigits 10 (n.n i)))

/-- Modelled from the spec: `stringify_revision(name, " ", number)` is not in the two
source files; the spec gives the text as `<path> <dotted-rev>`. -/
def stringify_revision (name : List Char) (sep : List Char) (n : cvs_number) : List Char :=
  name ++ sep ++ cvs_number_string n

/-- The string `revpairs` at the end of the first loop of `export_commit`: for every file
that got an `M` entry, and only when `reposurgeon` is set, the line
`stringify_revision(export_filename(f, false), " ", &f->number)` and a newline. -/
def build_revpairs (striplen : Nat) (reposurgeon : Bool) (commit : git_commit)
    (other : Links) : List Char :=
  ((commit.dirs.flatten.filter (needs_M commit.parent.isSome other)).map (fun f =>
    if reposurgeon then
      stringify_revision (export_filename striplen f.file_name false) " ".toList f.number ++ ['\n']
    else [])).flatten

/-- The loop `for (cp = revpairs; *cp; cp++)` writing to the revmap file. -/
def write_revmap (here : Nat) (revpairs : List Char) : List Char :=
  (revpairs.map (fun ch =>
    if ch = '\n' then (" :".toList ++ Nat.toDigits 10 here) ++ [ch] else [ch])).flatten

/-- The blob-flush loop of `export_commit` over the operations in the order they were built. -/
def flush_ops (report : Bool) (ops : List fileop) (st : Exporter) : Exporter :=
  ops.foldl (flush_op report) st

/-- The statements of `export_commit` from `printf("commit %s%s\n", ...)` to
`commit->serial = seqno`: the commit takes the next serial and the next mark. -/
def commit_header (commit : git_commit) (ref : List Char) (report : Bool) (st : Exporter) :
    Exporter :=
  let st2 := if report then st.print (Out.commit ref) else st
  let st3 := { st2.next_mark (st2.seqno + 1) with seqno := st2.seqno + 1 }
  let st4 := if report then st3.print (Out.mark_line st3.mark) else st3
  { st4 with commit_serial := Function.update st4.commit_serial commit.addr st4.seqno }

/-- The end of `export_commit`: the revmap lines, the `cvs-revision` property and the blank
line that closes the record.  `here` is the mark of the commit. -/
def commit_trailer (report revmap reposurgeon : Bool) (here : Nat) (revpairs : List Char)
    (st : Exporter) : Exporter :=
  let st7 := if revmap then { st with revmap_out := st.revmap_out ++ write_revmap here revpairs }
             else st
  let st8 := if reposurgeon ∧ report then st7.print (Out.property revpairs) else st7
  if report then st8.print Out.newline else st8

/-- The `operations` array `export_commit` builds for `commit` in the state `st`. -/
def commit_ops (env : Env) (commit : git_commit) (st : Exporter) : List fileop :=
  fileops_of env.striplen commit (links_of env.atom_bloom commit st.other)

/-- The state of `export_commit` after the parent links, the operations and the blob flush. -/
def after_flush (env : Env) (commit : git_commit) (report : Bool) (st : Exporter) : Exporter :=
  flush_ops report (commit_ops env commit st)
    { st with other := links_of env.atom_bloom commit st.other }

/-- `export_commit(commit, branch_prefix, branch, report, revmap, reposurgeon, force_dates)`.
`revmap` tells whether the revmap sink is not `NULL`; `branch_pfx` is `branch_prefix`. -/
def export_commit (env : Env) (commit : git_commit) (branch_pfx branch : List Char)
    (report revmap reposurgeon force_dates : Bool) (st : Exporter) : Exporter :=
  let st1 := after_flush env commit report st
  let st5 := commit_header commit (branch_pfx ++ branch) report st1
  let st6 := if report then
      print_commit_body env force_dates commit (env.qsort_fileops (commit_ops env commit st)) st5
    else st5
  commit_trailer report revmap reposurgeon st5.mark
    (build_revpairs env.striplen reposurgeon commit (links_of env.atom_bloom commit st.other)) st6

/-! ## `export_commits` -/

/-- The walk `for (c = h->commit; c; c = (c->tail ? NULL : c->parent))`: the commits of a
branch from its tip down to and including the first one flagged `tail`. -/
def branch_chain : git_commit → List git_commit
  | .mk a (some p) false d au l ds b => .mk a (some p) false d au l ds b :: branch_chain p
  | c => [c]

/-- `export_ncommit(rl)`. -/
def export_ncommit (heads : List rev_ref) : Nat :=
  heads.foldl (fun n h => if h.tail then n else n + (branch_chain h.commit).length) 0

/-- `sort_by_date`: the difference of the two dates converted to `int`, that is, taken
modulo 2^32 and read as a signed 32-bit number. -/
def sort_by_date (ac bc : commit_seq) : Int :=
  let d : Nat := (ac.commit.date % 4294967296 + 4294967296 - bc.commit.date % 4294967296) % 4294967296
  if d < 2147483648 then (d : Int) else (d : Int) - 4294967296

/-- The tag loop after each `export_commit`: a `reset refs/tags/...` record for every tag
pinned to `c`. -/
def emit_tags (env : Env) (c : git_commit) (st : Exporter) : Exporter :=
  env.all_tags.foldl (fun s t =>
    if t.commit.addr = c.addr then
      s.print (Out.tag_reset t.name (s.markmap (s.commit_serial c.addr)).external)
    else s) st

/-- Branch-order mode, one head: the chain is exported oldest commit first. -/
def export_branch (env : Env) (branch_pfx : List Char) (revmap reposurgeon force_dates : Bool)
    (st : Exporter) (h : rev_ref) : Exporter :=
  if h.tail then st
  else (branch_chain h.commit).foldr (fun c s =>
    emit_tags env c (export_commit env c branch_pfx h.ref_name true revmap reposurgeon force_dates s)) st

/-- Canonical mode, phase 1: the `history` array, each non-tail head filling its slice with
its chain in reverse. -/
def flatten_history (heads : List rev_ref) : List commit_seq :=
  (heads.filter (fun h => !h.tail)).flatMap
    (fun h => (branch_chain h.commit).reverse.map (fun c => ⟨c, h⟩))

/-- The check `hp->commit->parent && hp->commit->parent->date > hp->commit->date` found
nowhere in the array. -/
def sortable (history : List commit_seq) : Bool :=
  history.all (fun hp => match hp.commit.parent with
    | some p => !decide (p.date > hp.commit.date)
    | none => true)

/-- Canonical mode, phase 2: the array after the optional sort by date. -/
def sorted_history (env : Env) (heads : List rev_ref) : List commit_seq :=
  if sortable (flatten_history heads) then env.qsort_history sort_by_date (flatten_history heads)
  else flatten_history heads

/-- Canonical mode, phase 3: the export loop over the array, from `hp` on.  `realized` holds
the addresses of the heads whose entries have `realized` set. -/
def canonical_loop (env : Env) (branch_pfx : List Char) (fromtime : Int)
    (revmap reposurgeon force_dates : Bool) :
    List commit_seq → List Nat → Exporter → Exporter
  | [], _, st => st
  | hp :: rest, realized, st =>
    let skip : Bool := decide (0 < fromtime) &&
      decide (fromtime ≥ display_date env force_dates hp.commit (st.mark + 1))
    let fresh : Bool := decide (0 < fromtime) && !skip && !(realized.contains hp.head.addr)
    let st1 :=
      if fresh then
        match hp.commit.parent with
        | some p =>
          if display_date env force_dates p (st.markmap (st.commit_serial p.addr)).external < fromtime
          then st.print (Out.anchor (branch_pfx ++ hp.head.ref_name))
          else st
        | none => st
      else st
    let realized1 := if fresh then hp.head.addr :: realized else realized
    let st2 := export_commit env hp.commit branch_pfx hp.head.ref_name (!skip) revmap
      reposurgeon force_dates st1
    canonical_loop env branch_pfx fromtime revmap reposurgeon force_dates rest realized1
      (emit_tags env hp.commit st2)

/-- The closing loop of `export_commits`: a `reset` record for every head. -/
def emit_resets (branch_pfx : List Char) (heads : List rev_ref) (st : Exporter) : Exporter :=
  heads.foldl (fun s h =>
    s.print (Out.branch_reset (branch_pfx ++ h.ref_name)
      (s.markmap (s.commit_serial h.commit.addr)).external)) st

/-- `export_commits(rl, branch_prefix, fromtime, revision_map, reposurgeon, force_dates,
branchorder, progress)` on the heads of `rl`.  `revmap` tells whether a revision map was
asked for and opened.  `markmap` is allocated zeroed on entry. -/
def export_commits (env : Env) (heads : List rev_ref) (branch_pfx : List Char) (fromtime : Int)
    (revmap reposurgeon force_dates branchorder : Bool) (st : Exporter) : Exporter :=
  let st0 := { st with markmap := fun _ => ⟨0, false⟩ }
  let st1 :=
    if branchorder then
      heads.foldl (export_branch env branch_pfx revmap reposurgeon force_dates) st0
    else
      canonical_loop env branch_pfx fromtime revmap reposurgeon force_dates
        (sorted_history env heads) [] st0
  emit_resets branch_pfx heads st1

/-! ## Notions the properties of the stream are stated with -/

/-- The mark a record declares: `blob` records and the `mark :N` line of a commit record. -/
def declared : Out → Option Nat
  | Out.blob m _ => some m
  | Out.mark_line m => some m
  | _ => none

/-- The mark a line refers to: `M` lines, `from :N` lines, tag and branch `reset` records. -/
def referenced : Out → Option Nat
  | Out.M _ m _ => some m
  | Out.from_ m => some m
  | Out.tag_reset _ m => some m
  | Out.branch_reset _ m => some m
  | _ => none

/-- The values `++mark` produced, in order: each is stored at once into a slot of `markmap`. -/
def issued_marks (stores : List Store) : List Nat :=
  stores.filterMap (fun s => match s with
    | Store.external _ v => some v
    | Store.emitted _ => none)

/-- Every element of the list satisfies `P` with respect to what stands before it. -/
def EachAfter {α : Type} (P : α → List α → Prop) (l : List α) : Prop :=
  ∀ pre x post, l = pre ++ x :: post → P x pre

/-- The commits on which `export_commits` calls `export_commit`, in the order of the calls. -/
def export_order (env : Env) (heads : List rev_ref) (branchorder : Bool) : List git_commit :=
  if branchorder then
    (heads.filter (fun h => !h.tail)).flatMap (fun h => (branch_chain h.commit).reverse)
  else (sorted_history env heads).map (fun hp => hp.commit)

/-- The check behind `parent_first`, with the addresses of the commits already passed. -/
def parent_first_from (seen : List Nat) : List git_commit → Bool
  | [] => true
  | c :: rest =>
    (match c.parent with
      | some p => seen.contains p.addr
      | none => true) && parent_first_from (c.addr :: seen) rest

/-- In the list every commit that has a parent comes after an entry for that parent. -/
def parent_first (order : List git_commit) : Prop :=
  parent_first_from [] order = true

/-- The files that carry a blob serial in the commits of the list. -/
def files_of (order : List git_commit) : List rev_file :=
  order.flatMap (fun c => c.dirs.flatten)

/-- The two states agree on everything but stdout, the revmap file, `need_ignores` and the
scratch links. -/
def SameCore (st st' : Exporter) : Prop :=
  st'.markmap = st.markmap ∧ st'.mark = st.mark ∧ st'.seqno = st.seqno ∧
  st'.present = st.present ∧ st'.commit_serial = st.commit_serial ∧ st'.stores = st.stores

/-- The lines of a commit record after its mark line, in the state `st` they are printed
in: committer, log, `from`, one line per operation, the default ignores, the property,
the closing blank line. -/
def body_line (st : Exporter) (commit : git_commit) (ops : List fileop) (e : Out) : Prop :=
  (∃ full email ct tz, e = Out.committer full email ct tz) ∨
  (∃ log, e = Out.data log) ∨
  (∃ p, commit.parent = some p ∧ e = Out.from_ (st.markmap (st.commit_serial p.addr)).external) ∨
  (∃ op ∈ ops, op.op = 'M' ∧ e = Out.M op.mode (st.markmap op.serial).external op.path) ∨
  (∃ path, e = Out.D path) ∨
  e = Out.ignores ∨
  (∃ revpairs, e = Out.property revpairs) ∨
  e = Out.newline

/-- A step that only prints: the core is kept and stdout grows by lines that satisfy `Q`. -/
def Prints (Q : Out → Prop) (st st' : Exporter) : Prop :=
  SameCore st st' ∧ ∃ l, st'.out = st.out ++ l ∧ ∀ e ∈ l, Q e

/-- Modelled from the spec: the code that fills `git_commit.bloom` is not in the two source
files; the spec gives it as the union of the signatures of the files of the commit, here
the word-wise or of signatures of `len` words. -/
def bloom_union (len : Nat) (sigs : List bloom_t) : bloom_t :=
  sigs.foldl (fun acc sig => List.zipWith (fun a b => a ||| b) acc sig) (List.replicate len 0)

/-! ## Invariants of the export run -/

/-- No blob is printed twice: what the run maintains for the blob records.  The spool
holds files only for serials up to `seqno`; a serial with a `blob` record or with a store
of `emitted` has `emitted` set; no two `blob` records have the same serial; after a store
of `emitted` into a slot there is no further store into that slot. -/
def blob_once_inv (st : Exporter) : Prop :=
  (∀ s, st.present s = true ∨ (st.markmap s).emitted = true → s ≤ st.seqno) ∧
  (∀ m s, Out.blob m s ∈ st.out → (st.markmap s).emitted = true) ∧
  st.out.Pairwise (fun a b => ∀ m m' s, a = Out.blob m s → b ≠ Out.blob m' s) ∧
  (∀ s, Store.emitted s ∈ st.stores → (st.markmap s).emitted = true) ∧
  st.stores.Pairwise (fun a b => ∀ s, a = Store.emitted s →
    b ≠ Store.emitted s ∧ ∀ v, b ≠ Store.external s v)

/-- In a stream, every `M` line comes after a `blob` record that declares its mark. -/
def blob_before_M (out : List Out) : Prop :=
  EachAfter (fun x pre => ∀ mode N path, x = Out.M mode N path → ∃ s, Out.blob N s ∈ pre) out

/-- Blob before use: what the run maintains, `seqno0` blobs having been spooled.  A serial
with `emitted` set is a spooled one and its `blob` record, with the mark in `external`, is
in the stream; a spooled serial without `emitted` still has its file; the spool holds no
other files; every `M` line printed so far comes after the `blob` record of its mark. -/
def blob_before_inv (seqno0 : Nat) (st : Exporter) : Prop :=
  seqno0 ≤ st.seqno ∧
  (∀ s, (st.markmap s).emitted = true →
    s ≤ seqno0 ∧ Out.blob (st.markmap s).external s ∈ st.out) ∧
  (∀ s, 1 ≤ s → s ≤ seqno0 → (st.markmap s).emitted = false → st.present s = true) ∧
  (∀ s, st.present s = true → s ≤ seqno0) ∧
  blob_before_M st.out

/-- Mark density: what the run maintains, `done` being the commits exported so far.  No
slot holds a mark beyond `mark`; the marks issued are 1, ..., `mark`; the marks declared
in the stream increase strictly and lie in 1..`mark`; so do the marks referred to; a slot
with `emitted` set, and the slot of every exported commit, holds a mark that was issued. -/
def mark_inv (done : List git_commit) (st : Exporter) : Prop :=
  (∀ s, (st.markmap s).external ≤ st.mark) ∧
  issued_marks st.stores = List.range' 1 st.mark ∧
  (st.out.filterMap declared).Pairwise (fun a b => a < b) ∧
  (∀ m ∈ st.out.filterMap declared, 1 ≤ m ∧ m ≤ st.mark) ∧
  (∀ e ∈ st.out, ∀ N, referenced e = some N → 1 ≤ N ∧ N ≤ st.mark) ∧
  (∀ s, (st.markmap s).emitted = true → 1 ≤ (st.markmap s).external) ∧
  (∀ a ∈ done.map (fun d => d.addr), 1 ≤ (st.markmap (st.commit_serial a)).external)

/-- In a stream, every `from :M` line comes after a `mark :M` line of a commit record. -/
def from_after_mark (out : List Out) : Prop :=
  EachAfter (fun x pre => ∀ N, x = Out.from_ N → Out.mark_line N ∈ pre) out

/-- Parent before child: what a run that reports every commit maintains, `done` being the
commits exported so far.  Every exported commit has a serial above the blob serials whose
slot holds a mark that a `mark` line of the stream declares; every `from` line printed
so far comes after the `mark` line of its mark. -/
def from_inv (seqno0 : Nat) (done : List git_commit) (st : Exporter) : Prop :=
  seqno0 ≤ st.seqno ∧
  (∀ a ∈ done.map (fun d => d.addr),
    seqno0 < st.commit_serial a ∧ st.commit_serial a ≤ st.seqno ∧
    Out.mark_line (st.markmap (st.commit_serial a)).external ∈ st.out) ∧
  from_after_mark st.out

/-- The check behind `heads_parent_first`, with the addresses of the commits on the chains
of the heads already passed. -/
def heads_parent_first_from (seen : List Nat) : List rev_ref → Bool
  | [] => true
  | h :: hs =>
    if h.tail then heads_parent_first_from seen hs
    else
      (match (branch_chain h.commit).getLast? with
        | some c =>
          (match c.parent with
            | some p => seen.contains p.addr
            | none => true)
        | none => true) &&
      heads_parent_first_from ((branch_chain h.commit).map (fun d => d.addr) ++ seen) hs

/-- The heads are listed parent branch first: the oldest commit of the chain of every
non-tail head either has no parent or has one that lies on the chain of an earlier
non-tail head. -/
def heads_parent_first (heads : List rev_ref) : Prop :=
  heads_parent_first_from [] heads = true

/-! ## Sample inputs -/

/-- A Bloom assignment for the samples: every name sets one bit, as every signature does. -/
def sample_bloom (a : Atom) : bloom_t :=
  if a = "foo,v".toList then [4, 0] else [0, 2]

/-- The revision number 1.1. -/
def rev_1_1 : cvs_number := ⟨2, fun i => if i = 0 then 1 else if i = 1 then 1 else 0⟩

/-- The revision number 1.2. -/
def rev_1_2 : cvs_number := ⟨2, fun i => if i = 0 then 1 else if i = 1 then 2 else 0⟩

/-- Scenario S1: `foo,v` at 1.1, spooled as blob 1. -/
def s1_foo_1_1 : rev_file := ⟨10, "foo,v".toList, rev_1_1, 0o444, 1⟩

/-- Scenario S1: `foo,v` at 1.2, spooled as blob 2. -/
def s1_foo_1_2 : rev_file := ⟨11, "foo,v".toList, rev_1_2, 0o444, 2⟩

/-- Scenario S1: the first commit C0; its Bloom filter is the signature of `foo,v`. -/
def s1_c0 : git_commit :=
  .mk 100 none false 1000000000 "u".toList "log0".toList [[s1_foo_1_1]] [4, 0]

/-- Scenario S1: the second commit C1, child of C0, with `foo,v` at 1.2. -/
def s1_c1 : git_commit :=
  .mk 101 (some s1_c0) false 1000000060 "u".toList "log1".toList [[s1_foo_1_2]] [4, 0]

/-- A child of C0 that carries the very same `foo,v` at 1.1 (serial 1): nothing changed. -/
def s1_c1_same : git_commit :=
  .mk 102 (some s1_c0) false 1000000060 "u".toList "log1".toList [[s1_foo_1_1]] [4, 0]

/-- The environment of the samples: no author map, no tags, and a C library sort that
leaves an array that is already in order as it is. -/
def sample_env : Env :=
  { striplen := 0
    commit_time_window := 300
    RCS_EPOCH := 631152000
    all_tags := []
    atom_bloom := sample_bloom
    fullname := fun _ => none
    qsort_fileops := fun l => l
    qsort_history := fun _ l => l }

/-- Scenario S1: the head `master`, at C1. -/
def s1_master : rev_ref := ⟨1, "master".toList, s1_c1, false⟩

/-- A one-commit branch `side` off C0: its commit is flagged `tail` and has C0 as parent. -/
def side_commit : git_commit :=
  .mk 104 (some s1_c0) true 1000000060 "u".toList "side".toList [[s1_foo_1_2]] [4, 0]

/-- The head of the branch `side`. -/
def side_head : rev_ref := ⟨2, "side".toList, side_commit, false⟩

/-- The head `master` at C0, the parent branch of `side`. -/
def trunk_head : rev_ref := ⟨3, "master".toList, s1_c0, false⟩

/-- A first commit and its child that carry the same date. -/
def tie_c0 : git_commit :=
  .mk 110 none false 1000000000 "u".toList "log0".toList [[s1_foo_1_1]] [4, 0]

/-- The child of `tie_c0`, committed in the same second. -/
def tie_c1 : git_commit :=
  .mk 111 (some tie_c0) false 1000000000 "u".toList "log1".toList [[s1_foo_1_2]] [4, 0]

/-- The head `master` at `tie_c1`. -/
def tie_master : rev_ref := ⟨4, "master".toList, tie_c1, false⟩

/-- The sample environment with a C library sort that hands back entries that compare
equal in the opposite order. -/
def reversing_env : Env :=
  { sample_env with qsort_history := fun _ l => l.reverse }

/-- The revision number 1.0.0.4: the component before the last is zero, and so is the one
before it. -/
def rev_1_0_0_4 : cvs_number :=
  ⟨4, fun i => if i = 0 then 1 else if i = 3 then 4 else 0⟩

/-- The revision number 1.2.0.4, a CVS magic branch number. -/
def rev_1_2_0_4 : cvs_number :=
  ⟨4, fun i => if i = 0 then 1 else if i = 1 then 2 else if i = 3 then 4 else 0⟩

/-- The normalized form of a number in the words of the specification: the number with
`n[c-2] := n[c-1]` and `c := c-1`. -/
def collapse (n : cvs_number) : cvs_number :=
  ⟨n.c - 1, Function.update n.n (n.c - 2) (n.n (n.c - 1))⟩

/-! ## Paths in the words of the specification -/

/-- The directory components of a path: its slash-separated components but the last, each
of them followed by a `/` in the path. -/
def dir_names (p : List Char) : List (List Char) := (p.splitOn '/').dropLast

/-- The final component of a path: what follows the last `/` (the whole path when it has
no `/`). -/
def base_name (p : List Char) : List Char := (p.splitOn '/').getLastD []

/-- The directory part of a path as the specification rewrites it: the directory components
that are neither `Attic` nor `RCS`, in order, each with its `/`. -/
def kept_dirs (p : List Char) : List Char :=
  ((dir_names p).filter (fun c => !(c == "Attic".toList || c == "RCS".toList))).flatMap
    (fun c => c ++ ['/'])

/-! ## Versions and patches on the node list (`hash_version`, `hash_patch`) -/

/-- A line written by `announce`, one constructor per format string of `nodehash.c`; the
number is the one handed to `cvs_number_string`. -/
inductive Announce where
  | more_than_one_delta (number : cvs_number)
  | odd_depth_revision (number : cvs_number)
  | odd_depth_patch (number : cvs_number)
  | no_parent (number : cvs_number)

/-- A delta header, `cvs_version`, as `nodehash.c` uses it: the address of the record and
its `number`.  The field `node` is what `hash_version` returns first. -/
structure cvs_version where
  addr : Nat
  number : cvs_number

/-- A delta text, `cvs_patch`, as `nodehash.c` uses it: the address of the record and its
`number`.  The field `node` is what `hash_patch` returns first. -/
structure cvs_patch where
  addr : Nat
  number : cvs_number

/-- The statements of `hash_version(v)` after `v->node = hash_number(&v->number)`, for the
node `node` that call returned and the table `t1` it left: the binding, unless the node has
a version, and the two diagnostics. -/
def bind_version (t1 : NodeTable) (node : Nat) (v : cvs_version) : NodeTable × List Announce :=
  let t2 := if (t1.node node).version.isSome then t1
            else t1.modify node (fun nd => { nd with version := some v.addr })
  let a1 := if (t1.node node).version.isSome
            then [Announce.more_than_one_delta (t1.node node).number] else []
  let a2 := if (t2.node node).number.c % 2 = 1
            then [Announce.odd_depth_revision (t2.node node).number] else []
  (t2, a1 ++ a2)

/-- `hash_version(v)`: the node stored in `v->node`, the table afterwards and the lines
announced. -/
def hash_version (t : NodeTable) (v : cvs_version) : Nat × NodeTable × List Announce :=
  ((hash_number t v.number).1, bind_version (hash_number t v.number).2 (hash_number t v.number).1 v)

/-- The statements of `hash_patch(p)` after `p->node = hash_number(&p->number)`. -/
def bind_patch (t1 : NodeTable) (node : Nat) (p : cvs_patch) : NodeTable × List Announce :=
  let t2 := if (t1.node node).patch.isSome then t1
            else t1.modify node (fun nd => { nd with patch := some p.addr })
  let a1 := if (t1.node node).patch.isSome
            then [Announce.more_than_one_delta (t1.node node).number] else []
  let a2 := if (t2.node node).number.c % 2 = 1
            then [Announce.odd_depth_patch (t2.node node).number] else []
  (t2, a1 ++ a2)

/-- `hash_patch(p)`: the node stored in `p->node`, the table afterwards and the lines
announced. -/
def hash_patch (t : NodeTable) (p : cvs_patch) : Nat × NodeTable × List Announce :=
  ((hash_number t p.number).1, bind_patch (hash_number t p.number).2 (hash_number t p.number).1 p)

/-- The revision number 1.2.2: three components, an odd depth. -/
def rev_1_2_2 : cvs_number :=
  ⟨3, fun i => if i = 0 then 1 else if i = 1 then 2 else if i = 2 then 2 else 0⟩

/-! ## Blob spool (`export_init`, `blobfile`, `export_blob`, `export_wrap`) -/

/-- The text of the macro `CVS_IGNORES`. -/
def CVS_IGNORES : List Char :=
  "# CVS default ignores begin\ntags\nTAGS\n.make.state\n.nse_depinfo\n*~\n#*\n.#*\n,*\n_$*\n*$\n*.old\n*.bak\n*.BAK\n*.orig\n*.rej\n.del-*\n*.a\n*.olb\n*.o\n*.obj\n*.so\n*.exe\n*.Z\n*.elc\n*.ln\ncore\n# CVS default ignores end\n".toList

/-- The part of the file system the spool lives in: the directories that exist, by path,
and the regular files, by path, with their contents. -/
structure FileSys where
  dirs : List (List Char)
  files : List (List Char × List Char)
deriving DecidableEq

/-- The directory a path lies in: the path up to its last `/`. -/
def parent_dir (p : List Char) : List Char :=
  ((p.reverse.dropWhile (fun ch => ch != '/')).drop 1).reverse

/-- The C library call `access(path, R_OK) == 0`: something exists at the path. -/
def FileSys.access (fs : FileSys) (p : List Char) : Bool :=
  fs.dirs.contains p || (fs.files.map Prod.fst).contains p

/-- The C library call `mkdir(path, mode)`: `none` when it fails, which it does when
something exists at the path or the parent is not a directory. -/
def FileSys.mkdir (fs : FileSys) (p : List Char) : Option FileSys :=
  if fs.access p = false ∧ parent_dir p ∈ fs.dirs then some { fs with dirs := fs.dirs ++ [p] }
  else none

/-- The C library calls `fopen(path, "w")`, the writes of `content` and `fclose`: the file
is created or replaced; `none` when the open fails, which it does when the parent is not a
directory or the path is one. -/
def FileSys.write (fs : FileSys) (p : List Char) (content : List Char) : Option FileSys :=
  if parent_dir p ∈ fs.dirs ∧ p ∉ fs.dirs then
    some { fs with files := fs.files.filter (fun f => f.1 != p) ++ [(p, content)] }
  else none

/-- The C library call `unlink(path)`, whose result the callers ignore. -/
def FileSys.unlink (fs : FileSys) (p : List Char) : FileSys :=
  { fs with files := fs.files.filter (fun f => f.1 != p) }

/-- The C library call `rmdir(path)`: `none` when it fails, which it does unless the path
is a directory that holds nothing. -/
def FileSys.rmdir (fs : FileSys) (p : List Char) : Option FileSys :=
  if p ∈ fs.dirs ∧ (∀ d ∈ fs.dirs, parent_dir d ≠ p) ∧ (∀ f ∈ fs.files, parent_dir f.1 ≠ p) then
    some { fs with dirs := fs.dirs.erase p }
  else none

/-- The contents of the regular file at a path, if there is one. -/
def FileSys.read (fs : FileSys) (p : List Char) : Option (List Char) :=
  (fs.files.find? (fun f => f.1 == p)).map Prod.snd

/-- The statics `blobdir` and `seqno` of `export.c` and the file system. -/
structure Spool where
  blobdir : List Char
  seqno : Nat
  fs : FileSys
deriving DecidableEq

/-- `export_init()`, for the name `blobdir` that `mkdtemp` made and created. -/
def export_init (blobdir : List Char) : Spool :=
  { blobdir := blobdir, seqno := 0, fs := { dirs := [blobdir], files := [] } }

/-- The conversion `%x` of `snprintf`: lowercase hexadecimal without padding. -/
def hex (d : Nat) : List Char := Nat.toDigits 16 d

/-- The loop `for (m = serial;;)` of `blobfile`, from the value `m` and the text `path`
built so far: the path returned and the file system afterwards, or `none` when a `mkdir`
fails (`fatal_error`).  The loop is run for at most `fuel` rounds. -/
def blobfile_loop (create : Bool) : Nat → Nat → List Char → FileSys → Option (List Char × FileSys)
  | 0, _, _, _ => none
  | fuel + 1, m, path, fs =>
    let digit := m % 256
    if (m - digit) / 256 = 0 then some (path ++ "/=".toList ++ hex digit, fs)
    else
      if create = true ∧ fs.access (path ++ "/".toList ++ hex digit) = false then
        match fs.mkdir (path ++ "/".toList ++ hex digit) with
        | none => none
        | some fs1 => blobfile_loop create fuel ((m - digit) / 256) (path ++ "/".toList ++ hex digit) fs1
      else blobfile_loop create fuel ((m - digit) / 256) (path ++ "/".toList ++ hex digit) fs

/-- `blobfile(serial, create)`.  (`snprintf` cuts the text at `PATH_MAX`; the spool
directory is taken short enough for that not to happen.) -/
def blobfile (blobdir : List Char) (serial : Nat) (create : Bool) (fs : FileSys) :
    Option (List Char × FileSys) :=
  blobfile_loop create (serial + 1) serial blobdir fs

/-- What `export_blob` writes into the blob file: the `data` header, the default ignores
when `extralen > 0`, the buffer and a newline. -/
def blob_image (extralen : Nat) (buf : List Char) : List Char :=
  "data ".toList ++ Nat.toDigits 10 (buf.length + extralen) ++ ['\n'] ++
    (if extralen > 0 then CVS_IGNORES.take extralen else []) ++ buf ++ ['\n']

/-- `export_blob(node, buf, len)` for a node whose file has the name `file_name`; `buf`
holds the `len` bytes.  Returns the serial stored in `node->file->serial` and the spool
afterwards; `none` for the fatal errors.  `MAX_SERIAL_T` is the constant of `cvs.h`. -/
def export_blob (MAX_SERIAL_T striplen : Nat) (sp : Spool) (file_name : Atom)
    (buf : List Char) : Option (Nat × Spool) :=
  let extralen := if file_name.drop striplen = ".cvsignore,v".toList then CVS_IGNORES.length else 0
  if sp.seqno ≥ MAX_SERIAL_T then none
  else
    match blobfile sp.blobdir (sp.seqno + 1) true sp.fs with
    | none => none
    | some (path, fs1) =>
      match fs1.write path (blob_image extralen buf) with
      | none => none
      | some fs2 => some (sp.seqno + 1, { sp with seqno := sp.seqno + 1, fs := fs2 })

/-- The test of `export_wrap` on the path of a blob: longer than 3 and ending with `/=0`. -/
def ends_fanout_zero (path : List Char) : Bool :=
  decide (3 < path.length) && path.getD (path.length - 3) ' ' == '/' &&
    path.getD (path.length - 2) ' ' == '=' && path.getD (path.length - 1) ' ' == '0'

/-- The loop `while (seqno)` of `export_wrap`, from the value `seqno`. -/
def export_wrap_loop (blobdir : List Char) : Nat → FileSys → Option FileSys
  | 0, fs => some fs
  | seqno + 1, fs =>
    match blobfile blobdir (seqno + 1) false fs with
    | none => none
    | some (path, fs0) =>
      let fs1 := fs0.unlink path
      let fs2 := if ends_fanout_zero path then
          (fs1.rmdir (path.take (path.length - 3))).getD fs1
        else fs1
      export_wrap_loop blobdir seqno fs2

/-- `export_wrap()`: what it prints, whether the last `rmdir` failed (`perror`), and the
spool afterwards. -/
def export_wrap (sp : Spool) : Option (List Out × Bool × Spool) :=
  match export_wrap_loop sp.blobdir sp.seqno sp.fs with
  | none => none
  | some fs =>
    match fs.rmdir sp.blobdir with
    | some fs1 => some ([Out.done], false, { sp with seqno := 0, fs := fs1 })
    | none => some ([Out.done], true, { sp with seqno := 0, fs := fs })

/-- The spool after `export_blob` was called on each of the files, in order; `none` when a
call was fatal. -/
def spool_all (MAX_SERIAL_T striplen : Nat) (sp : Spool) :
    List (Atom × List Char) → Option Spool
  | [] => some sp
  | (file_name, buf) :: rest =>
    match export_blob MAX_SERIAL_T striplen sp file_name buf with
    | none => none
    | some (_, sp1) => spool_all MAX_SERIAL_T striplen sp1 rest

/-- The digits of a serial in base 256, least significant first; the serial 0 has the one
digit 0. -/
def fanout_digits (s : Nat) : List Nat := if s = 0 then [0] else Nat.digits 256 s

/-- The path of a blob in the words of the specification: one component per digit in
base 256, least significant first, each in hexadecimal, the last one behind a `=`. -/
def fanout_path (blobdir : List Char) (s : Nat) : List Char :=
  blobdir ++ (fanout_digits s).dropLast.flatMap (fun d => '/' :: hex d) ++
    '/' :: '=' :: hex ((fanout_digits s).getLastD 0)

/-- What the spool holds while blobs are spooled and streamed out: the spool directory
exists; every other directory has a last component that does not begin with `=`; the last
component of every file begins with `=`. -/
def SpoolInv (blobdir : List Char) (fs : FileSys) : Prop :=
  blobdir ∈ fs.dirs ∧
  (∀ d ∈ fs.dirs, d = blobdir ∨ ∃ P S, d = P ++ '/' :: S ∧ '/' ∉ S ∧ S.head? ≠ some '=') ∧
  (∀ f ∈ fs.files, ∃ P S, f.1 = P ++ '/' :: '=' :: S ∧ '/' ∉ S)

/-! ## The synthesized default ignores in the stream -/

/-- A line of a commit record that is a file operation: `M` or `D`. -/
def is_fileop : Out → Bool
  | Out.M _ _ _ => true
  | Out.D _ => true
  | _ => false

/-- A file operation on the path `.gitignore`. -/
def touches_gitignore : Out → Bool
  | Out.M _ _ path => path == ".gitignore".toList
  | Out.D path => path == ".gitignore".toList
  | _ => false

/-- A line that is neither a file operation, nor the synthesized `.gitignore`, nor the
blank line that closes a commit record. -/
def plain_line : Out → Bool
  | Out.M _ _ _ => false
  | Out.D _ => false
  | Out.ignores => false
  | Out.newline => false
  | _ => true

/-- A step that leaves `need_ignores` alone and prints plain lines only. -/
def PlainStep (st st' : Exporter) : Prop :=
  st'.need_ignores = st.need_ignores ∧
  ∃ l, st'.out = st.out ++ l ∧ ∀ e ∈ l, plain_line e = true

/-- In a stream, a synthesized `.gitignore` comes after no other one, after no complete
commit record and after no file operation on `.gitignore`. -/
def ignores_first (out : List Out) : Prop :=
  EachAfter (fun x pre => x = Out.ignores →
    ∀ e ∈ pre, e ≠ Out.ignores ∧ e ≠ Out.newline ∧ touches_gitignore e = false) out

/-- In a stream, a file operation that comes after a synthesized `.gitignore` comes after
the blank line that closes a commit record too: it is not in the record of the synthesized
`.gitignore`. -/
def fileops_closed (out : List Out) : Prop :=
  EachAfter (fun x pre => is_fileop x = true → Out.ignores ∈ pre → Out.newline ∈ pre) out

/-- The one-shot default ignores: what holds of the stream inside a commit record.  While
`need_ignores` is set the stream holds no synthesized `.gitignore`, no complete commit
record and no file operation on `.gitignore`. -/
def ignores_open (st : Exporter) : Prop :=
  (st.need_ignores = true →
    ∀ e ∈ st.out, e ≠ Out.ignores ∧ e ≠ Out.newline ∧ touches_gitignore e = false) ∧
  ignores_first st.out ∧ fileops_closed st.out

/-- The one-shot default ignores: what the run maintains between commit records.  A
synthesized `.gitignore` in the stream lies in a complete record. -/
def ignores_inv (st : Exporter) : Prop :=
  ignores_open st ∧ (Out.ignores ∈ st.out → Out.newline ∈ st.out)

/-- A child of the first commit of scenario S1 that adds a `.cvsignore` at the top. -/
def ign_c1 : git_commit :=
  .mk 120 (some s1_c0) false 1000000060 "u".toList "log1".toList
    [[⟨30, ".cvsignore,v".toList, rev_1_1, 0o444, 2⟩, s1_foo_1_1]] [4, 2]

/-- The head `master` at `ign_c1`. -/
def ign_master : rev_ref := ⟨5, "master".toList, ign_c1, false⟩

/-! ## Commit records in the stream -/

/-- The ref of the `commit` line that opens a commit record. -/
def commit_ref : Out → Option (List Char)
  | Out.commit ref => some ref
  | _ => none

/-- A first commit whose effective date in the sample environment, 1631152000, is taken
as `fromtime`. -/
def cut_c0 : git_commit :=
  .mk 130 none false 1000000000 "u".toList "log0".toList [[s1_foo_1_1]] [4, 0]

/-- The head `master` at `cut_c0`. -/
def cut_master : rev_ref := ⟨6, "master".toList, cut_c0, false⟩

/-! ## Fan-out subdirectories of the blob spool -/

/-- The second inner loop of phase 1 for the head `h`, from the counter `i` and the rest of
the chain: the stores `history[n] = (c, h)` with `n = branchbase + branchlength - (i + 1)`,
in the order they are made. -/
def fill_chain (branchbase branchlength : Nat) (h : rev_ref) :
    Nat → List git_commit → List (Nat × commit_seq)
  | _, [] => []
  | i, c :: rest =>
    (branchbase + branchlength - (i + 1), ⟨c, h⟩) ::
      fill_chain branchbase branchlength h (i + 1) rest

/-- Phase 1 of canonical mode over the heads, from the value `branchbase`: every store into
`history`, in order.  `branchlength` is the length of the walk
`for (c = h->commit; c; c = (c->tail ? NULL : c->parent))`. -/
def fill_history : Nat → List rev_ref → List (Nat × commit_seq)
  | _, [] => []
  | branchbase, h :: hs =>
    if h.tail then fill_history branchbase hs
    else
      fill_chain branchbase (branch_chain h.commit).length h 0 (branch_chain h.commit) ++
        fill_history (branchbase + (branch_chain h.commit).length) hs

/-- The array `history` after phase 1: `xcalloc` hands out `export_total_commits` zeroed
entries (`none`), into which the stores are made. -/
def history_array (heads : List rev_ref) : List (Option commit_seq) :=
  (fill_history 0 heads).foldl (fun arr w => arr.set w.1 (some w.2))
    (List.replicate (export_ncommit heads) none)

/-- One round of an export loop that reports every commit: `export_commit` on the entry,
then the tag loop. -/
def export_round (env : Env) (branch_pfx : List Char) (revmap reposurgeon force_dates : Bool)
    (st : Exporter) (hp : commit_seq) : Exporter :=
  emit_tags env hp.commit
    (export_commit env hp.commit branch_pfx hp.head.ref_name true revmap reposurgeon force_dates st)

/-- A first commit dated after its child. -/
def late_c0 : git_commit :=
  .mk 140 none false 1000000060 "u".toList "log0".toList [[s1_foo_1_1]] [4, 0]

/-- The child of `late_c0`, dated before it. -/
def late_c1 : git_commit :=
  .mk 141 (some late_c0) false 1000000000 "u".toList "log1".toList [[s1_foo_1_2]] [4, 0]

/-- The head `master` at `late_c1`. -/
def late_master : rev_ref := ⟨7, "master".toList, late_c1, false⟩

/-! ## Dates in the stream -/

/-- The date of the `committer` line of a commit record. -/
def committer_date : Out → Option Int
  | Out.committer _ _ ct _ => some ct
  | _ => none

/-- A first commit dated 2^31 seconds after the RCS epoch. -/
def far_c0 : git_commit :=
  .mk 150 none false 2147483648 "u".toList "far".toList [[s1_foo_1_1]] [4, 0]

/-- A first commit dated at the RCS epoch. -/
def near_c0 : git_commit :=
  .mk 151 none false 0 "u".toList "near".toList [[s1_foo_1_2]] [4, 0]

/-- The head `far` at `far_c0`. -/
def far_head : rev_ref := ⟨8, "far".toList, far_c0, false⟩

/-- The head `near` at `near_c0`. -/
def near_head : rev_ref := ⟨9, "near".toList, near_c0, false⟩

/-! ## The loops of `build_branches` -/

/-- The table with which `build_branches` enters its first loop: `head_node` is set when
the last entry of the sorted array `v` has depth 2. -/
def trunk_if_last (v : List Nat) (t : NodeTable) : NodeTable :=
  match v.getLast? with
  | some l => if (t.node l).number.c = 2 then { t with head_node := some l } else t
  | none => t

/-- The first loop of `build_branches` over the array `v`: `try_pair` on the adjacent
pairs, from the last pair down to the first. -/
def pair_loop (v : List Nat) (t : NodeTable) : NodeTable :=
  (v.zip v.tail).foldr (fun ab s => try_pair s ab.1 ab.2) t

/-- The second loop of `build_branches` over the array `v`, from the last entry down to
the first. -/
def down_loop (v : List Nat) (t : NodeTable) : NodeTable :=
  v.foldr (fun a s => link_down s a) t

/-- The two numbers have the same first `k` components. -/
def agree (k : Nat) (x y : cvs_number) : Bool :=
  (List.range k).all (fun i => decide (x.n i = y.n i))

/-- The list reached from `first` through `sib`, `sib`, ..., read for at most `fuel`
nodes. -/
def sib_list (t : NodeTable) : Nat → Option Nat → List Nat
  | 0, _ => []
  | _ + 1, none => []
  | fuel + 1, some a => a :: sib_list t fuel (t.node a).sib

/-- The list `p->down`, then `->sib`, `->sib`, ..., read for at most `fuel` nodes. -/
def down_list (t : NodeTable) (fuel : Nat) (p : Nat) : List Nat :=
  sib_list t fuel (t.node p).down

/-- The list `l` is what is reached from `first` through `sib`, and the last of its nodes
has no `sib`. -/
def sib_chain (t : NodeTable) : Option Nat → List Nat → Prop
  | first, [] => first = none
  | first, a :: l => first = some a ∧ sib_chain t (t.node a).sib l

/-- The test under which `try_pair(a, b)` links `a` to `b` and returns: the same depth,
and either depth 2 or the same components but the last. -/
def pair_linked (x y : cvs_number) : Bool :=
  decide (x.c = y.c) && (decide (x.c = 2) || agree (x.c - 1) x y)

/-- The revision number 1.2.2.1, the first revision of the branch 1.2.2. -/
def rev_1_2_2_1 : cvs_number :=
  ⟨4, fun i => if i = 0 then 1 else if i = 1 then 2 else if i = 2 then 2 else if i = 3 then 1
    else 0⟩

/-- The revision number 1.2.2.2, the second revision of the branch 1.2.2. -/
def rev_1_2_2_2 : cvs_number :=
  ⟨4, fun i => if i = 0 then 1 else if i = 1 then 2 else if i = 2 then 2 else if i = 3 then 2
    else 0⟩

/-- The revision number 1.2.4.1, the first revision of the branch 1.2.4. -/
def rev_1_2_4_1 : cvs_number :=
  ⟨4, fun i => if i = 0 then 1 else if i = 1 then 2 else if i = 2 then 4 else if i = 3 then 1
    else 0⟩

/-! ## A commit with several files -/

/-- C1: in scenario S1 the second commit gets the operations `M foo` and `D foo`, not the
single `M`, and a child that carries the unchanged file (same serial) gets `M foo` and
`D foo` too, where nothing should be emitted: the inverted Bloom probe of
`compute_parent_links` leaves the file unlinked. -/
theorem s1_fileops_with_inverted_probe :
    build_fileops 0 sample_bloom s1_c1 (fun _ => none)
      = [⟨'M', 0o644, 2, "foo".toList⟩, ⟨'D', 0, 0, "foo".toList⟩] ∧
    build_fileops 0 sample_bloom s1_c1_same (fun _ => none)
      = [⟨'M', 0o644, 1, "foo".toList⟩, ⟨'D', 0, 0, "foo".toList⟩] := by
  decide

/-- C2: in scenario S1 the file `foo,v` occurs in the commit and in its parent, the parent
Bloom filter is the union of its files' signatures, and yet after `compute_parent_links`
both records have `u.other = NULL`: the probe skips a file as soon as one bit of its
signature is set in the parent filter. -/
theorem s1_links_with_inverted_probe :
    bloom_probe (sample_bloom s1_foo_1_2.file_name) s1_c0.bloom = true ∧
    (compute_parent_links sample_bloom s1_c1 s1_c0 (fun _ => none) s1_foo_1_2.addr).isNone = true ∧
    (compute_parent_links sample_bloom s1_c1 s1_c0 (fun _ => none) s1_foo_1_1.addr).isNone = true := by
  decide

/-! ## The Bloom probe of `compute_parent_links` -/

theorem incl_or_left (a b c : Nat) (h : a &&& b = a) : a &&& (b ||| c) = a := by
  apply Nat.eq_of_testBit_eq
  intro i
  have := congrArg (fun x => Nat.testBit x i) h
  simp only [Nat.testBit_and, Nat.testBit_or] at this ⊢
  cases h1 : Nat.testBit a i <;> cases h2 : Nat.testBit b i <;> simp_all

theorem incl_or_right (a b : Nat) : a &&& (b ||| a) = a := by
  apply Nat.eq_of_testBit_eq
  intro i
  simp only [Nat.testBit_and, Nat.testBit_or]
  cases Nat.testBit a i <;> simp

theorem incl_zipWith_left {sig acc : List Nat} (h : List.Forall₂ (fun x y => x &&& y = x) sig acc) :
    ∀ s : List Nat, s.length = acc.length →
      List.Forall₂ (fun x y => x &&& y = x) sig (List.zipWith (fun a b => a ||| b) acc s) := by
  induction h with
  | nil => intro s _; simp
  | cons hxy _ ih =>
    intro s hs
    cases s with
    | nil => simp at hs
    | cons z s =>
      simp only [List.zipWith_cons_cons]
      exact List.Forall₂.cons (incl_or_left _ _ _ hxy) (ih s (by simpa using hs))

theorem incl_zipWith_right :
    ∀ (acc s : List Nat), s.length = acc.length →
      List.Forall₂ (fun x y => x &&& y = x) s (List.zipWith (fun a b => a ||| b) acc s)
  | [], [], _ => List.Forall₂.nil
  | [], _ :: _, h => by simp at h
  | _ :: _, [], h => by simp at h
  | a :: acc, z :: s, h => by
    simp only [List.zipWith_cons_cons]
    exact List.Forall₂.cons (incl_or_right z a) (incl_zipWith_right acc s (by simpa using h))

theorem incl_fold (sig : List Nat) :
    ∀ (sigs : List bloom_t) (acc : bloom_t), (∀ s ∈ sigs, s.length = acc.length) →
      (List.Forall₂ (fun x y => x &&& y = x) sig acc ∨ sig ∈ sigs) →
      List.Forall₂ (fun x y => x &&& y = x) sig
        (sigs.foldl (fun acc s => List.zipWith (fun a b => a ||| b) acc s) acc) := by
  intro sigs
  induction sigs with
  | nil =>
    intro acc _ h
    rcases h with h | h
    · exact h
    · simp at h
  | cons s sigs ih =>
    intro acc hl h
    simp only [List.foldl_cons]
    have hs : s.length = acc.length := hl s (List.mem_cons_self _ _)
    apply ih
    · intro t ht
      rw [List.length_zipWith, hs, Nat.min_self]
      exact hl t (List.mem_cons_of_mem _ ht)
    · rcases h with h | h
      · exact Or.inl (incl_zipWith_left h s hs)
      · rcases List.mem_cons.mp h with h1 | h1
        · left; rw [h1]; exact incl_zipWith_right acc s hs
        · exact Or.inr h1

theorem bloom_probe_of_incl {sig u : List Nat}
    (h : List.Forall₂ (fun x y => x &&& y = x) sig u) (hne : ∃ w ∈ sig, w ≠ 0) :
    bloom_probe sig u = true := by
  unfold bloom_probe
  induction h with
  | nil => obtain ⟨w, hw, _⟩ := hne; simp at hw
  | cons hxy _ ih =>
    rename_i x y xs ys
    simp only [List.zipWith_cons_cons, List.any_cons, Bool.or_eq_true]
    obtain ⟨w, hw, hw0⟩ := hne
    rcases List.mem_cons.mp hw with h1 | h1
    · left
      rw [hxy, ← h1]
      simpa using hw0
    · exact Or.inr (ih ⟨w, h1, hw0⟩)

/-- The probe as written answers `true`, the branch that skips the file, for every
signature with a bit set that went into the union the parent filter is. -/
theorem bloom_probe_member (len : Nat) (sigs : List bloom_t) (sig : bloom_t)
    (hlen : ∀ s ∈ sigs, s.length = len) (hmem : sig ∈ sigs) (hne : ∃ w ∈ sig, w ≠ 0) :
    bloom_probe sig (bloom_union len sigs) = true := by
  apply bloom_probe_of_incl _ hne
  unfold bloom_union
  exact incl_fold sig sigs _ (fun s hs => by rw [hlen s hs]; simp) (Or.inr hmem)

theorem scan_parent_none (cf : rev_file) :
    ∀ it : file_iter, (∀ pf ∈ it, cf.file_name ≠ pf.file_name) → scan_parent cf it = none := by
  intro it
  induction it with
  | nil => intro _; rfl
  | cons pf it ih =>
    intro h
    unfold scan_parent
    rw [if_neg (h pf (List.mem_cons_self _ _))]
    exact ih (fun x hx => h x (List.mem_cons_of_mem _ hx))

theorem link_loop_skips (atom_bloom : Atom → bloom_t) (parent_bloom : bloom_t)
    (parent_iter : file_iter) :
    ∀ (commit_iter : file_iter) (maxmatch : Nat) (other : Links),
      (∀ cf ∈ commit_iter, bloom_probe (atom_bloom cf.file_name) parent_bloom = true ∨
        ∀ pf ∈ parent_iter, cf.file_name ≠ pf.file_name) →
      link_loop atom_bloom parent_bloom commit_iter parent_iter maxmatch other = other := by
  intro commit_iter
  induction commit_iter with
  | nil => intro _ _ _; rfl
  | cons cf commit_iter ih =>
    intro maxmatch other h
    unfold link_loop
    have ih' := ih maxmatch other (fun x hx => h x (List.mem_cons_of_mem _ hx))
    rcases h cf (List.mem_cons_self _ _) with h1 | h1
    · rw [if_pos h1]; exact ih'
    · split_ifs
      · exact ih'
      · rw [scan_parent_none cf parent_iter h1]
        exact ih'

theorem clear_links_apply :
    ∀ (files : List rev_file) (other : Links) (a : Nat),
      clear_links files other a = if a ∈ files.map (fun f => f.addr) then none else other a := by
  intro files
  unfold clear_links
  induction files with
  | nil => intro other a; simp
  | cons f files ih =>
    intro other a
    simp only [List.foldl_cons, List.map_cons, List.mem_cons]
    rw [ih]
    by_cases h1 : a ∈ files.map (fun f => f.addr)
    · simp [h1]
    · by_cases h2 : a = f.addr
      · rw [if_neg h1, if_pos (Or.inl h2), h2, Function.update_same]
      · rw [if_neg h1, if_neg (fun h => h.elim h2 h1), Function.update_noteq h2]

/-- The defect behind C1 and C2, for every commit with a parent: when the parent filter is
the union of the signatures of the parent files and every signature has `len` words and
a bit set, `compute_parent_links` links nothing; every file of the commit and of the
parent ends with `u.other = NULL`, also the commit files whose atom occurs in the parent. -/
theorem inverted_probe_links_nothing (atom_bloom : Atom → bloom_t) (len : Nat)
    (commit parent : git_commit) (other0 : Links)
    (hbloom : parent.bloom
      = bloom_union len (parent.dirs.flatten.map (fun f => atom_bloom f.file_name)))
    (hlen : ∀ a, (atom_bloom a).length = len)
    (hne : ∀ a, ∃ w ∈ atom_bloom a, w ≠ 0) :
    ∀ f ∈ commit.dirs.flatten ++ parent.dirs.flatten,
      compute_parent_links atom_bloom commit parent other0 f.addr = none := by
  intro f hf
  unfold compute_parent_links
  simp only [file_iter_start]
  rw [link_loop_skips]
  · rw [clear_links_apply]
    by_cases h1 : f.addr ∈ parent.dirs.flatten.map (fun f => f.addr)
    · rw [if_pos h1]
    · rw [if_neg h1, clear_links_apply]
      have h2 : f ∈ commit.dirs.flatten := by
        rcases List.mem_append.mp hf with h | h
        · exact h
        · exact absurd (List.mem_map_of_mem _ h) h1
      rw [if_pos (List.mem_map_of_mem _ h2)]
  · intro cf _
    by_cases hex : ∃ pf ∈ parent.dirs.flatten, cf.file_name = pf.file_name
    · left
      obtain ⟨pf, hpf, e⟩ := hex
      rw [hbloom]
      apply bloom_probe_member len _ _ _ _ (hne _)
      · intro s hs
        obtain ⟨g, _, rfl⟩ := List.mem_map.mp hs
        exact hlen _
      · rw [e]
        exact List.mem_map_of_mem _ hpf
    · right
      intro pf hpf e
      exact hex ⟨pf, hpf, e⟩

/-- C8, as stated, fails: 1.0.0.4 has a zero before its last component, yet on the empty
table `hash_number` interns it as node 0 (with three components) and then interns its
normalized form 1.0.4 as a second node, node 1 (with two components). -/
theorem double_zero_two_nodes :
    2 < rev_1_0_0_4.c ∧ rev_1_0_0_4.n (rev_1_0_0_4.c - 2) = 0 ∧
    (hash_number NodeTable.empty rev_1_0_0_4).1 = 0 ∧
    (hash_number (hash_number NodeTable.empty rev_1_0_0_4).2 (collapse rev_1_0_0_4)).1 = 1 ∧
    (hash_number (hash_number NodeTable.empty rev_1_0_0_4).2 (collapse rev_1_0_0_4)).2.nentries = 2 ∧
    ((hash_number NodeTable.empty rev_1_0_0_4).2.node 0).number.c = 3 ∧
    ((hash_number (hash_number NodeTable.empty rev_1_0_0_4).2 (collapse rev_1_0_0_4)).2.node 1).number.c
      = 2 := by
  decide

theorem same_number_refl (key : cvs_number) : same_number key key = true := by
  simp [same_number]

theorem hash_number_found {t : NodeTable} {n : cvs_number} {p : Nat}
    (h : bucket_find t (normalize_key n) = some p) : hash_number t n = (p, t) := by
  simp [hash_number, h]

theorem hash_number_new {t : NodeTable} {n : cvs_number}
    (h : bucket_find t (normalize_key n) = none) :
    hash_number t n = (t.brk, t.alloc (normalize_key n)) := by
  simp [hash_number, h]

theorem bucket_find_alloc (t : NodeTable) (key : cvs_number) :
    bucket_find (t.alloc key) key = some t.brk := by
  simp [bucket_find, NodeTable.alloc, Node.fresh, same_number_refl]

theorem normalize_key_collapse (n : cvs_number) (h1 : 2 < n.c) (h2 : n.n (n.c - 2) = 0)
    (h3 : n.c = 3 ∨ n.n (n.c - 3) ≠ 0) : normalize_key (collapse n) = normalize_key n := by
  have hcond : ¬ (2 < (collapse n).c ∧ (collapse n).n ((collapse n).c - 2) = 0) := by
    rintro ⟨ha, hb⟩
    simp only [collapse] at ha hb
    have hne : n.c - 1 - 2 ≠ n.c - 2 := by omega
    rw [Function.update_noteq hne] at hb
    rcases h3 with h3 | h3
    · omega
    · apply h3
      have : n.c - 3 = n.c - 1 - 2 := by omega
      rw [this]; exact hb
  have e1 : collapse_magic (collapse n) = collapse n := by
    unfold collapse_magic; rw [if_neg hcond]
  have e2 : collapse_magic n = collapse n := by
    unfold collapse_magic; rw [if_pos ⟨h1, h2⟩]; rfl
  unfold normalize_key
  rw [e1, e2]

/-- A call of `hash_number` right after one with the same key returns the same node. -/
theorem hash_number_again (t : NodeTable) (n m : cvs_number)
    (h : normalize_key m = normalize_key n) :
    (hash_number (hash_number t n).2 m).1 = (hash_number t n).1 := by
  cases hf : bucket_find t (normalize_key n) with
  | some p =>
    rw [hash_number_found hf]
    have : bucket_find t (normalize_key m) = some p := by rw [h]; exact hf
    rw [hash_number_found this]
  | none =>
    rw [hash_number_new hf]
    have : bucket_find (t.alloc (normalize_key n)) (normalize_key m) = some t.brk := by
      rw [h]; exact bucket_find_alloc t _
    rw [hash_number_found this]

/-- C8, amended: for every table state and every number `n` with `c > 2`, `n[c-2] = 0` and
no second zero before it (`c = 3` or `n[c-3] != 0`), `hash_number` computes the same key
for `n` and for its normalized form, so that on the same table both calls give the same
result, and called one after the other, in either order, they return the same node. -/
theorem hash_number_normalized (t : NodeTable) (n : cvs_number) (h1 : 2 < n.c)
    (h2 : n.n (n.c - 2) = 0) (h3 : n.c = 3 ∨ n.n (n.c - 3) ≠ 0) :
    hash_number t (collapse n) = hash_number t n ∧
    (hash_number (hash_number t n).2 (collapse n)).1 = (hash_number t n).1 ∧
    (hash_number (hash_number t (collapse n)).2 n).1 = (hash_number t (collapse n)).1 :=
  ⟨by unfold hash_number; rw [normalize_key_collapse n h1 h2 h3],
   hash_number_again t n (collapse n) (normalize_key_collapse n h1 h2 h3),
   hash_number_again t (collapse n) n (normalize_key_collapse n h1 h2 h3).symm⟩

/-- C8, amended, at the magic branch number 1.2.0.4 on the empty table. -/
theorem hash_number_normalized_witness :
    (2 < rev_1_2_0_4.c ∧ rev_1_2_0_4.n (rev_1_2_0_4.c - 2) = 0) ∧
    (hash_number NodeTable.empty (collapse rev_1_2_0_4) = hash_number NodeTable.empty rev_1_2_0_4 ∧
    (hash_number (hash_number NodeTable.empty rev_1_2_0_4).2 (collapse rev_1_2_0_4)).1
      = (hash_number NodeTable.empty rev_1_2_0_4).1 ∧
    (hash_number (hash_number NodeTable.empty (collapse rev_1_2_0_4)).2 rev_1_2_0_4).1
      = (hash_number NodeTable.empty (collapse rev_1_2_0_4)).1) :=
  ⟨by decide, hash_number_normalized NodeTable.empty rev_1_2_0_4 (by decide) (by decide)
    (by decide)⟩

theorem same_number_iff (a b : cvs_number) :
    same_number a b = true ↔ a.c = b.c ∧ ∀ i, i < b.c → a.n i = b.n i := by
  simp [same_number]

theorem same_number_symm {a b : cvs_number} (h : same_number a b = true) :
    same_number b a = true := by
  rw [same_number_iff] at h ⊢
  exact ⟨h.1.symm, fun i hi => (h.2 i (h.1 ▸ hi)).symm⟩

theorem same_number_trans {a b c : cvs_number} (h1 : same_number a b = true)
    (h2 : same_number b c = true) : same_number a c = true := by
  rw [same_number_iff] at h1 h2 ⊢
  exact ⟨h1.1.trans h2.1, fun i hi => (h1.2 i (h2.1 ▸ hi)).trans (h2.2 i hi)⟩

theorem bucket_of_congr {a b : cvs_number} (h : same_number a b = true) (hb : 1 ≤ b.c) :
    bucket_of a = bucket_of b := by
  rw [same_number_iff] at h
  unfold bucket_of
  have e1 : (List.range (a.c - 1)).map a.n = (List.range (b.c - 1)).map b.n := by
    rw [h.1]
    apply List.map_congr_left
    intro i hi
    exact h.2 i (by have := List.mem_range.mp hi; omega)
  rw [e1, h.1, h.2 (b.c - 1) (by omega)]

theorem bucket_of_lt (key : cvs_number) : bucket_of key < NODE_HASH_SIZE := by
  unfold bucket_of
  exact Nat.mod_lt _ (by decide)

theorem normalize_key_c_pos (n : cvs_number) (h : 1 ≤ n.c) : 1 ≤ (normalize_key n).c := by
  unfold normalize_key zero_odd collapse_magic
  split_ifs <;> first | exact h | (show 1 ≤ n.c - 1; omega)

theorem mem_all_nodes (t : NodeTable) (a : Nat) :
    a ∈ all_nodes t ↔ ∃ h, h < NODE_HASH_SIZE ∧ a ∈ t.table h := by
  simp [all_nodes]

theorem NodeTable.WF.mem_nodes {t : NodeTable} (hw : t.WF) {h a : Nat} (ha : a ∈ t.table h) :
    a ∈ all_nodes t :=
  (mem_all_nodes t a).mpr ⟨h, (hw.1 h a ha).2.1, ha⟩

theorem nodup_all_nodes_of (t : NodeTable)
    (hb : ∀ h a, a ∈ t.table h → bucket_of (t.node a).number = h)
    (hn : ∀ h, (t.table h).Nodup) : (all_nodes t).Nodup := by
  unfold all_nodes
  rw [List.nodup_flatMap]
  refine ⟨fun h _ => hn h, ?_⟩
  apply List.Pairwise.imp_of_mem ?_ (List.nodup_range NODE_HASH_SIZE)
  intro h1 h2 _ _ hne
  show List.Disjoint (t.table h1) (t.table h2)
  intro a ha1 ha2
  exact hne ((hb h1 a ha1).symm.trans (hb h2 a ha2))

theorem NodeTable.WF.nodup_all_nodes {t : NodeTable} (hw : t.WF) : (all_nodes t).Nodup :=
  nodup_all_nodes_of t (fun h a ha => (hw.1 h a ha).2.2.1) hw.2.1

/-- On a well-formed table the bucket walk finds a node exactly when a node with that
number is interned, and it finds that node. -/
theorem NodeTable.WF.bucket_find_iff {t : NodeTable} (hw : t.WF) (key : cvs_number) (hk : 1 ≤ key.c)
    (p : Nat) :
    bucket_find t key = some p ↔ p ∈ all_nodes t ∧ same_number (t.node p).number key = true := by
  constructor
  · intro h
    unfold bucket_find at h
    exact ⟨hw.mem_nodes (List.mem_of_find?_eq_some h),
      List.find?_some (p := fun p => same_number (t.node p).number key) h⟩
  · rintro ⟨hp, hs⟩
    obtain ⟨h, _, hph⟩ := (mem_all_nodes t p).mp hp
    have hb : bucket_of key = h := by
      rw [← bucket_of_congr hs hk]; exact (hw.1 h p hph).2.2.1
    cases hf : bucket_find t key with
    | none =>
      exfalso
      unfold bucket_find at hf
      rw [List.find?_eq_none] at hf
      exact hf p (hb ▸ hph) hs
    | some q =>
      unfold bucket_find at hf
      have hq := List.mem_of_find?_eq_some hf
      have hqs : same_number (t.node q).number key = true :=
        List.find?_some (p := fun p => same_number (t.node p).number key) hf
      rw [hw.2.2.1 _ _ q p hq hph (same_number_trans hqs (same_number_symm hs))]

theorem NodeTable.WF.empty : NodeTable.empty.WF := by
  refine ⟨?_, ?_, ?_, ?_⟩
  · intro h a ha; simp [NodeTable.empty] at ha
  · intro h; simp [NodeTable.empty]
  · intro h1 h2 a b ha; simp [NodeTable.empty] at ha
  · simp [NodeTable.empty, all_nodes, List.flatMap]

theorem alloc_table (t : NodeTable) (key : cvs_number) (h : Nat) :
    (t.alloc key).table h = if h = bucket_of key then t.brk :: t.table h else t.table h := by
  unfold NodeTable.alloc
  by_cases e : h = bucket_of key
  · subst e; simp
  · simp [Function.update_noteq e, e]

theorem alloc_node_old (t : NodeTable) (key : cvs_number) {a : Nat} (ha : a < t.brk) :
    (t.alloc key).node a = t.node a := by
  unfold NodeTable.alloc
  simp [Function.update_noteq (Nat.ne_of_lt ha)]

theorem alloc_node_new (t : NodeTable) (key : cvs_number) :
    (t.alloc key).node t.brk = Node.fresh key := by
  simp [NodeTable.alloc]

theorem mem_alloc_table {t : NodeTable} {key : cvs_number} {h a : Nat}
    (ha : a ∈ (t.alloc key).table h) : (a = t.brk ∧ h = bucket_of key) ∨ a ∈ t.table h := by
  rw [alloc_table] at ha
  split_ifs at ha with e
  · rcases List.mem_cons.mp ha with h1 | h1
    · exact Or.inl ⟨h1, e⟩
    · exact Or.inr h1
  · exact Or.inr ha

theorem mem_all_nodes_alloc (t : NodeTable) (key : cvs_number) (a : Nat) :
    a ∈ all_nodes (t.alloc key) ↔ a = t.brk ∨ a ∈ all_nodes t := by
  rw [mem_all_nodes, mem_all_nodes]
  constructor
  · rintro ⟨h, hh, ha⟩
    rcases mem_alloc_table ha with h1 | h1
    · exact Or.inl h1.1
    · exact Or.inr ⟨h, hh, h1⟩
  · rintro (h1 | ⟨h, hh, ha⟩)
    · refine ⟨bucket_of key, bucket_of_lt key, ?_⟩
      rw [alloc_table, if_pos rfl, h1]; exact List.mem_cons_self _ _
    · refine ⟨h, hh, ?_⟩
      rw [alloc_table]; split_ifs
      · exact List.mem_cons_of_mem _ ha
      · exact ha

/-- After an allocation the nodes of the table are the new node and the old ones. -/
theorem NodeTable.WF.all_nodes_alloc_perm {t : NodeTable} (hw : t.WF) (key : cvs_number)
    (hnd : (all_nodes (t.alloc key)).Nodup) :
    (all_nodes (t.alloc key)).Perm (t.brk :: all_nodes t) := by
  have hbn : t.brk ∉ all_nodes t := by
    intro h
    obtain ⟨b, _, hb⟩ := (mem_all_nodes t _).mp h
    exact Nat.lt_irrefl _ (hw.1 b _ hb).1
  rw [List.perm_ext_iff_of_nodup hnd (List.nodup_cons.mpr ⟨hbn, hw.nodup_all_nodes⟩)]
  intro a
  rw [mem_all_nodes_alloc, List.mem_cons]

/-- Allocating a node for a key that no interned node carries keeps the table well formed. -/
theorem NodeTable.WF.alloc {t : NodeTable} (hw : t.WF) (key : cvs_number) (hk : 1 ≤ key.c)
    (hnew : ∀ a ∈ all_nodes t, same_number (t.node a).number key = false) :
    (t.alloc key).WF := by
  have hbrk : (t.alloc key).brk = t.brk + 1 := rfl
  have w1 : ∀ h a, a ∈ (t.alloc key).table h →
      a < (t.alloc key).brk ∧ h < NODE_HASH_SIZE ∧
      bucket_of ((t.alloc key).node a).number = h ∧ 1 ≤ ((t.alloc key).node a).number.c := by
    intro h a ha
    rcases mem_alloc_table ha with ⟨h1, h2⟩ | h1
    · subst h1 h2
      rw [alloc_node_new]
      exact ⟨by rw [hbrk]; omega, bucket_of_lt key, rfl, hk⟩
    · have := hw.1 h a h1
      rw [alloc_node_old t key this.1]
      exact ⟨by rw [hbrk]; omega, this.2⟩
  have w2 : ∀ h, ((t.alloc key).table h).Nodup := by
    intro h
    rw [alloc_table]
    split_ifs
    · refine List.nodup_cons.mpr ⟨?_, hw.2.1 h⟩
      intro hm
      exact Nat.lt_irrefl _ (hw.1 h _ hm).1
    · exact hw.2.1 h
  have w3 : ∀ h1 h2 a b, a ∈ (t.alloc key).table h1 → b ∈ (t.alloc key).table h2 →
      same_number ((t.alloc key).node a).number ((t.alloc key).node b).number = true → a = b := by
    intro h1 h2 a b ha hb hs
    rcases mem_alloc_table ha with ⟨ea, _⟩ | ha'
    · rcases mem_alloc_table hb with ⟨eb, _⟩ | hb'
      · rw [ea, eb]
      · exfalso
        rw [ea, alloc_node_new, alloc_node_old t key (hw.1 h2 b hb').1] at hs
        have := hnew b (hw.mem_nodes hb')
        have hs' : same_number (t.node b).number key = true := same_number_symm hs
        rw [hs'] at this
        exact Bool.noConfusion this
    · rcases mem_alloc_table hb with ⟨eb, _⟩ | hb'
      · exfalso
        rw [eb, alloc_node_new, alloc_node_old t key (hw.1 h1 a ha').1] at hs
        have := hnew a (hw.mem_nodes ha')
        have hs' : same_number (t.node a).number key = true := hs
        rw [hs'] at this
        exact Bool.noConfusion this
      · rw [alloc_node_old t key (hw.1 h1 a ha').1, alloc_node_old t key (hw.1 h2 b hb').1] at hs
        exact hw.2.2.1 h1 h2 a b ha' hb' hs
  have hnd : (all_nodes (t.alloc key)).Nodup :=
    nodup_all_nodes_of _ (fun h a ha => (w1 h a ha).2.2.1) w2
  refine ⟨w1, w2, w3, ?_⟩
  rw [(hw.all_nodes_alloc_perm key hnd).length_eq, List.length_cons, ← hw.2.2.2]
  rfl

theorem NodeTable.WF.step {t : NodeTable} (hw : t.WF) (n : cvs_number) (hn : 1 ≤ n.c) :
    (hash_number t n).2.WF := by
  cases hf : bucket_find t (normalize_key n) with
  | some p => rw [hash_number_found hf]; exact hw
  | none =>
    rw [hash_number_new hf]
    apply hw.alloc _ (normalize_key_c_pos n hn)
    intro a ha
    cases hs : same_number (t.node a).number (normalize_key n) with
    | false => rfl
    | true =>
      have := (hw.bucket_find_iff _ (normalize_key_c_pos n hn) a).mpr ⟨ha, hs⟩
      rw [hf] at this
      exact Option.noConfusion this

theorem intern_all_snoc (ns : List cvs_number) (n : cvs_number) :
    intern_all (ns ++ [n]) = (hash_number (intern_all ns) n).2 := by
  simp [intern_all, List.foldl_append]

theorem intern_all_WF (ns : List cvs_number) (h : ∀ m ∈ ns, 1 ≤ m.c) : (intern_all ns).WF := by
  induction ns using List.reverseRecOn with
  | nil => exact NodeTable.WF.empty
  | append_singleton l n ih =>
    rw [intern_all_snoc]
    exact (ih (fun m hm => h m (List.mem_append_left _ hm))).step n
      (h n (List.mem_append_right _ (List.mem_singleton_self n)))


theorem modify_number (t : NodeTable) (a : Nat) (f : Node → Node) (x : Nat)
    (hf : ∀ nd, (f nd).number = nd.number) :
    ((t.modify a f).node x).number = (t.node x).number := by
  unfold NodeTable.modify
  by_cases e : x = a
  · subst e; simp [hf]
  · simp [Function.update_noteq e]

theorem modify_head (t : NodeTable) (a : Nat) (f : Node → Node) :
    (t.modify a f).head_node = t.head_node := rfl

theorem try_pair_starts_number (t : NodeTable) (b x : Nat) :
    ((try_pair_starts t b).node x).number = (t.node x).number := by
  unfold try_pair_starts
  split_ifs
  · simp only []
    split
    · rw [modify_number, modify_number] <;> exact fun _ => rfl
    · rw [modify_number]; exact fun _ => rfl
  · rfl

theorem try_pair_starts_head (t : NodeTable) (b : Nat) :
    (try_pair_starts t b).head_node = t.head_node := by
  unfold try_pair_starts
  split_ifs
  · simp only []
    split <;> rfl
  · rfl

theorem try_pair_number (t : NodeTable) (a b x : Nat) :
    ((try_pair t a b).node x).number = (t.node x).number := by
  unfold try_pair
  simp only []
  split_ifs
  · rw [modify_number, modify_number] <;> exact fun _ => rfl
  · rw [modify_number, modify_number] <;> exact fun _ => rfl
  · exact try_pair_starts_number t b x
  · exact try_pair_starts_number _ b x
  · exact try_pair_starts_number t b x

/-- The only write of `try_pair` to `head_node`: `a` becomes the head when it has depth 2
and `b` has another depth. -/
theorem try_pair_head (t : NodeTable) (a b : Nat) :
    (try_pair t a b).head_node =
      if (t.node a).number.c ≠ (t.node b).number.c ∧ (t.node a).number.c = 2 then some a
      else t.head_node := by
  unfold try_pair
  simp only []
  by_cases h1 : (t.node a).number.c = (t.node b).number.c
  · have hr : ¬ ((t.node a).number.c ≠ (t.node b).number.c ∧ (t.node a).number.c = 2) :=
      fun h => h.1 h1
    rw [if_neg hr, if_pos h1]
    split_ifs
    · rfl
    · rfl
    · exact try_pair_starts_head t b
  · rw [if_neg h1]
    by_cases h2 : (t.node a).number.c = 2
    · rw [if_pos h2, if_pos ⟨h1, h2⟩, try_pair_starts_head]
    · rw [if_neg h2, if_neg (fun h => h2 h.2), try_pair_starts_head]

theorem link_down_head (t : NodeTable) (a : Nat) : (link_down t a).head_node = t.head_node := by
  unfold link_down
  split_ifs
  · split <;> rfl
  · rfl

theorem link_down_number (t : NodeTable) (a x : Nat) :
    ((link_down t a).node x).number = (t.node x).number := by
  unfold link_down
  split_ifs
  · split
    · rfl
    · simp only []
      rw [modify_number, modify_number] <;> exact fun _ => rfl
  · rfl

theorem link_down_loop (v : List Nat) (t : NodeTable) :
    (v.foldr (fun a s => link_down s a) t).head_node = t.head_node ∧
    ∀ x, ((v.foldr (fun a s => link_down s a) t).node x).number = (t.node x).number := by
  induction v with
  | nil => exact ⟨rfl, fun _ => rfl⟩
  | cons a v ih =>
    simp only [List.foldr_cons]
    exact ⟨(link_down_head _ a).trans ih.1, fun x => (link_down_number _ a x).trans (ih.2 x)⟩

theorem pair_loop_number (v : List Nat) (t : NodeTable) (x : Nat) :
    (((v.zip v.tail).foldr (fun ab s => try_pair s ab.1 ab.2) t).node x).number
      = (t.node x).number := by
  induction v with
  | nil => rfl
  | cons a v ih =>
    cases v with
    | nil => rfl
    | cons b r =>
      have key : ((a :: b :: r).zip (a :: b :: r).tail).foldr (fun ab s => try_pair s ab.1 ab.2) t
          = try_pair (((b :: r).zip (b :: r).tail).foldr (fun ab s => try_pair s ab.1 ab.2) t)
              a b := rfl
      rw [key, try_pair_number]
      exact ih

/-- The first loop of `build_branches` over an array sorted by depth that holds a node of
depth 2, entered with `head_node` set when the last entry has depth 2: afterwards
`head_node` is a depth-2 entry that every other depth-2 entry precedes. -/
theorem pair_loop_head (R : Nat → Nat → Prop) (t : NodeTable)
    (hR : ∀ a b, R a b → (t.node a).number.c ≤ (t.node b).number.c) (hrefl : ∀ a, R a a) :
    ∀ v : List Nat, v.Pairwise R → (∃ x ∈ v, (t.node x).number.c = 2) →
      (∀ l, v.getLast? = some l → (t.node l).number.c = 2 → t.head_node = some l) →
      ∃ a ∈ v, ((v.zip v.tail).foldr (fun ab s => try_pair s ab.1 ab.2) t).head_node = some a ∧
        (t.node a).number.c = 2 ∧ ∀ b ∈ v, (t.node b).number.c = 2 → R b a := by
  intro v
  induction v with
  | nil => rintro _ ⟨x, hx, _⟩; simp at hx
  | cons x v ih =>
    cases v with
    | nil =>
      rintro _ ⟨y, hy, hc⟩ hl
      have : y = x := by simpa using hy
      subst this
      refine ⟨y, List.mem_singleton_self y, ?_, hc, ?_⟩
      · exact hl y rfl hc
      · intro b hb _
        have : b = y := by simpa using hb
        subst this; exact hrefl b
    | cons y r =>
      intro hp hex hl
      have hp' := List.pairwise_cons.mp hp
      have hl' : ∀ l, (y :: r).getLast? = some l → (t.node l).number.c = 2 →
          t.head_node = some l := by
        intro l hl1 hl2
        apply hl l _ hl2
        rw [List.getLast?_cons_cons]; exact hl1
      have key : ((x :: y :: r).zip (x :: y :: r).tail).foldr (fun ab s => try_pair s ab.1 ab.2) t
          = try_pair (((y :: r).zip (y :: r).tail).foldr (fun ab s => try_pair s ab.1 ab.2) t)
              x y := rfl
      rw [key, try_pair_head, pair_loop_number, pair_loop_number]
      by_cases hc : (t.node x).number.c ≠ (t.node y).number.c ∧ (t.node x).number.c = 2
      · rw [if_pos hc]
        refine ⟨x, List.mem_cons_self _ _, rfl, hc.2, ?_⟩
        intro b hb hb2
        rcases List.mem_cons.mp hb with e | hb'
        · rw [e]; exact hrefl x
        · exfalso
          have hxy := hR x y (hp'.1 y (List.mem_cons_self _ _))
          have hyb : (t.node y).number.c ≤ (t.node b).number.c := by
            rcases List.mem_cons.mp hb' with e | hb''
            · rw [e]
            · exact hR y b ((List.pairwise_cons.mp hp'.2).1 b hb'')
          omega
      · rw [if_neg hc]
        have hex' : ∃ z ∈ y :: r, (t.node z).number.c = 2 := by
          obtain ⟨z, hz, hz2⟩ := hex
          rcases List.mem_cons.mp hz with e | hz'
          · subst e
            refine ⟨y, List.mem_cons_self _ _, ?_⟩
            by_contra hy2
            exact hc ⟨fun e => hy2 (e ▸ hz2), hz2⟩
          · exact ⟨z, hz', hz2⟩
        obtain ⟨a, ha, hhead, ha2, hgreat⟩ := ih hp'.2 hex' hl'
        refine ⟨a, List.mem_cons_of_mem _ ha, hhead, ha2, ?_⟩
        intro b hb hb2
        rcases List.mem_cons.mp hb with e | hb'
        · rw [e]; exact hp'.1 a ha
        · exact hgreat b hb' hb2

theorem compare_from_self (x : cvs_number) (l : List Nat) : compare_from x x l = 0 := by
  induction l with
  | nil => rfl
  | cons i l ih => simp [compare_from, ih]

theorem compare_self (x : cvs_number) : compare x x = 0 := by
  simp [compare, compare_from_self]

theorem compare_le_depth {x y : cvs_number} (h : compare x y ≤ 0) : x.c ≤ y.c := by
  unfold compare at h
  by_contra hlt
  rw [if_neg (by omega), if_pos (by omega)] at h
  omega

theorem compare_from_eq_zero {x y : cvs_number} :
    ∀ l : List Nat, compare_from x y l = 0 → ∀ i ∈ l, x.n i = y.n i := by
  intro l
  induction l with
  | nil => intro _ i hi; simp at hi
  | cons j l ih =>
    intro h i hi
    unfold compare_from at h
    split_ifs at h with h1 h2
    any_goals first | (exfalso; omega) | skip
    have e : x.n j = y.n j := by omega
    rcases List.mem_cons.mp hi with rfl | hi'
    · exact e
    · exact ih h i hi'

theorem compare_eq_zero {x y : cvs_number} (h : compare x y = 0) : same_number x y = true := by
  unfold compare at h
  split_ifs at h with h1 h2
  any_goals first | (exfalso; omega) | skip
  have hc : x.c = y.c := by omega
  rw [same_number_iff]
  exact ⟨hc, fun i hi => compare_from_eq_zero _ h i (List.mem_range.mpr (hc ▸ hi))⟩

/-- C10: after `build_branches` on a freshly populated table (any sequence of
`hash_number` calls from the empty table) that holds a node of depth 2, with the C library
sort returning the nodes as a permutation in the order of `compare`: `head_node` is a
node of the table of depth 2, its number is untouched, and every other depth-2 node of
the table has a strictly smaller number.  Whether deeper nodes follow it in the sorted
array or not plays no role. -/
theorem build_branches_head (qsort : (Nat → Nat → Int) → List Nat → List Nat)
    (ns : List cvs_number) (t : NodeTable) (ht : t = intern_all ns)
    (hns : ∀ m ∈ ns, 1 ≤ m.c)
    (hperm : (qsort (fun a b => compare (t.node a).number (t.node b).number) (all_nodes t)).Perm
      (all_nodes t))
    (hsorted : (qsort (fun a b => compare (t.node a).number (t.node b).number)
      (all_nodes t)).Pairwise (fun a b => compare (t.node a).number (t.node b).number ≤ 0))
    (h2 : ∃ a ∈ all_nodes t, (t.node a).number.c = 2) :
    ∃ a ∈ all_nodes t, (build_branches qsort t).head_node = some a ∧
      (t.node a).number.c = 2 ∧
      ((build_branches qsort t).node a).number = (t.node a).number ∧
      ∀ b ∈ all_nodes t, (t.node b).number.c = 2 → b ≠ a →
        compare (t.node b).number (t.node a).number < 0 := by
  have hw : t.WF := ht ▸ intern_all_WF ns hns
  have hne : t.nentries ≠ 0 := by
    obtain ⟨a, ha, _⟩ := h2
    rw [hw.2.2.2]
    exact Nat.ne_of_gt (List.length_pos_of_mem ha)
  obtain ⟨x, hx, hx2⟩ := h2
  unfold build_branches
  rw [if_neg hne]
  simp only []
  generalize hv : qsort (fun a b => compare (t.node a).number (t.node b).number) (all_nodes t) = v
    at hperm hsorted
  -- the table entering the first loop
  generalize ht1 : (match v.getLast? with
      | some l => if (t.node l).number.c = 2 then { t with head_node := some l } else t
      | none => t) = t1
  have hnum1 : ∀ y, (t1.node y).number = (t.node y).number := by
    intro y
    rw [← ht1]
    split
    · split_ifs <;> rfl
    · rfl
  have hlast : ∀ l, v.getLast? = some l → (t1.node l).number.c = 2 → t1.head_node = some l := by
    intro l hl hl2
    rw [hnum1] at hl2
    rw [← ht1, hl]
    simp only []
    rw [if_pos hl2]
  have hsorted1 : v.Pairwise (fun a b => compare (t1.node a).number (t1.node b).number ≤ 0) := by
    refine hsorted.imp ?_
    intro a b h
    rw [hnum1, hnum1]; exact h
  obtain ⟨a, hav, hhead, ha2, hgreat⟩ :=
    pair_loop_head (fun a b => compare (t1.node a).number (t1.node b).number ≤ 0) t1
      (fun a b h => compare_le_depth h) (fun a => le_of_eq (compare_self _)) v hsorted1
      ⟨x, hperm.mem_iff.mpr hx, by rw [hnum1]; exact hx2⟩ hlast
  have hat : a ∈ all_nodes t := hperm.mem_iff.mp hav
  rw [hnum1] at ha2
  refine ⟨a, hat, ?_, ha2, ?_, ?_⟩
  · rw [(link_down_loop v _).1]; exact hhead
  · rw [(link_down_loop v _).2, pair_loop_number, hnum1]
  · intro b hb hb2 hba
    have hle := hgreat b (hperm.mem_iff.mpr hb) (by rw [hnum1]; exact hb2)
    simp only [hnum1] at hle
    rcases lt_or_eq_of_le hle with hlt | heq
    · exact hlt
    · exfalso
      obtain ⟨h1, _, hb'⟩ := (mem_all_nodes t b).mp hb
      obtain ⟨h2, _, ha'⟩ := (mem_all_nodes t a).mp hat
      exact hba (hw.2.2.1 h1 h2 b a hb' ha' (compare_eq_zero heq))

/-- C10 at the table that holds 1.1, 1.2 and the branch number 1.2.0.4, whose chains are
already in the order of `compare`: the head is node 1, the node of 1.2, although the
node of 1.2.4 sorts after it. -/
theorem build_branches_head_witness :
    all_nodes (intern_all [rev_1_1, rev_1_2, rev_1_2_0_4]) = [0, 1, 2] ∧
    ∃ a ∈ all_nodes (intern_all [rev_1_1, rev_1_2, rev_1_2_0_4]),
      (build_branches (fun _ l => l) (intern_all [rev_1_1, rev_1_2, rev_1_2_0_4])).head_node
        = some a ∧
      ((intern_all [rev_1_1, rev_1_2, rev_1_2_0_4]).node a).number.c = 2 ∧
      ((build_branches (fun _ l => l) (intern_all [rev_1_1, rev_1_2, rev_1_2_0_4])).node a).number
        = ((intern_all [rev_1_1, rev_1_2, rev_1_2_0_4]).node a).number ∧
      ∀ b ∈ all_nodes (intern_all [rev_1_1, rev_1_2, rev_1_2_0_4]),
        ((intern_all [rev_1_1, rev_1_2, rev_1_2_0_4]).node b).number.c = 2 → b ≠ a →
        compare ((intern_all [rev_1_1, rev_1_2, rev_1_2_0_4]).node b).number
          ((intern_all [rev_1_1, rev_1_2, rev_1_2_0_4]).node a).number < 0 :=
  have hall : all_nodes (intern_all [rev_1_1, rev_1_2, rev_1_2_0_4]) = [0, 1, 2] := by decide!
  ⟨hall,
   build_branches_head (fun _ l => l) [rev_1_1, rev_1_2, rev_1_2_0_4] _ rfl (by decide)
    (List.Perm.refl _) (by rw [hall]; decide) ⟨1, by rw [hall]; decide, by decide⟩⟩

/-! ## The export run: what each step changes -/

theorem SameCore.same (st : Exporter) : SameCore st st := ⟨rfl, rfl, rfl, rfl, rfl, rfl⟩

theorem SameCore.then {a b c : Exporter} (h1 : SameCore a b) (h2 : SameCore b c) :
    SameCore a c :=
  ⟨h2.1.trans h1.1, h2.2.1.trans h1.2.1, h2.2.2.1.trans h1.2.2.1, h2.2.2.2.1.trans h1.2.2.2.1,
   h2.2.2.2.2.1.trans h1.2.2.2.2.1, h2.2.2.2.2.2.trans h1.2.2.2.2.2⟩

theorem Prints.refl (Q : Out → Prop) (st : Exporter) : Prints Q st st :=
  ⟨SameCore.same st, [], by simp, by simp⟩

theorem Prints.print {Q : Out → Prop} (st : Exporter) {e : Out} (h : Q e) :
    Prints Q st (st.print e) :=
  ⟨⟨rfl, rfl, rfl, rfl, rfl, rfl⟩, [e], rfl, by simpa using h⟩

theorem Prints.trans {Q : Out → Prop} {a b c : Exporter} (h1 : Prints Q a b)
    (h2 : Prints Q b c) : Prints Q a c := by
  obtain ⟨s1, l1, e1, q1⟩ := h1
  obtain ⟨s2, l2, e2, q2⟩ := h2
  refine ⟨s1.then s2, l1 ++ l2, by rw [e2, e1, List.append_assoc], ?_⟩
  intro e he
  rcases List.mem_append.mp he with h | h
  · exact q1 e h
  · exact q2 e h

theorem Prints.mono {Q Q' : Out → Prop} {a b : Exporter} (h : Prints Q a b)
    (hq : ∀ e, Q e → Q' e) : Prints Q' a b := by
  obtain ⟨s1, l1, e1, q1⟩ := h
  exact ⟨s1, l1, e1, fun e he => hq e (q1 e he)⟩

theorem Prints.ite {Q : Out → Prop} {a b : Exporter} (c : Prop) [Decidable c]
    (h : c → Prints Q a b) : Prints Q a (if c then b else a) := by
  split_ifs with hc
  · exact h hc
  · exact Prints.refl Q a

theorem print_op_prints (st : Exporter) (op2 : fileop) :
    Prints (fun e => (op2.op = 'M' ∧ e = Out.M op2.mode (st.markmap op2.serial).external op2.path)
      ∨ ∃ path, e = Out.D path) st (print_op st op2) := by
  unfold print_op
  simp only []
  have h1 : Prints (fun e => (op2.op = 'M' ∧
      e = Out.M op2.mode (st.markmap op2.serial).external op2.path) ∨ ∃ path, e = Out.D path) st
      (if op2.op = 'M' then st.print (Out.M op2.mode (st.markmap op2.serial).external op2.path)
       else st) :=
    Prints.ite _ (fun hc => Prints.print st (Or.inl ⟨hc, rfl⟩))
  refine h1.trans ?_
  generalize (if op2.op = 'M' then
    st.print (Out.M op2.mode (st.markmap op2.serial).external op2.path) else st) = s1
  have h2 : Prints (fun e => (op2.op = 'M' ∧
      e = Out.M op2.mode (st.markmap op2.serial).external op2.path) ∨ ∃ path, e = Out.D path) s1
      (if op2.op = 'D' then s1.print (Out.D op2.path) else s1) :=
    Prints.ite _ (fun _ => Prints.print s1 (Or.inr ⟨_, rfl⟩))
  refine h2.trans ?_
  generalize (if op2.op = 'D' then s1.print (Out.D op2.path) else s1) = s2
  split_ifs
  · exact ⟨⟨rfl, rfl, rfl, rfl, rfl, rfl⟩, [], by simp, by simp⟩
  · exact Prints.refl _ s2

theorem print_ops_prints (ops : List fileop) :
    ∀ st : Exporter, Prints (fun e =>
      (∃ op ∈ ops, op.op = 'M' ∧ e = Out.M op.mode (st.markmap op.serial).external op.path)
      ∨ ∃ path, e = Out.D path) st (ops.foldl print_op st) := by
  induction ops with
  | nil => intro st; exact Prints.refl _ st
  | cons op ops ih =>
    intro st
    simp only [List.foldl_cons]
    have h1 := print_op_prints st op
    have h2 := ih (print_op st op)
    rw [h1.1.1] at h2
    refine (h1.mono ?_).trans (h2.mono ?_)
    · rintro e (⟨hm, he⟩ | hd)
      · exact Or.inl ⟨op, List.mem_cons_self _ _, hm, he⟩
      · exact Or.inr hd
    · rintro e (⟨o, ho, hm, he⟩ | hd)
      · exact Or.inl ⟨o, List.mem_cons_of_mem _ ho, hm, he⟩
      · exact Or.inr hd

theorem print_commit_body_prints (env : Env) (force_dates : Bool) (commit : git_commit)
    (ops : List fileop) (st : Exporter) :
    Prints (body_line st commit ops) st (print_commit_body env force_dates commit ops st) := by
  have h1 : Prints (body_line st commit ops) st (print_committer env force_dates commit st) :=
    (Prints.print st (Or.inl ⟨_, _, _, _, rfl⟩)).trans
      (Prints.print _ (Or.inr (Or.inl ⟨_, rfl⟩)))
  have h2 : Prints (body_line st commit ops) (print_committer env force_dates commit st)
      (print_from commit (print_committer env force_dates commit st)) := by
    unfold print_from
    cases hp : commit.parent with
    | none => exact Prints.refl _ _
    | some p =>
      refine Prints.print _ (Or.inr (Or.inr (Or.inl ⟨p, hp, ?_⟩)))
      rw [h1.1.1, h1.1.2.2.2.2.1]
  have h3 := print_ops_prints ops (print_from commit (print_committer env force_dates commit st))
  rw [(h1.trans h2).1.1] at h3
  have h4 : Prints (body_line st commit ops)
      (ops.foldl print_op (print_from commit (print_committer env force_dates commit st)))
      (print_ignores
        (ops.foldl print_op (print_from commit (print_committer env force_dates commit st)))) := by
    unfold print_ignores
    split_ifs
    · exact ⟨⟨rfl, rfl, rfl, rfl, rfl, rfl⟩, [Out.ignores], rfl,
        by simp [body_line]⟩
    · exact Prints.refl _ _
  refine ((h1.trans h2).trans (h3.mono ?_)).trans h4
  rintro e (h | h)
  · exact Or.inr (Or.inr (Or.inr (Or.inl h)))
  · exact Or.inr (Or.inr (Or.inr (Or.inr (Or.inl h))))

theorem commit_trailer_prints (report revmap reposurgeon : Bool) (here : Nat)
    (revpairs : List Char) (Q : Out → Prop)
    (hq : report = true → Q (Out.property revpairs) ∧ Q Out.newline) (st : Exporter) :
    Prints Q st (commit_trailer report revmap reposurgeon here revpairs st) := by
  unfold commit_trailer
  simp only []
  have h1 : Prints Q st (if revmap = true then
      { st with revmap_out := st.revmap_out ++ write_revmap here revpairs } else st) := by
    split_ifs
    · exact ⟨⟨rfl, rfl, rfl, rfl, rfl, rfl⟩, [], by simp, by simp⟩
    · exact Prints.refl _ _
  refine h1.trans ?_
  generalize (if revmap = true then
      { st with revmap_out := st.revmap_out ++ write_revmap here revpairs } else st) = s1
  have h2 : Prints Q s1 (if reposurgeon = true ∧ report = true then
      s1.print (Out.property revpairs) else s1) :=
    Prints.ite _ (fun hc => Prints.print s1 (hq hc.2).1)
  refine h2.trans ?_
  generalize (if reposurgeon = true ∧ report = true then
      s1.print (Out.property revpairs) else s1) = s2
  exact Prints.ite _ (fun hc => Prints.print s2 (hq hc).2)

theorem emit_tags_prints (env : Env) (c : git_commit) (st : Exporter) :
    Prints (fun e => ∃ name, e = Out.tag_reset name (st.markmap (st.commit_serial c.addr)).external)
      st (emit_tags env c st) := by
  unfold emit_tags
  generalize env.all_tags = tags
  suffices h : ∀ s, SameCore st s → Prints (fun e => ∃ name,
      e = Out.tag_reset name (st.markmap (st.commit_serial c.addr)).external) s
      (tags.foldl (fun s t =>
        if t.commit.addr = c.addr then
          s.print (Out.tag_reset t.name (s.markmap (s.commit_serial c.addr)).external)
        else s) s) from h st (SameCore.same st)
  induction tags with
  | nil => intro s _; exact Prints.refl _ s
  | cons t tags ih =>
    intro s hs
    simp only [List.foldl_cons]
    have h1 : Prints (fun e => ∃ name,
        e = Out.tag_reset name (st.markmap (st.commit_serial c.addr)).external) s
        (if t.commit.addr = c.addr then
          s.print (Out.tag_reset t.name (s.markmap (s.commit_serial c.addr)).external) else s) := by
      refine Prints.ite _ (fun _ => Prints.print s ⟨t.name, ?_⟩)
      rw [hs.1, hs.2.2.2.2.1]
    exact h1.trans (ih _ (hs.then h1.1))

theorem emit_resets_prints (branch_pfx : List Char) (heads : List rev_ref) (st : Exporter) :
    Prints (fun e => ∃ h ∈ heads, e = Out.branch_reset (branch_pfx ++ h.ref_name)
      (st.markmap (st.commit_serial h.commit.addr)).external) st
      (emit_resets branch_pfx heads st) := by
  unfold emit_resets
  suffices h : ∀ (hs : List rev_ref) (s : Exporter), SameCore st s → (∀ x ∈ hs, x ∈ heads) →
      Prints (fun e => ∃ h ∈ heads, e = Out.branch_reset (branch_pfx ++ h.ref_name)
        (st.markmap (st.commit_serial h.commit.addr)).external) s
      (hs.foldl (fun s h => s.print (Out.branch_reset (branch_pfx ++ h.ref_name)
        (s.markmap (s.commit_serial h.commit.addr)).external)) s) from
    h heads st (SameCore.same st) (fun _ hx => hx)
  intro hs
  induction hs with
  | nil => intro s _ _; exact Prints.refl _ s
  | cons x hs ih =>
    intro s hsc hsub
    simp only [List.foldl_cons]
    have h1 : Prints (fun e => ∃ h ∈ heads, e = Out.branch_reset (branch_pfx ++ h.ref_name)
        (st.markmap (st.commit_serial h.commit.addr)).external) s
        (s.print (Out.branch_reset (branch_pfx ++ x.ref_name)
          (s.markmap (s.commit_serial x.commit.addr)).external)) := by
      refine Prints.print s ⟨x, hsub x (List.mem_cons_self _ _), ?_⟩
      rw [hsc.1, hsc.2.2.2.2.1]
    exact h1.trans (ih _ (hsc.then h1.1) (fun y hy => hsub y (List.mem_cons_of_mem _ hy)))

theorem header_mark (c : git_commit) (ref : List Char) (report : Bool) (st : Exporter) :
    (commit_header c ref report st).mark = st.mark + 1 := by
  cases report <;> rfl

theorem header_seqno (c : git_commit) (ref : List Char) (report : Bool) (st : Exporter) :
    (commit_header c ref report st).seqno = st.seqno + 1 := by
  cases report <;> rfl

theorem header_markmap (c : git_commit) (ref : List Char) (report : Bool) (st : Exporter) :
    (commit_header c ref report st).markmap =
      Function.update st.markmap (st.seqno + 1) ⟨st.mark + 1, (st.markmap (st.seqno + 1)).emitted⟩ := by
  cases report <;> rfl

theorem header_stores (c : git_commit) (ref : List Char) (report : Bool) (st : Exporter) :
    (commit_header c ref report st).stores =
      st.stores ++ [Store.external (st.seqno + 1) (st.mark + 1)] := by
  cases report <;> rfl

theorem header_present (c : git_commit) (ref : List Char) (report : Bool) (st : Exporter) :
    (commit_header c ref report st).present = st.present := by
  cases report <;> rfl

theorem header_commit_serial (c : git_commit) (ref : List Char) (report : Bool)
    (st : Exporter) :
    (commit_header c ref report st).commit_serial =
      Function.update st.commit_serial c.addr (st.seqno + 1) := by
  cases report <;> rfl

theorem header_out (c : git_commit) (ref : List Char) (report : Bool) (st : Exporter) :
    (commit_header c ref report st).out =
      st.out ++ (if report = true then [Out.commit ref, Out.mark_line (st.mark + 1)] else []) := by
  cases report
  · simp [commit_header, Exporter.next_mark]
  · simp [commit_header, Exporter.print, Exporter.next_mark]

/-- After the header of the record, `export_commit` only prints, and only with `report`:
the lines of the body of the record. -/
theorem export_commit_prints (env : Env) (c : git_commit) (branch_pfx branch : List Char)
    (report revmap reposurgeon force_dates : Bool) (st : Exporter) :
    Prints (fun e => report = true ∧
        body_line (commit_header c (branch_pfx ++ branch) report (after_flush env c report st)) c
          (env.qsort_fileops (commit_ops env c st)) e)
      (commit_header c (branch_pfx ++ branch) report (after_flush env c report st))
      (export_commit env c branch_pfx branch report revmap reposurgeon force_dates st) := by
  unfold export_commit
  simp only []
  generalize commit_header c (branch_pfx ++ branch) report (after_flush env c report st) = sth
  have h1 : Prints (fun e => report = true ∧
      body_line sth c (env.qsort_fileops (commit_ops env c st)) e) sth
      (if report = true then
        print_commit_body env force_dates c (env.qsort_fileops (commit_ops env c st)) sth
       else sth) :=
    Prints.ite _ (fun hc => (print_commit_body_prints env force_dates c _ sth).mono
      (fun e he => ⟨hc, he⟩))
  refine h1.trans (commit_trailer_prints _ _ _ _ _ _ ?_ _)
  intro hr
  exact ⟨⟨hr, Or.inr (Or.inr (Or.inr (Or.inr (Or.inr (Or.inr (Or.inl ⟨_, rfl⟩))))))⟩,
    ⟨hr, Or.inr (Or.inr (Or.inr (Or.inr (Or.inr (Or.inr (Or.inr rfl))))))⟩⟩

/-! ## The export run: induction over the calls of `export_commit` -/

/-- The loop of one branch in branch order: a property `Inv done st` of the commits
exported so far and of the state, kept by `export_commit` and by printing tag records,
holds along a run of exports. -/
theorem export_list_induct (env : Env) (branch_pfx : List Char)
    (revmap reposurgeon force_dates : Bool) (order : List git_commit) (cond : Prop)
    (Inv : List git_commit → Exporter → Prop) (H : List git_commit → Exporter → Out → Prop)
    (h_commit : ∀ done c rest st br report, order = done ++ c :: rest → (report = true ∨ cond) →
      Inv done st →
      Inv (done ++ [c]) (export_commit env c branch_pfx br report revmap reposurgeon force_dates st))
    (h_prints : ∀ done st st', Inv done st → Prints (H done st) st st' → Inv done st')
    (h_tag : ∀ done st name a, a ∈ done.map (fun d => d.addr) →
      H done st (Out.tag_reset name (st.markmap (st.commit_serial a)).external))
    (br : List Char) :
    ∀ (l : List git_commit) (done rest : List git_commit) (st : Exporter),
      order = done ++ l ++ rest → Inv done st →
      Inv (done ++ l) (l.foldl (fun s c => emit_tags env c
        (export_commit env c branch_pfx br true revmap reposurgeon force_dates s)) st) := by
  intro l
  induction l with
  | nil => intro done rest st _ h; simpa using h
  | cons c l ih =>
    intro done rest st ho h
    simp only [List.foldl_cons]
    have h1 := h_commit done c (l ++ rest) st br true (by rw [ho]; simp) (Or.inl rfl) h
    have h2 := h_prints _ _ _ h1 ((emit_tags_prints env c _).mono (by
      rintro e ⟨name, rfl⟩
      exact h_tag _ _ name c.addr (by simp)))
    have := ih (done ++ [c]) rest _ (by rw [ho]; simp) h2
    simpa using this

/-- Branch order: the loop over the heads. -/
theorem export_branches_induct (env : Env) (branch_pfx : List Char)
    (revmap reposurgeon force_dates : Bool) (order : List git_commit) (cond : Prop)
    (Inv : List git_commit → Exporter → Prop) (H : List git_commit → Exporter → Out → Prop)
    (h_commit : ∀ done c rest st br report, order = done ++ c :: rest → (report = true ∨ cond) →
      Inv done st →
      Inv (done ++ [c]) (export_commit env c branch_pfx br report revmap reposurgeon force_dates st))
    (h_prints : ∀ done st st', Inv done st → Prints (H done st) st st' → Inv done st')
    (h_tag : ∀ done st name a, a ∈ done.map (fun d => d.addr) →
      H done st (Out.tag_reset name (st.markmap (st.commit_serial a)).external)) :
    ∀ (hs : List rev_ref) (done rest : List git_commit) (st : Exporter),
      order = done ++ (hs.filter (fun h => !h.tail)).flatMap
        (fun h => (branch_chain h.commit).reverse) ++ rest →
      Inv done st →
      Inv (done ++ (hs.filter (fun h => !h.tail)).flatMap
        (fun h => (branch_chain h.commit).reverse))
        (hs.foldl (export_branch env branch_pfx revmap reposurgeon force_dates) st) := by
  intro hs
  induction hs with
  | nil => intro done rest st _ h; simpa using h
  | cons h hs ih =>
    intro done rest st ho hinv
    simp only [List.foldl_cons]
    cases ht : h.tail with
    | true =>
      have e1 : export_branch env branch_pfx revmap reposurgeon force_dates st h = st := by
        simp [export_branch, ht]
      rw [e1]
      have e2 : (h :: hs).filter (fun h => !h.tail) = hs.filter (fun h => !h.tail) := by
        simp [List.filter_cons, ht]
      rw [e2] at ho ⊢
      exact ih done rest st ho hinv
    | false =>
      have e2 : (h :: hs).filter (fun h => !h.tail) = h :: hs.filter (fun h => !h.tail) := by
        simp [List.filter_cons, ht]
      rw [e2, List.flatMap_cons] at ho ⊢
      have e1 : export_branch env branch_pfx revmap reposurgeon force_dates st h =
          (branch_chain h.commit).reverse.foldl (fun s c => emit_tags env c
            (export_commit env c branch_pfx h.ref_name true revmap reposurgeon force_dates s)) st := by
        simp [export_branch, ht, List.foldl_reverse]
      rw [e1]
      have h1 := export_list_induct env branch_pfx revmap reposurgeon force_dates order cond Inv H
        h_commit h_prints h_tag h.ref_name (branch_chain h.commit).reverse done
        ((hs.filter (fun h => !h.tail)).flatMap (fun h => (branch_chain h.commit).reverse) ++ rest)
        st (by rw [ho]; simp) hinv
      have := ih (done ++ (branch_chain h.commit).reverse) rest _ (by rw [ho]; simp) h1
      simpa using this

/-- Canonical order: the export loop over the array. -/
theorem canonical_loop_induct (env : Env) (branch_pfx : List Char) (fromtime : Int)
    (revmap reposurgeon force_dates : Bool) (order : List git_commit)
    (Inv : List git_commit → Exporter → Prop) (H : List git_commit → Exporter → Out → Prop)
    (h_commit : ∀ done c rest st br report, order = done ++ c :: rest →
      (report = true ∨ 0 < fromtime) → Inv done st →
      Inv (done ++ [c]) (export_commit env c branch_pfx br report revmap reposurgeon force_dates st))
    (h_prints : ∀ done st st', Inv done st → Prints (H done st) st st' → Inv done st')
    (h_anchor : ∀ done st ref, H done st (Out.anchor ref))
    (h_tag : ∀ done st name a, a ∈ done.map (fun d => d.addr) →
      H done st (Out.tag_reset name (st.markmap (st.commit_serial a)).external)) :
    ∀ (l : List commit_seq) (done : List git_commit) (realized : List Nat) (st : Exporter),
      order = done ++ l.map (fun hp => hp.commit) → Inv done st →
      Inv (done ++ l.map (fun hp => hp.commit))
        (canonical_loop env branch_pfx fromtime revmap reposurgeon force_dates l realized st) := by
  intro l
  induction l with
  | nil => intro done realized st _ h; simpa [canonical_loop] using h
  | cons hp l ih =>
    intro done realized st ho hinv
    unfold canonical_loop
    simp only []
    generalize hskip : (decide (0 < fromtime) &&
      decide (fromtime ≥ display_date env force_dates hp.commit (st.mark + 1))) = skip
    have hrep : (!skip) = true ∨ 0 < fromtime := by
      by_cases hf : 0 < fromtime
      · exact Or.inr hf
      · left; rw [← hskip]; simp [hf]
    -- the anchor line
    have h1 : Inv done
        (if (decide (0 < fromtime) && !skip && !(realized.contains hp.head.addr)) = true then
          match hp.commit.parent with
          | some p =>
            if display_date env force_dates p (st.markmap (st.commit_serial p.addr)).external
                < fromtime
            then st.print (Out.anchor (branch_pfx ++ hp.head.ref_name))
            else st
          | none => st
        else st) := by
      apply h_prints done st _ hinv
      split_ifs
      · split
        · exact Prints.ite _ (fun _ => Prints.print st (h_anchor _ _ _))
        · exact Prints.refl _ _
      · exact Prints.refl _ _
    have h2 := h_commit done hp.commit (l.map (fun hp => hp.commit)) _ hp.head.ref_name (!skip)
      (by rw [ho]; simp) hrep h1
    have h3 := h_prints _ _ _ h2 ((emit_tags_prints env hp.commit _).mono (by
      rintro e ⟨name, rfl⟩
      exact h_tag _ _ name hp.commit.addr (by simp)))
    have key := fun R => ih (done ++ [hp.commit]) R _ (by rw [ho]; simp) h3
    simpa using key _

/-- A property of the commits exported so far and of the state that `export_commit` keeps,
and that printing anchor, tag and branch records keeps, holds after `export_commits`. -/
theorem export_commits_induct (env : Env) (heads : List rev_ref) (branch_pfx : List Char)
    (fromtime : Int) (revmap reposurgeon force_dates branchorder : Bool) (st : Exporter)
    (Inv : List git_commit → Exporter → Prop) (H : List git_commit → Exporter → Out → Prop)
    (h_commit : ∀ done c rest s br report, export_order env heads branchorder = done ++ c :: rest →
      (report = true ∨ (branchorder = false ∧ 0 < fromtime)) → Inv done s →
      Inv (done ++ [c]) (export_commit env c branch_pfx br report revmap reposurgeon force_dates s))
    (h_prints : ∀ done s s', Inv done s → Prints (H done s) s s' → Inv done s')
    (h_anchor : ∀ done s ref, H done s (Out.anchor ref))
    (h_tag : ∀ done s name a, a ∈ done.map (fun d => d.addr) →
      H done s (Out.tag_reset name (s.markmap (s.commit_serial a)).external))
    (h_reset : ∀ s h ref, h ∈ heads → H (export_order env heads branchorder) s
      (Out.branch_reset ref (s.markmap (s.commit_serial h.commit.addr)).external))
    (h0 : Inv [] { st with markmap := fun _ => ⟨0, false⟩ }) :
    Inv (export_order env heads branchorder)
      (export_commits env heads branch_pfx fromtime revmap reposurgeon force_dates branchorder st) := by
  unfold export_commits
  simp only []
  apply h_prints _ _ _ _ ((emit_resets_prints branch_pfx heads _).mono (by
    rintro e ⟨h, hh, rfl⟩
    exact h_reset _ h _ hh))
  cases hb : branchorder with
  | true =>
    subst hb
    have := export_branches_induct env branch_pfx revmap reposurgeon force_dates
      (export_order env heads true) (false = true ∧ 0 < fromtime) Inv H
      (fun done c rest s br report ho hr hi => h_commit done c rest s br report ho
        (hr.imp id (fun h => absurd h.1 (by decide))) hi)
      h_prints h_tag heads [] [] _ (by simp [export_order]) h0
    simpa [export_order] using this
  | false =>
    subst hb
    have := canonical_loop_induct env branch_pfx fromtime revmap reposurgeon force_dates
      (export_order env heads false) Inv H
      (fun done c rest s br report ho hr hi => h_commit done c rest s br report ho
        (hr.imp id (fun h => ⟨rfl, h⟩)) hi)
      h_prints h_anchor h_tag (sorted_history env heads) [] [] _ (by simp [export_order]) h0
    simpa [export_order] using this

/-! ## Each blob is printed at most once -/

theorem blob_once_next_mark {st : Exporter} (h : blob_once_inv st) (slot : Nat)
    (hs : (st.markmap slot).emitted = false) : blob_once_inv (st.next_mark slot) := by
  obtain ⟨ha, hb, hc, hd, he⟩ := h
  have hem : ∀ s, ((st.next_mark slot).markmap s).emitted = (st.markmap s).emitted := by
    intro s
    unfold Exporter.next_mark
    by_cases e : s = slot
    · subst e; simp
    · simp [Function.update_noteq e]
  refine ⟨?_, ?_, hc, ?_, ?_⟩
  · intro s h; rw [hem] at h; exact ha s h
  · intro m s h; rw [hem]; exact hb m s h
  · intro s h
    rw [hem]
    have : Store.emitted s ∈ st.stores := by
      simpa [Exporter.next_mark] using h
    exact hd s this
  · show (st.stores ++ [Store.external slot (st.mark + 1)]).Pairwise _
    rw [List.pairwise_append]
    refine ⟨he, List.pairwise_singleton _ _, ?_⟩
    intro a ha' b hb' s hs'
    have hb'' : b = Store.external slot (st.mark + 1) := by simpa using hb'
    subst hb'' hs'
    refine ⟨by simp, ?_⟩
    intro v hv
    have : slot = s := by injection hv
    subst this
    rw [hd slot ha'] at hs
    exact Bool.noConfusion hs

theorem blob_once_blob {st : Exporter} (h : blob_once_inv st) (slot m : Nat)
    (hs : (st.markmap slot).emitted = false) (hp : st.present slot = true) :
    blob_once_inv ((st.print (Out.blob m slot)).set_emitted slot) := by
  obtain ⟨ha, hb, hc, hd, he⟩ := h
  have hem : ∀ s, (((st.print (Out.blob m slot)).set_emitted slot).markmap s).emitted
      = (decide (s = slot) || (st.markmap s).emitted) := by
    intro s
    unfold Exporter.set_emitted Exporter.print
    by_cases e : s = slot
    · subst e; simp
    · simp [Function.update_noteq e, e]
  refine ⟨?_, ?_, ?_, ?_, ?_⟩
  · intro s h
    show s ≤ st.seqno
    rw [hem] at h
    by_cases e : s = slot
    · subst e; exact ha s (Or.inl hp)
    · apply ha s
      rcases h with h | h
      · left
        have : ((st.print (Out.blob m slot)).set_emitted slot).present s = st.present s := by
          simp [Exporter.set_emitted, Exporter.print, Function.update_noteq e]
        rw [← this]; exact h
      · right; simpa [e] using h
  · intro m' s h
    rw [hem]
    have : Out.blob m' s ∈ st.out ++ [Out.blob m slot] := h
    rcases List.mem_append.mp this with h1 | h1
    · simp [hb m' s h1]
    · have : s = slot := by
        have := List.mem_singleton.mp h1
        injection this
      simp [this]
  · show (st.out ++ [Out.blob m slot]).Pairwise _
    rw [List.pairwise_append]
    refine ⟨hc, List.pairwise_singleton _ _, ?_⟩
    intro a ha' b hb' m1 m2 s hs' hb2
    have hb'' : b = Out.blob m slot := by simpa using hb'
    subst hb'' hs'
    have : slot = s := by injection hb2
    subst this
    rw [hb m1 slot ha'] at hs
    exact Bool.noConfusion hs
  · intro s h
    rw [hem]
    have : Store.emitted s ∈ st.stores ++ [Store.emitted slot] := h
    rcases List.mem_append.mp this with h1 | h1
    · simp [hd s h1]
    · have : s = slot := by
        have := List.mem_singleton.mp h1
        injection this
      simp [this]
  · show (st.stores ++ [Store.emitted slot]).Pairwise _
    rw [List.pairwise_append]
    refine ⟨he, List.pairwise_singleton _ _, ?_⟩
    intro a ha' b hb' s hs'
    have hb'' : b = Store.emitted slot := by simpa using hb'
    subst hb'' hs'
    refine ⟨?_, by simp⟩
    intro hv
    have : slot = s := by injection hv
    subst this
    rw [hd slot ha'] at hs
    exact Bool.noConfusion hs

theorem blob_once_flush_op (report : Bool) {st : Exporter} (h : blob_once_inv st)
    (op2 : fileop) : blob_once_inv (flush_op report st op2) := by
  unfold flush_op
  simp only []
  split_ifs with h1 h2
  · have h3 := blob_once_next_mark h op2.serial h1.2
    have hem : ((st.next_mark op2.serial).markmap op2.serial).emitted = false := by
      simp [Exporter.next_mark, h1.2]
    exact blob_once_blob h3 op2.serial _ hem h2.2
  · exact blob_once_next_mark h op2.serial h1.2
  · exact h

theorem blob_once_flush_ops (report : Bool) (ops : List fileop) :
    ∀ {st : Exporter}, blob_once_inv st → blob_once_inv (flush_ops report ops st) := by
  unfold flush_ops
  induction ops with
  | nil => intro st h; exact h
  | cons op ops ih => intro st h; exact ih (blob_once_flush_op report h op)

theorem blob_once_prints {st st' : Exporter} (h : blob_once_inv st)
    (hp : Prints (fun e => (∀ m s, e ≠ Out.blob m s)) st st') : blob_once_inv st' := by
  obtain ⟨ha, hb, hc, hd, he⟩ := h
  obtain ⟨⟨e1, e2, e3, e4, e5, e6⟩, l, el, hl⟩ := hp
  refine ⟨?_, ?_, ?_, ?_, ?_⟩
  · intro s; rw [e1, e3, e4]; exact ha s
  · intro m s h
    rw [e1]
    rw [el] at h
    rcases List.mem_append.mp h with h1 | h1
    · exact hb m s h1
    · exact absurd rfl (hl _ h1 m s)
  · rw [el, List.pairwise_append]
    refine ⟨hc, ?_, ?_⟩
    · exact List.Pairwise.imp_of_mem (R := fun _ _ => True)
        (fun {a b} _ hb' _ m m' s _ => hl b hb' m' s) (List.pairwise_of_forall (fun _ _ => trivial))
    · intro a _ b hb' m m' s _
      exact hl b hb' m' s
  · intro s; rw [e1, e6]; exact hd s
  · rw [e6]; exact he

theorem blob_once_header {st : Exporter} (h : blob_once_inv st) (c : git_commit)
    (ref : List Char) (report : Bool) : blob_once_inv (commit_header c ref report st) := by
  have hne : (st.markmap (st.seqno + 1)).emitted = false := by
    cases hq : (st.markmap (st.seqno + 1)).emitted with
    | false => rfl
    | true => exact absurd (h.1 _ (Or.inr hq)) (by omega)
  have h1 := blob_once_next_mark h (st.seqno + 1) hne
  obtain ⟨ha, hb, hc, hd, he⟩ := h1
  refine ⟨?_, ?_, ?_, ?_, ?_⟩
  · intro s hs
    rw [header_seqno]
    rw [header_present, header_markmap] at hs
    have := ha s hs
    exact Nat.le_succ_of_le this
  · intro m s hs
    rw [header_markmap]
    rw [header_out] at hs
    apply hb m s
    rcases List.mem_append.mp hs with h2 | h2
    · exact h2
    · split_ifs at h2 <;> simp at h2
  · rw [header_out, List.pairwise_append]
    refine ⟨hc, ?_, ?_⟩
    · split_ifs
      · simp
      · simp
    · intro a _ b hb' m m' s _
      split_ifs at hb' <;> simp at hb'
      rcases hb' with rfl | rfl <;> simp
  · intro s hs
    rw [header_markmap]
    rw [header_stores] at hs
    exact hd s hs
  · rw [header_stores]; exact he

theorem blob_once_export_commit (env : Env) (c : git_commit) (branch_pfx branch : List Char)
    (report revmap reposurgeon force_dates : Bool) {st : Exporter} (h : blob_once_inv st) :
    blob_once_inv (export_commit env c branch_pfx branch report revmap reposurgeon force_dates st) := by
  have h1 : blob_once_inv (after_flush env c report st) :=
    @blob_once_flush_ops report _ { st with other := links_of env.atom_bloom c st.other } h
  have h2 := blob_once_header h1 c (branch_pfx ++ branch) report
  refine blob_once_prints h2
    ((export_commit_prints env c branch_pfx branch report revmap reposurgeon force_dates st).mono ?_)
  rintro e ⟨_, he⟩ m s rfl
  simp [body_line] at he

/-- C7: over a whole `export_commits` run that starts after `seqno0` blobs were spooled,
in either mode, for any `fromtime` (hence any sequence of report flags) and any commits:
no two `blob` records of the stream carry the same serial, and in the sequence of stores
into `markmap` a store of `emitted = true` into a slot is followed by no other store into
that slot, neither of `emitted` (so it is set at most once and never cleared) nor of
`external`. -/
theorem blob_printed_once (env : Env) (heads : List rev_ref) (branch_pfx : List Char)
    (fromtime : Int) (revmap reposurgeon force_dates branchorder : Bool) (seqno0 : Nat) :
    (export_commits env heads branch_pfx fromtime revmap reposurgeon force_dates branchorder
      (Exporter.start seqno0)).out.Pairwise
        (fun a b => ∀ m m' s, a = Out.blob m s → b ≠ Out.blob m' s) ∧
    (export_commits env heads branch_pfx fromtime revmap reposurgeon force_dates branchorder
      (Exporter.start seqno0)).stores.Pairwise
        (fun a b => ∀ s, a = Store.emitted s →
          b ≠ Store.emitted s ∧ ∀ v, b ≠ Store.external s v) := by
  have h := export_commits_induct env heads branch_pfx fromtime revmap reposurgeon force_dates
    branchorder (Exporter.start seqno0) (fun _ st => blob_once_inv st)
    (fun _ _ e => ∀ m s, e ≠ Out.blob m s)
    (fun _ c _ s br report _ _ hi =>
      blob_once_export_commit env c branch_pfx br report revmap reposurgeon force_dates hi)
    (fun _ _ _ hi hp => blob_once_prints hi hp)
    (fun _ _ _ _ _ => by simp) (fun _ _ _ _ _ _ _ => by simp) (fun _ _ _ _ _ _ => by simp)
    (by
      refine ⟨?_, ?_, ?_, ?_, ?_⟩
      · intro s hs
        simp [Exporter.start] at hs
        exact hs.2
      · intro m s hs; simp [Exporter.start] at hs
      · simp [Exporter.start]
      · intro s hs; simp [Exporter.start] at hs
      · simp [Exporter.start])
  exact ⟨h.2.2.1, h.2.2.2.2⟩

/-! ## Blob before use -/

theorem EachAfter.append {α : Type} {P : α → List α → Prop} {l l' : List α}
    (hmono : ∀ x pre more, P x pre → P x (pre ++ more)) (h : EachAfter P l)
    (hl : ∀ x ∈ l', P x l) : EachAfter P (l ++ l') := by
  intro pre x post e
  rcases List.append_eq_append_iff.mp e with ⟨a', h1, h2⟩ | ⟨c', h1, h2⟩
  · rw [h1]
    exact hmono x l a' (hl x (by rw [h2]; simp))
  · cases c' with
    | nil =>
      simp at h1 h2
      subst h1
      exact hl x (by rw [← h2]; simp)
    | cons y c'' =>
      simp at h2
      obtain ⟨rfl, _⟩ := h2
      exact h pre x c'' h1

theorem EachAfter.nil {α : Type} (P : α → List α → Prop) : EachAfter P [] := by
  intro pre x post e
  simp at e

/-- The operations of a commit with `op = 'M'` carry the serial of one of its files. -/
theorem commit_ops_M {env : Env} {c : git_commit} {st : Exporter} {op : fileop}
    (h : op ∈ commit_ops env c st) (hM : op.op = 'M') :
    ∃ f ∈ c.dirs.flatten, op.serial = f.serial := by
  unfold commit_ops fileops_of at h
  have key : ∀ (l : List rev_file) (q : rev_file → Bool),
      op ∈ (l.filter q).map (M_op env.striplen) → ∃ f ∈ l, op.serial = f.serial := by
    intro l q ho
    obtain ⟨f, hf, rfl⟩ := List.mem_map.mp ho
    exact ⟨f, (List.mem_filter.mp hf).1, rfl⟩
  cases hp : c.parent with
  | none =>
    rw [hp] at h
    exact key _ _ h
  | some p =>
    rw [hp] at h
    rcases List.mem_append.mp h with h1 | h1
    · exact key _ _ h1
    · exfalso
      obtain ⟨f, _, rfl⟩ := List.mem_map.mp h1
      simp [D_op] at hM

theorem blob_before_flush_op (seqno0 : Nat) (report : Bool) {st : Exporter}
    (h : blob_before_inv seqno0 st) (op2 : fileop)
    (hser : op2.op = 'M' → 1 ≤ op2.serial ∧ op2.serial ≤ seqno0) :
    blob_before_inv seqno0 (flush_op report st op2) ∧
    (∀ s, (st.markmap s).emitted = true → ((flush_op report st op2).markmap s).emitted = true) ∧
    (report = true → op2.op = 'M' → ((flush_op report st op2).markmap op2.serial).emitted = true) := by
  obtain ⟨ha, hb, hc, hd, he⟩ := h
  unfold flush_op
  simp only []
  by_cases h1 : op2.op = 'M' ∧ (st.markmap op2.serial).emitted = false
  · rw [if_pos h1]
    obtain ⟨hs1, hs2⟩ := hser h1.1
    have hpres : st.present op2.serial = true := hc _ hs1 hs2 h1.2
    by_cases hr : report = true
    · have hc2 : report = true ∧ (st.next_mark op2.serial).present op2.serial = true :=
        ⟨hr, hpres⟩
      rw [if_pos hc2]
      have hmm : ∀ s, (((st.next_mark op2.serial).print
          (Out.blob (st.next_mark op2.serial).mark op2.serial)).set_emitted op2.serial).markmap s
          = if s = op2.serial then ⟨st.mark + 1, true⟩ else st.markmap s := by
        intro s
        by_cases e : s = op2.serial
        · subst e; simp [Exporter.set_emitted, Exporter.print, Exporter.next_mark]
        · simp [Exporter.set_emitted, Exporter.print, Exporter.next_mark,
            Function.update_noteq e, e]
      have hout : (((st.next_mark op2.serial).print
          (Out.blob (st.next_mark op2.serial).mark op2.serial)).set_emitted op2.serial).out
          = st.out ++ [Out.blob (st.mark + 1) op2.serial] := rfl
      have hpr : ∀ s, (((st.next_mark op2.serial).print
          (Out.blob (st.next_mark op2.serial).mark op2.serial)).set_emitted op2.serial).present s
          = if s = op2.serial then false else st.present s := by
        intro s
        by_cases e : s = op2.serial
        · subst e; simp [Exporter.set_emitted, Exporter.print, Exporter.next_mark]
        · simp [Exporter.set_emitted, Exporter.print, Exporter.next_mark,
            Function.update_noteq e, e]
      refine ⟨⟨ha, ?_, ?_, ?_, ?_⟩, ?_, ?_⟩
      · intro s hs
        rw [hmm] at hs ⊢
        rw [hout]
        split_ifs at hs ⊢ with e
        · subst e; exact ⟨hs2, by simp⟩
        · exact ⟨(hb s hs).1, List.mem_append_left _ (hb s hs).2⟩
      · intro s h1' h2' hs
        rw [hmm] at hs
        rw [hpr]
        split_ifs at hs ⊢ with e
        exact hc s h1' h2' hs
      · intro s hs
        rw [hpr] at hs
        split_ifs at hs with e
        exact hd s hs
      · rw [hout]
        exact EachAfter.append (fun x pre more hx mode N path hxe => by
            obtain ⟨s, hs⟩ := hx mode N path hxe
            exact ⟨s, List.mem_append_left _ hs⟩) he
          (fun x hx mode N path hxe => by
            have := List.mem_singleton.mp hx
            rw [this] at hxe
            exact Out.noConfusion hxe)
      · intro s hs
        rw [hmm]
        split_ifs
        · rfl
        · exact hs
      · intro _ _
        rw [hmm, if_pos rfl]
    · have hc2 : ¬ (report = true ∧ (st.next_mark op2.serial).present op2.serial = true) :=
        fun h => hr h.1
      rw [if_neg hc2]
      have hmm : ∀ s, (st.next_mark op2.serial).markmap s
          = if s = op2.serial then ⟨st.mark + 1, false⟩ else st.markmap s := by
        intro s
        by_cases e : s = op2.serial
        · subst e; simp [Exporter.next_mark, h1.2]
        · simp [Exporter.next_mark, Function.update_noteq e, e]
      refine ⟨⟨ha, ?_, ?_, hd, he⟩, ?_, ?_⟩
      · intro s hs
        rw [hmm] at hs ⊢
        split_ifs at hs ⊢ with e
        all_goals first | exact Bool.noConfusion hs | exact hb s hs
      · intro s h1' h2' hs
        by_cases e : s = op2.serial
        · subst e; exact hpres
        · rw [hmm, if_neg e] at hs
          exact hc s h1' h2' hs
      · intro s hs
        rw [hmm]
        split_ifs with e
        · subst e; rw [h1.2] at hs; exact Bool.noConfusion hs
        · exact hs
      · intro h; exact absurd h hr
  · rw [if_neg h1]
    refine ⟨⟨ha, hb, hc, hd, he⟩, fun s hs => hs, ?_⟩
    intro _ hM
    cases hq : (st.markmap op2.serial).emitted with
    | true => rfl
    | false => exact absurd ⟨hM, hq⟩ h1

theorem blob_before_flush_ops (seqno0 : Nat) (report : Bool) (ops : List fileop) :
    ∀ {st : Exporter}, blob_before_inv seqno0 st →
    (∀ op ∈ ops, op.op = 'M' → 1 ≤ op.serial ∧ op.serial ≤ seqno0) →
    blob_before_inv seqno0 (flush_ops report ops st) ∧
    (∀ s, (st.markmap s).emitted = true → ((flush_ops report ops st).markmap s).emitted = true) ∧
    (report = true → ∀ op ∈ ops, op.op = 'M' →
      ((flush_ops report ops st).markmap op.serial).emitted = true) := by
  unfold flush_ops
  induction ops with
  | nil => intro st h _; exact ⟨h, fun _ hs => hs, fun _ op ho => by simp at ho⟩
  | cons op ops ih =>
    intro st h hser
    simp only [List.foldl_cons]
    obtain ⟨h1, h2, h3⟩ := blob_before_flush_op seqno0 report h op
      (hser op (List.mem_cons_self _ _))
    obtain ⟨i1, i2, i3⟩ := ih h1 (fun o ho => hser o (List.mem_cons_of_mem _ ho))
    refine ⟨i1, fun s hs => i2 s (h2 s hs), ?_⟩
    intro hr o ho hM
    rcases List.mem_cons.mp ho with rfl | ho'
    · exact i2 _ (h3 hr hM)
    · exact i3 hr o ho' hM

theorem blob_before_prints (seqno0 : Nat) {st st' : Exporter} (h : blob_before_inv seqno0 st)
    (hp : Prints (fun e => ∀ mode N path, e = Out.M mode N path → ∃ s, Out.blob N s ∈ st.out)
      st st') : blob_before_inv seqno0 st' := by
  obtain ⟨ha, hb, hc, hd, he⟩ := h
  obtain ⟨⟨e1, e2, e3, e4, e5, e6⟩, l, el, hl⟩ := hp
  refine ⟨by rw [e3]; exact ha, ?_, ?_, ?_, ?_⟩
  · intro s hs
    rw [e1] at hs ⊢
    rw [el]
    exact ⟨(hb s hs).1, List.mem_append_left _ (hb s hs).2⟩
  · intro s; rw [e1, e4]; exact hc s
  · intro s; rw [e4]; exact hd s
  · unfold blob_before_M
    rw [el]
    exact EachAfter.append (fun x pre more hx mode N path hxe => by
        obtain ⟨s, hs⟩ := hx mode N path hxe
        exact ⟨s, List.mem_append_left _ hs⟩) he hl

theorem blob_before_header (seqno0 : Nat) {st : Exporter} (h : blob_before_inv seqno0 st)
    (c : git_commit) (ref : List Char) (report : Bool) :
    blob_before_inv seqno0 (commit_header c ref report st) ∧
    ∀ s, (st.markmap s).emitted = true →
      ((commit_header c ref report st).markmap s).emitted = true := by
  obtain ⟨ha, hb, hc, hd, he⟩ := h
  have hmm : ∀ s, ((commit_header c ref report st).markmap s).emitted = (st.markmap s).emitted := by
    intro s
    rw [header_markmap]
    by_cases e : s = st.seqno + 1
    · subst e; simp
    · simp [Function.update_noteq e]
  refine ⟨⟨by rw [header_seqno]; omega, ?_, ?_, ?_, ?_⟩, fun s hs => by rw [hmm]; exact hs⟩
  · intro s hs
    rw [hmm] at hs
    have hs' := hb s hs
    refine ⟨hs'.1, ?_⟩
    have e : s ≠ st.seqno + 1 := by omega
    rw [header_markmap, Function.update_noteq e, header_out]
    exact List.mem_append_left _ hs'.2
  · intro s h1 h2 hs
    rw [hmm] at hs
    rw [header_present]
    exact hc s h1 h2 hs
  · intro s hs
    rw [header_present] at hs
    exact hd s hs
  · unfold blob_before_M
    rw [header_out]
    exact EachAfter.append (fun x pre more hx mode N path hxe => by
        obtain ⟨s, hs⟩ := hx mode N path hxe
        exact ⟨s, List.mem_append_left _ hs⟩) he
      (fun x hx mode N path hxe => by
        subst hxe
        split_ifs at hx <;> simp at hx)

theorem blob_before_export_commit (env : Env) (seqno0 : Nat) (c : git_commit)
    (branch_pfx branch : List Char) (report revmap reposurgeon force_dates : Bool)
    {st : Exporter} (h : blob_before_inv seqno0 st)
    (hq : ∀ l, (env.qsort_fileops l).Perm l)
    (hser : ∀ f ∈ c.dirs.flatten, 1 ≤ f.serial ∧ f.serial ≤ seqno0) :
    blob_before_inv seqno0
      (export_commit env c branch_pfx branch report revmap reposurgeon force_dates st) := by
  obtain ⟨h1, _, h3⟩ := @blob_before_flush_ops seqno0 report (commit_ops env c st)
    { st with other := links_of env.atom_bloom c st.other } h
    (fun op ho hM => by
      obtain ⟨f, hf, e⟩ := commit_ops_M ho hM
      rw [e]; exact hser f hf)
  obtain ⟨h4, h5⟩ := blob_before_header seqno0 h1 c (branch_pfx ++ branch) report
  refine blob_before_prints seqno0 h4
    ((export_commit_prints env c branch_pfx branch report revmap reposurgeon force_dates st).mono ?_)
  rintro e ⟨hr, he⟩ mode N path rfl
  simp [body_line] at he
  obtain ⟨op, ho, hM, _, hN, _⟩ := he
  rw [hN]
  have hem := h5 _ (h3 hr op ((hq _).mem_iff.mp ho) hM)
  exact ⟨op.serial, (h4.2.1 _ hem).2⟩

/-- C3: in the stream of `export_commits`, in either mode and for any `fromtime`, when the
`seqno0` spooled blob files are readable and the files of the exported commits carry
spooled serials (`1 <= serial <= seqno0`): every `M` line is preceded by a `blob` record
that declares its mark. -/
theorem blob_before_use (env : Env) (heads : List rev_ref) (branch_pfx : List Char)
    (fromtime : Int) (revmap reposurgeon force_dates branchorder : Bool) (seqno0 : Nat)
    (hq : ∀ l, (env.qsort_fileops l).Perm l)
    (hser : ∀ f ∈ files_of (export_order env heads branchorder),
      1 ≤ f.serial ∧ f.serial ≤ seqno0) :
    blob_before_M (export_commits env heads branch_pfx fromtime revmap reposurgeon force_dates
      branchorder (Exporter.start seqno0)).out := by
  have h := export_commits_induct env heads branch_pfx fromtime revmap reposurgeon force_dates
    branchorder (Exporter.start seqno0) (fun _ st => blob_before_inv seqno0 st)
    (fun _ st e => ∀ mode N path, e = Out.M mode N path → ∃ s, Out.blob N s ∈ st.out)
    (fun done c rest s br report ho _ hi =>
      blob_before_export_commit env seqno0 c branch_pfx br report revmap reposurgeon force_dates
        hi hq (fun f hf => hser f (by
          unfold files_of
          rw [ho]
          simp only [List.mem_flatMap]
          exact ⟨c, by simp, hf⟩)))
    (fun _ _ _ hi hp => blob_before_prints seqno0 hi hp)
    (fun _ _ _ _ _ _ h => Out.noConfusion h) (fun _ _ _ _ _ _ _ _ h => Out.noConfusion h)
    (fun _ _ _ _ _ _ _ h => Out.noConfusion h)
    (by
      refine ⟨le_refl _, ?_, ?_, ?_, EachAfter.nil _⟩
      · intro s hs; simp [Exporter.start] at hs
      · intro s h1 h2 _; simp [Exporter.start, h1, h2]
      · intro s hs
        simp [Exporter.start] at hs
        exact hs.2)
  exact h.2.2.2.2

/-! ## Mark density -/

theorem pairwise_of_length_le_one {α : Type} (R : α → α → Prop) :
    ∀ l : List α, l.length ≤ 1 → l.Pairwise R
  | [], _ => List.Pairwise.nil
  | [a], _ => List.pairwise_singleton R a
  | _ :: _ :: _, h => absurd h (by simp)

/-- One step that issues a mark: `markmap[slot].external = ++mark`, possibly followed by
the record that declares it. -/
theorem mark_inv_issue {done done' : List git_commit} {st st' : Exporter} (slot : Nat)
    (l : List Out) (ss : List Store) (h : mark_inv done st)
    (hmark : st'.mark = st.mark + 1)
    (hext : ∀ s, (st'.markmap s).external
      = if s = slot then st.mark + 1 else (st.markmap s).external)
    (hem : ∀ s, (st'.markmap s).emitted = true → s = slot ∨ (st.markmap s).emitted = true)
    (hst : st'.stores = st.stores ++ Store.external slot (st.mark + 1) :: ss)
    (hss : issued_marks ss = [])
    (hout : st'.out = st.out ++ l) (href : ∀ e ∈ l, referenced e = none)
    (hdecl : ∀ m ∈ l.filterMap declared, m = st.mark + 1)
    (hdecl2 : (l.filterMap declared).length ≤ 1)
    (hdone : ∀ a ∈ done'.map (fun d => d.addr), 1 ≤ (st'.markmap (st'.commit_serial a)).external) :
    mark_inv done' st' := by
  obtain ⟨ha, hb, hc, hd, he, hf, _⟩ := h
  refine ⟨?_, ?_, ?_, ?_, ?_, ?_, hdone⟩
  · intro s
    rw [hext, hmark]
    split_ifs
    · exact le_refl _
    · exact Nat.le_succ_of_le (ha s)
  · rw [hst, hmark]
    unfold issued_marks at hb hss ⊢
    rw [List.filterMap_append, List.filterMap_cons, hb, hss]
    simp only []
    rw [List.range'_concat]
    simp [Nat.add_comm]
  · rw [hout, List.filterMap_append, List.pairwise_append]
    refine ⟨hc, pairwise_of_length_le_one _ _ hdecl2, ?_⟩
    intro a ha' b hb'
    rw [hdecl b hb']
    exact Nat.lt_succ_of_le (hd a ha').2
  · intro m hm
    rw [hout, List.filterMap_append] at hm
    rw [hmark]
    rcases List.mem_append.mp hm with h1 | h1
    · exact ⟨(hd m h1).1, Nat.le_succ_of_le (hd m h1).2⟩
    · rw [hdecl m h1]; exact ⟨Nat.succ_pos _, le_refl _⟩
  · intro e hx N hN
    rw [hout] at hx
    rw [hmark]
    rcases List.mem_append.mp hx with h1 | h1
    · exact ⟨(he e h1 N hN).1, Nat.le_succ_of_le (he e h1 N hN).2⟩
    · rw [href e h1] at hN; exact Option.noConfusion hN
  · intro s hs
    rw [hext]
    split_ifs
    · exact Nat.succ_pos _
    · rcases hem s hs with h1 | h1
      · contradiction
      · exact hf s h1

theorem mark_inv_prints {done : List git_commit} {st st' : Exporter} (h : mark_inv done st)
    (hp : Prints (fun e => declared e = none ∧
      ∀ N, referenced e = some N → 1 ≤ N ∧ N ≤ st.mark) st st') : mark_inv done st' := by
  obtain ⟨ha, hb, hc, hd, he, hf, hg⟩ := h
  obtain ⟨⟨e1, e2, e3, e4, e5, e6⟩, l, el, hl⟩ := hp
  have hfm : l.filterMap declared = [] := by
    rw [List.filterMap_eq_nil_iff]
    exact fun e he' => (hl e he').1
  refine ⟨?_, ?_, ?_, ?_, ?_, ?_, ?_⟩
  · intro s; rw [e1, e2]; exact ha s
  · rw [e6, e2]; exact hb
  · rw [el, List.filterMap_append, hfm, List.append_nil]; exact hc
  · rw [el, List.filterMap_append, hfm, List.append_nil, e2]; exact hd
  · intro e hx N hN
    rw [e2]
    rw [el] at hx
    rcases List.mem_append.mp hx with h1 | h1
    · exact he e h1 N hN
    · exact (hl e h1).2 N hN
  · intro s; rw [e1]; exact hf s
  · intro a; rw [e1, e5]; exact hg a

theorem mark_inv_flush_op (done : List git_commit) (report : Bool) {st : Exporter}
    (h : mark_inv done st) (op2 : fileop) :
    mark_inv done (flush_op report st op2) ∧
    (∀ s, 1 ≤ (st.markmap s).external → 1 ≤ ((flush_op report st op2).markmap s).external) ∧
    (op2.op = 'M' → 1 ≤ ((flush_op report st op2).markmap op2.serial).external) ∧
    (flush_op report st op2).commit_serial = st.commit_serial := by
  unfold flush_op
  simp only []
  by_cases h1 : op2.op = 'M' ∧ (st.markmap op2.serial).emitted = false
  · rw [if_pos h1]
    by_cases h2 : report = true ∧ (st.next_mark op2.serial).present op2.serial = true
    · rw [if_pos h2]
      have hext : ∀ s, ((((st.next_mark op2.serial).print
          (Out.blob (st.next_mark op2.serial).mark op2.serial)).set_emitted op2.serial).markmap
            s).external = if s = op2.serial then st.mark + 1 else (st.markmap s).external := by
        intro s
        by_cases e : s = op2.serial
        · subst e; simp [Exporter.set_emitted, Exporter.print, Exporter.next_mark]
        · simp [Exporter.set_emitted, Exporter.print, Exporter.next_mark,
            Function.update_noteq e, e]
      have hpos : ∀ s, 1 ≤ (st.markmap s).external → 1 ≤ ((((st.next_mark op2.serial).print
          (Out.blob (st.next_mark op2.serial).mark op2.serial)).set_emitted op2.serial).markmap
            s).external := by
        intro s hs
        rw [hext]; split_ifs
        · exact Nat.succ_pos _
        · exact hs
      refine ⟨mark_inv_issue op2.serial [Out.blob (st.mark + 1) op2.serial]
        [Store.emitted op2.serial] h rfl hext ?_ ?_ rfl rfl ?_ ?_ ?_ ?_, hpos, ?_, rfl⟩
      · intro s hs
        by_cases e : s = op2.serial
        · exact Or.inl e
        · right
          simpa [Exporter.set_emitted, Exporter.print, Exporter.next_mark,
            Function.update_noteq e] using hs
      · simp [Exporter.set_emitted, Exporter.print, Exporter.next_mark]
      · intro e he; simp at he; subst he; rfl
      · intro m hm; simpa [declared] using hm
      · simp [declared]
      · intro a ha
        exact hpos _ (h.2.2.2.2.2.2 a ha)
      · intro _; rw [hext, if_pos rfl]; exact Nat.succ_pos _
    · rw [if_neg h2]
      have hext : ∀ s, ((st.next_mark op2.serial).markmap s).external
          = if s = op2.serial then st.mark + 1 else (st.markmap s).external := by
        intro s
        by_cases e : s = op2.serial
        · subst e; simp [Exporter.next_mark]
        · simp [Exporter.next_mark, Function.update_noteq e, e]
      have hpos : ∀ s, 1 ≤ (st.markmap s).external →
          1 ≤ ((st.next_mark op2.serial).markmap s).external := by
        intro s hs
        rw [hext]; split_ifs
        · exact Nat.succ_pos _
        · exact hs
      refine ⟨mark_inv_issue op2.serial [] [] h rfl hext ?_ (by simp [Exporter.next_mark]) rfl
        (by simp [Exporter.next_mark]) ?_ ?_ ?_ ?_, hpos, ?_, rfl⟩
      · intro s hs
        by_cases e : s = op2.serial
        · exact Or.inl e
        · right
          simpa [Exporter.next_mark, Function.update_noteq e] using hs
      · intro e he; simp at he
      · intro m hm; simp at hm
      · simp
      · intro a ha
        exact hpos _ (h.2.2.2.2.2.2 a ha)
      · intro _; rw [hext, if_pos rfl]; exact Nat.succ_pos _
  · rw [if_neg h1]
    refine ⟨h, fun s hs => hs, ?_, rfl⟩
    intro hM
    apply h.2.2.2.2.2.1
    cases hq : (st.markmap op2.serial).emitted with
    | true => rfl
    | false => exact absurd ⟨hM, hq⟩ h1

theorem mark_inv_flush_ops (done : List git_commit) (report : Bool) (ops : List fileop) :
    ∀ {st : Exporter}, mark_inv done st →
    mark_inv done (flush_ops report ops st) ∧
    (∀ s, 1 ≤ (st.markmap s).external → 1 ≤ ((flush_ops report ops st).markmap s).external) ∧
    (∀ op ∈ ops, op.op = 'M' → 1 ≤ ((flush_ops report ops st).markmap op.serial).external) ∧
    (flush_ops report ops st).commit_serial = st.commit_serial := by
  unfold flush_ops
  induction ops with
  | nil => intro st h; exact ⟨h, fun _ hs => hs, fun op ho => by simp at ho, rfl⟩
  | cons op ops ih =>
    intro st h
    simp only [List.foldl_cons]
    obtain ⟨h1, h2, h3, h4⟩ := mark_inv_flush_op done report h op
    obtain ⟨i1, i2, i3, i4⟩ := ih h1
    refine ⟨i1, fun s hs => i2 s (h2 s hs), ?_, i4.trans h4⟩
    intro o ho hM
    rcases List.mem_cons.mp ho with rfl | ho'
    · exact i2 _ (h3 hM)
    · exact i3 o ho' hM

theorem mark_inv_header (done : List git_commit) {st : Exporter} (h : mark_inv done st)
    (c : git_commit) (ref : List Char) (report : Bool) :
    mark_inv (done ++ [c]) (commit_header c ref report st) ∧
    (∀ s, 1 ≤ (st.markmap s).external →
      1 ≤ ((commit_header c ref report st).markmap s).external) := by
  have hext : ∀ s, ((commit_header c ref report st).markmap s).external
      = if s = st.seqno + 1 then st.mark + 1 else (st.markmap s).external := by
    intro s
    rw [header_markmap]
    by_cases e : s = st.seqno + 1
    · subst e; simp
    · simp [Function.update_noteq e, e]
  have hpos : ∀ s, 1 ≤ (st.markmap s).external →
      1 ≤ ((commit_header c ref report st).markmap s).external := by
    intro s hs
    rw [hext]; split_ifs
    · exact Nat.succ_pos _
    · exact hs
  refine ⟨mark_inv_issue (st.seqno + 1)
    (if report = true then [Out.commit ref, Out.mark_line (st.mark + 1)] else []) [] h
    (header_mark c ref report st) hext ?_ (header_stores c ref report st) rfl
    (header_out c ref report st) ?_ ?_ ?_ ?_, hpos⟩
  · intro s hs
    by_cases e : s = st.seqno + 1
    · exact Or.inl e
    · right
      rw [header_markmap, Function.update_noteq e] at hs
      exact hs
  · intro e he
    split_ifs at he
    · simp at he; rcases he with rfl | rfl <;> rfl
    · simp at he
  · intro m hm
    split_ifs at hm
    · simpa [declared] using hm
    · simp at hm
  · split_ifs <;> simp [declared]
  · intro a ha
    rw [header_commit_serial]
    by_cases e : a = c.addr
    · subst e
      rw [Function.update_same, hext, if_pos rfl]
      exact Nat.succ_pos _
    · rw [Function.update_noteq e]
      apply hpos
      apply h.2.2.2.2.2.2 a
      simp only [List.map_append, List.mem_append, List.map_cons, List.map_nil,
        List.mem_singleton] at ha
      rcases ha with ha | ha
      · exact ha
      · exact absurd ha e

theorem mark_inv_export_commit (env : Env) (done : List git_commit) (c : git_commit)
    (branch_pfx branch : List Char) (report revmap reposurgeon force_dates : Bool)
    {st : Exporter} (h : mark_inv done st) (hq : ∀ l, (env.qsort_fileops l).Perm l)
    (hpar : ∀ p, c.parent = some p → p.addr ∈ done.map (fun d => d.addr)) :
    mark_inv (done ++ [c])
      (export_commit env c branch_pfx branch report revmap reposurgeon force_dates st) := by
  obtain ⟨h1, _, h3, _⟩ := @mark_inv_flush_ops done report (commit_ops env c st)
    { st with other := links_of env.atom_bloom c st.other } h
  obtain ⟨h4, h5⟩ := mark_inv_header done h1 c (branch_pfx ++ branch) report
  refine mark_inv_prints h4
    ((export_commit_prints env c branch_pfx branch report revmap reposurgeon force_dates st).mono ?_)
  rintro e ⟨_, he⟩
  rcases he with ⟨_, _, _, _, rfl⟩ | ⟨_, rfl⟩ | ⟨p, hp, rfl⟩ | ⟨op, ho, hM, rfl⟩ | ⟨_, rfl⟩ |
    rfl | ⟨_, rfl⟩ | rfl
  · exact ⟨rfl, fun N hN => Option.noConfusion hN⟩
  · exact ⟨rfl, fun N hN => Option.noConfusion hN⟩
  · refine ⟨rfl, fun N hN => ?_⟩
    simp only [referenced, Option.some.injEq] at hN
    subst hN
    exact ⟨h4.2.2.2.2.2.2 p.addr (by
      simp only [List.map_append, List.mem_append]
      exact Or.inl (hpar p hp)), h4.1 _⟩
  · refine ⟨rfl, fun N hN => ?_⟩
    simp only [referenced, Option.some.injEq] at hN
    subst hN
    exact ⟨h5 _ (h3 op ((hq _).mem_iff.mp ho) hM), h4.1 _⟩
  · exact ⟨rfl, fun N hN => Option.noConfusion hN⟩
  · exact ⟨rfl, fun N hN => Option.noConfusion hN⟩
  · exact ⟨rfl, fun N hN => Option.noConfusion hN⟩
  · exact ⟨rfl, fun N hN => Option.noConfusion hN⟩

theorem parent_first_from_split :
    ∀ (order : List git_commit) (seen : List Nat), parent_first_from seen order = true →
      ∀ done c rest, order = done ++ c :: rest → ∀ p, c.parent = some p →
        p.addr ∈ seen ∨ p.addr ∈ done.map (fun d => d.addr) := by
  intro order
  induction order with
  | nil => intro seen _ done c rest e; simp at e
  | cons x order ih =>
    intro seen h done c rest e p hp
    unfold parent_first_from at h
    rw [Bool.and_eq_true] at h
    cases done with
    | nil =>
      simp only [List.nil_append, List.cons.injEq] at e
      obtain ⟨rfl, _⟩ := e
      rw [hp] at h
      left
      simpa using h.1
    | cons d done =>
      simp only [List.cons_append, List.cons.injEq] at e
      obtain ⟨rfl, e'⟩ := e
      rcases ih _ h.2 done c rest e' p hp with h1 | h1
      · rcases List.mem_cons.mp h1 with h2 | h2
        · right; simp [h2]
        · left; exact h2
      · right; simp only [List.map_cons, List.mem_cons]; exact Or.inr h1

theorem parent_first_split {order : List git_commit} (h : parent_first order)
    {done rest : List git_commit} {c p : git_commit} (e : order = done ++ c :: rest)
    (hp : c.parent = some p) : p.addr ∈ done.map (fun d => d.addr) := by
  rcases parent_first_from_split order [] h done c rest e p hp with h1 | h1
  · simp at h1
  · exact h1

/-- C5, as stated, fails: in branch order with the child branch `side` listed before its
parent branch, the commit of `side` is exported before its parent and prints `from :0`. -/
theorem from_zero_when_child_first :
    Out.from_ 0 ∈ (export_commits sample_env [side_head, trunk_head] "refs/heads/".toList 0
      false false false true (Exporter.start 2)).out ∧
    referenced (Out.from_ 0) = some 0 := by
  decide

/-- C5, amended: over a whole `export_commits` run started with `mark = 0` (after `seqno0`
blobs were spooled), in either mode and for any `fromtime`, when `export_commit` reaches
every commit after its parent and the commit of every head is exported: the values that
`++mark` handed out are exactly 1, 2, ..., `mark`; the marks declared in the stream by
blob and commit records increase strictly, so that no two records declare the same mark,
and lie in 1..`mark`, so that mark 0 is never declared; and every mark referred to by an
`M` line, a `from` line, a tag or a branch reset record lies in 1..`mark`. -/
theorem marks_dense (env : Env) (heads : List rev_ref) (branch_pfx : List Char)
    (fromtime : Int) (revmap reposurgeon force_dates branchorder : Bool) (seqno0 : Nat)
    (st : Exporter)
    (hst : st = export_commits env heads branch_pfx fromtime revmap reposurgeon force_dates
      branchorder (Exporter.start seqno0))
    (hq : ∀ l, (env.qsort_fileops l).Perm l)
    (hord : parent_first (export_order env heads branchorder))
    (hheads : ∀ h ∈ heads,
      h.commit.addr ∈ (export_order env heads branchorder).map (fun d => d.addr)) :
    issued_marks st.stores = List.range' 1 st.mark ∧
    (st.out.filterMap declared).Pairwise (fun a b => a < b) ∧
    (∀ m ∈ st.out.filterMap declared, 1 ≤ m ∧ m ≤ st.mark) ∧
    (∀ e ∈ st.out, ∀ N, referenced e = some N → 1 ≤ N ∧ N ≤ st.mark) := by
  have h := export_commits_induct env heads branch_pfx fromtime revmap reposurgeon force_dates
    branchorder (Exporter.start seqno0) (fun done s => mark_inv done s)
    (fun done s e => mark_inv done s → (declared e = none ∧
      ∀ N, referenced e = some N → 1 ≤ N ∧ N ≤ s.mark))
    (fun done c rest s br report ho _ hi =>
      mark_inv_export_commit env done c branch_pfx br report revmap reposurgeon force_dates
        hi hq (fun p hp => parent_first_split hord ho hp))
    (fun _ _ _ hi hp => mark_inv_prints hi (hp.mono (fun e he => he hi)))
    (fun _ _ _ _ => ⟨rfl, fun N hN => Option.noConfusion hN⟩)
    (fun done s name a ha hi => ⟨rfl, fun N hN => by
      simp only [referenced, Option.some.injEq] at hN
      subst hN
      exact ⟨hi.2.2.2.2.2.2 a ha, hi.1 _⟩⟩)
    (fun s h ref hh hi => ⟨rfl, fun N hN => by
      simp only [referenced, Option.some.injEq] at hN
      subst hN
      exact ⟨hi.2.2.2.2.2.2 _ (hheads h hh), hi.1 _⟩⟩)
    (by
      refine ⟨fun s => le_refl _, rfl, ?_, ?_, ?_, ?_, ?_⟩
      · simp [Exporter.start]
      · intro m hm; simp [Exporter.start] at hm
      · intro e he; simp [Exporter.start] at he
      · intro s hs; simp at hs
      · intro a ha; simp at ha)
  rw [hst]
  exact ⟨h.2.1, h.2.2.1, h.2.2.2.1, h.2.2.2.2.1⟩

/-- C5, amended, at scenario S1 in canonical order. -/
theorem marks_dense_witness :
    (parent_first (export_order sample_env [s1_master] false) ∧
     ∀ h ∈ [s1_master],
      h.commit.addr ∈ (export_order sample_env [s1_master] false).map (fun d => d.addr)) ∧
    (export_commits sample_env [s1_master] "refs/heads/".toList 0 false false false false
      (Exporter.start 2)).mark = 4 ∧
    ∀ e ∈ (export_commits sample_env [s1_master] "refs/heads/".toList 0 false false false false
      (Exporter.start 2)).out, ∀ N, referenced e = some N →
      1 ≤ N ∧ N ≤ (export_commits sample_env [s1_master] "refs/heads/".toList 0 false false
        false false (Exporter.start 2)).mark :=
  have hord : parent_first_from [] (export_order sample_env [s1_master] false) = true := by
    decide
  ⟨⟨hord, by decide⟩, by decide,
   (marks_dense sample_env [s1_master] "refs/heads/".toList 0 false false false false 2 _ rfl
    (fun l => List.Perm.refl l) hord (by decide)).2.2.2⟩

/-! ## Parent before child -/

/-- What the blob flush leaves alone: the serial counter, the serials of the commits, every
slot that is not the serial of an `M` operation; and it prints `blob` records only. -/
theorem flush_op_frame (report : Bool) (st : Exporter) (op2 : fileop) :
    (flush_op report st op2).seqno = st.seqno ∧
    (flush_op report st op2).commit_serial = st.commit_serial ∧
    (∀ s, (op2.op = 'M' → op2.serial ≠ s) → (flush_op report st op2).markmap s = st.markmap s) ∧
    ∃ l, (flush_op report st op2).out = st.out ++ l ∧ ∀ e ∈ l, ∃ m s, e = Out.blob m s := by
  unfold flush_op
  simp only []
  by_cases h1 : op2.op = 'M' ∧ (st.markmap op2.serial).emitted = false
  · rw [if_pos h1]
    by_cases h2 : report = true ∧ (st.next_mark op2.serial).present op2.serial = true
    · rw [if_pos h2]
      refine ⟨rfl, rfl, ?_, [Out.blob (st.mark + 1) op2.serial], rfl, ?_⟩
      · intro s hs
        have e : s ≠ op2.serial := fun e => hs h1.1 e.symm
        simp [Exporter.set_emitted, Exporter.print, Exporter.next_mark, Function.update_noteq e]
      · intro e he; exact ⟨_, _, List.mem_singleton.mp he⟩
    · rw [if_neg h2]
      refine ⟨rfl, rfl, ?_, [], by simp [Exporter.next_mark], by simp⟩
      intro s hs
      have e : s ≠ op2.serial := fun e => hs h1.1 e.symm
      simp [Exporter.next_mark, Function.update_noteq e]
  · rw [if_neg h1]
    exact ⟨rfl, rfl, fun _ _ => rfl, [], by simp, by simp⟩

theorem flush_ops_frame (report : Bool) (ops : List fileop) :
    ∀ st : Exporter,
    (flush_ops report ops st).seqno = st.seqno ∧
    (flush_ops report ops st).commit_serial = st.commit_serial ∧
    (∀ s, (∀ op ∈ ops, op.op = 'M' → op.serial ≠ s) →
      (flush_ops report ops st).markmap s = st.markmap s) ∧
    ∃ l, (flush_ops report ops st).out = st.out ++ l ∧ ∀ e ∈ l, ∃ m s, e = Out.blob m s := by
  unfold flush_ops
  induction ops with
  | nil => intro st; exact ⟨rfl, rfl, fun _ _ => rfl, [], by simp, by simp⟩
  | cons op ops ih =>
    intro st
    simp only [List.foldl_cons]
    obtain ⟨a1, a2, a3, l1, a4, a5⟩ := flush_op_frame report st op
    obtain ⟨b1, b2, b3, l2, b4, b5⟩ := ih (flush_op report st op)
    refine ⟨b1.trans a1, b2.trans a2, ?_, l1 ++ l2, by rw [b4, a4, List.append_assoc], ?_⟩
    · intro s hs
      rw [b3 s (fun o ho => hs o (List.mem_cons_of_mem _ ho)),
        a3 s (hs op (List.mem_cons_self _ _))]
    · intro e he
      rcases List.mem_append.mp he with h | h
      · exact a5 e h
      · exact b5 e h

theorem from_after_mark_append {out l : List Out} (h : from_after_mark out)
    (hl : ∀ e ∈ l, ∀ N, e = Out.from_ N → Out.mark_line N ∈ out) :
    from_after_mark (out ++ l) :=
  EachAfter.append (fun _ _ _ hx N hN => List.mem_append_left _ (hx N hN)) h hl

theorem from_inv_flush (seqno0 : Nat) (done : List git_commit) (report : Bool)
    (ops : List fileop) {st : Exporter} (h : from_inv seqno0 done st)
    (hser : ∀ op ∈ ops, op.op = 'M' → op.serial ≤ seqno0) :
    from_inv seqno0 done (flush_ops report ops st) := by
  obtain ⟨ha, hb, hc⟩ := h
  obtain ⟨f1, f2, f3, l, f4, f5⟩ := flush_ops_frame report ops st
  refine ⟨by rw [f1]; exact ha, ?_, ?_⟩
  · intro a hx
    obtain ⟨h1, h2, h3⟩ := hb a hx
    rw [f1, f2, f3 _ (fun op ho hM e => by have := hser op ho hM; omega), f4]
    exact ⟨h1, h2, List.mem_append_left _ h3⟩
  · rw [f4]
    apply from_after_mark_append hc
    intro e he N hN
    obtain ⟨m, s, rfl⟩ := f5 e he
    exact Out.noConfusion hN

theorem from_inv_header (seqno0 : Nat) (done : List git_commit) {st : Exporter}
    (h : from_inv seqno0 done st) (c : git_commit) (ref : List Char) :
    from_inv seqno0 (done ++ [c]) (commit_header c ref true st) := by
  obtain ⟨ha, hb, hc⟩ := h
  refine ⟨by rw [header_seqno]; omega, ?_, ?_⟩
  · intro a hx
    rw [header_commit_serial, header_seqno, header_markmap, header_out]
    by_cases e : a = c.addr
    · subst e
      rw [Function.update_same, Function.update_same]
      exact ⟨by omega, le_refl _, by simp⟩
    · rw [Function.update_noteq e]
      have hx' : a ∈ done.map (fun d => d.addr) := by
        simp only [List.map_append, List.mem_append, List.map_cons, List.map_nil,
          List.mem_singleton] at hx
        rcases hx with hx | hx
        · exact hx
        · exact absurd hx e
      obtain ⟨h1, h2, h3⟩ := hb a hx'
      have e2 : st.commit_serial a ≠ st.seqno + 1 := by omega
      rw [Function.update_noteq e2]
      exact ⟨h1, by omega, List.mem_append_left _ h3⟩
  · rw [header_out]
    apply from_after_mark_append hc
    intro e he N hN
    subst hN
    simp at he

theorem from_inv_prints (seqno0 : Nat) (done : List git_commit) {st st' : Exporter}
    (h : from_inv seqno0 done st)
    (hp : Prints (fun e => ∀ N, e = Out.from_ N → Out.mark_line N ∈ st.out) st st') :
    from_inv seqno0 done st' := by
  obtain ⟨ha, hb, hc⟩ := h
  obtain ⟨⟨e1, e2, e3, e4, e5, e6⟩, l, el, hl⟩ := hp
  refine ⟨by rw [e3]; exact ha, ?_, ?_⟩
  · intro a hx
    obtain ⟨h1, h2, h3⟩ := hb a hx
    rw [e1, e3, e5, el]
    exact ⟨h1, h2, List.mem_append_left _ h3⟩
  · rw [el]
    exact from_after_mark_append hc hl

theorem from_inv_export_commit (env : Env) (seqno0 : Nat) (done : List git_commit)
    (c : git_commit) (branch_pfx branch : List Char) (revmap reposurgeon force_dates : Bool)
    {st : Exporter} (h : from_inv seqno0 done st)
    (hser : ∀ f ∈ c.dirs.flatten, f.serial ≤ seqno0)
    (hpar : ∀ p, c.parent = some p → p.addr ∈ done.map (fun d => d.addr)) :
    from_inv seqno0 (done ++ [c])
      (export_commit env c branch_pfx branch true revmap reposurgeon force_dates st) := by
  have h1 : from_inv seqno0 done (after_flush env c true st) :=
    @from_inv_flush seqno0 done true (commit_ops env c st)
      { st with other := links_of env.atom_bloom c st.other } h
      (fun op ho hM => by
        obtain ⟨f, hf, e⟩ := commit_ops_M ho hM
        rw [e]; exact hser f hf)
  have h2 := from_inv_header seqno0 done h1 c (branch_pfx ++ branch)
  refine from_inv_prints seqno0 _ h2
    ((export_commit_prints env c branch_pfx branch true revmap reposurgeon force_dates st).mono ?_)
  rintro e ⟨_, he⟩ N rfl
  simp [body_line] at he
  obtain ⟨p, hp, rfl⟩ := he
  exact (h2.2.1 p.addr (by
    simp only [List.map_append, List.mem_append]
    exact Or.inl (hpar p hp))).2.2

/-- Parent before child in the stream of a run that reports every commit and exports
every commit after its parent. -/
theorem from_after_mark_of_parent_first (env : Env) (heads : List rev_ref)
    (branch_pfx : List Char) (fromtime : Int) (revmap reposurgeon force_dates branchorder : Bool)
    (seqno0 : Nat) (hfrom : fromtime ≤ 0)
    (hser : ∀ f ∈ files_of (export_order env heads branchorder), f.serial ≤ seqno0)
    (hord : parent_first (export_order env heads branchorder)) :
    from_after_mark (export_commits env heads branch_pfx fromtime revmap reposurgeon force_dates
      branchorder (Exporter.start seqno0)).out := by
  have h := export_commits_induct env heads branch_pfx fromtime revmap reposurgeon force_dates
    branchorder (Exporter.start seqno0) (fun done s => from_inv seqno0 done s)
    (fun _ s e => ∀ N, e = Out.from_ N → Out.mark_line N ∈ s.out)
    (fun done c rest s br report ho hr hi => by
      have hrep : report = true := by
        rcases hr with hr | hr
        · exact hr
        · omega
      subst hrep
      exact from_inv_export_commit env seqno0 done c branch_pfx br revmap reposurgeon
        force_dates hi (fun f hf => hser f (by
          unfold files_of
          rw [ho]
          simp only [List.mem_flatMap]
          exact ⟨c, by simp, hf⟩)) (fun p hp => parent_first_split hord ho hp))
    (fun _ _ _ hi hp => from_inv_prints seqno0 _ hi hp)
    (fun _ _ _ _ h => Out.noConfusion h) (fun _ _ _ _ _ _ h => Out.noConfusion h)
    (fun _ _ _ _ _ h => Out.noConfusion h)
    (by
      refine ⟨le_refl _, ?_, EachAfter.nil _⟩
      intro a ha; simp at ha)
  exact h.2.2

/-! ## The order of export -/

theorem parent_first_from_of_split :
    ∀ (order : List git_commit) (seen : List Nat),
      (∀ done c rest, order = done ++ c :: rest → ∀ p, c.parent = some p →
        p.addr ∈ seen ∨ p.addr ∈ done.map (fun d => d.addr)) →
      parent_first_from seen order = true := by
  intro order
  induction order with
  | nil => intro seen _; rfl
  | cons x order ih =>
    intro seen h
    unfold parent_first_from
    rw [Bool.and_eq_true]
    constructor
    · cases hp : x.parent with
      | none => rfl
      | some p =>
        rcases h [] x order rfl p hp with h1 | h1
        · simpa using h1
        · simp at h1
    · apply ih
      intro done c rest e p hp
      rcases h (x :: done) c rest (by rw [e]; rfl) p hp with h1 | h1
      · exact Or.inl (List.mem_cons_of_mem _ h1)
      · simp only [List.map_cons, List.mem_cons] at h1
        rcases h1 with h1 | h1
        · exact Or.inl (by rw [h1]; exact List.mem_cons_self _ _)
        · exact Or.inr h1

theorem split_append {seen : List Nat} {l1 l2 : List git_commit}
    (h1 : ∀ done c rest, l1 = done ++ c :: rest → ∀ p, c.parent = some p →
      p.addr ∈ seen ∨ p.addr ∈ done.map (fun d => d.addr))
    (h2 : ∀ done c rest, l2 = done ++ c :: rest → ∀ p, c.parent = some p →
      (p.addr ∈ l1.map (fun d => d.addr) ∨ p.addr ∈ seen) ∨ p.addr ∈ done.map (fun d => d.addr)) :
    ∀ done c rest, l1 ++ l2 = done ++ c :: rest → ∀ p, c.parent = some p →
      p.addr ∈ seen ∨ p.addr ∈ done.map (fun d => d.addr) := by
  intro done c rest e p hp
  rcases List.append_eq_append_iff.mp e with ⟨a', e1, e2⟩ | ⟨c', e1, e2⟩
  · rcases h2 a' c rest e2 p hp with (h | h) | h
    · right; rw [e1]; simp only [List.map_append, List.mem_append]; exact Or.inl h
    · exact Or.inl h
    · right; rw [e1]; simp only [List.map_append, List.mem_append]; exact Or.inr h
  · cases c' with
    | nil =>
      simp only [List.append_nil, List.nil_append] at e1 e2
      rcases h2 [] c rest e2.symm p hp with (h | h) | h
      · right; rw [← e1]; exact h
      · exact Or.inl h
      · simp at h
    | cons y c'' =>
      simp only [List.cons_append, List.cons.injEq] at e2
      obtain ⟨rfl, _⟩ := e2
      exact h1 done c c'' e1 p hp

theorem mem_branch_chain_self (c : git_commit) : c ∈ branch_chain c := by
  match c with
  | .mk a none t d au l ds b => simp [branch_chain]
  | .mk a (some p) true d au l ds b => simp [branch_chain]
  | .mk a (some p) false d au l ds b => simp [branch_chain]

theorem branch_chain_ne_nil (c : git_commit) : branch_chain c ≠ [] :=
  List.ne_nil_of_mem (mem_branch_chain_self c)

/-- Within the slice of a head, filled in reverse, every commit comes after its parent,
except for the oldest one. -/
theorem chain_split (seen : List Nat) :
    ∀ c : git_commit,
      (∀ c0, (branch_chain c).getLast? = some c0 → ∀ p, c0.parent = some p → p.addr ∈ seen) →
      ∀ done x rest, (branch_chain c).reverse = done ++ x :: rest → ∀ p, x.parent = some p →
        p.addr ∈ seen ∨ p.addr ∈ done.map (fun d => d.addr)
  | .mk a none t d au l ds b => by
    intro h done x rest e p hp
    have hc : branch_chain (.mk a none t d au l ds b) = [.mk a none t d au l ds b] := by
      simp [branch_chain]
    rw [hc] at e h
    cases done with
    | nil =>
      simp at e
      obtain ⟨rfl, _⟩ := e
      exact Or.inl (h _ rfl p hp)
    | cons y ys => simp at e
  | .mk a (some q) true d au l ds b => by
    intro h done x rest e p hp
    have hc : branch_chain (.mk a (some q) true d au l ds b)
        = [.mk a (some q) true d au l ds b] := by
      simp [branch_chain]
    rw [hc] at e h
    cases done with
    | nil =>
      simp at e
      obtain ⟨rfl, _⟩ := e
      exact Or.inl (h _ rfl p hp)
    | cons y ys => simp at e
  | .mk a (some q) false d au l ds b => by
    intro h
    have hc : branch_chain (.mk a (some q) false d au l ds b)
        = .mk a (some q) false d au l ds b :: branch_chain q := by
      simp [branch_chain]
    rw [hc, List.reverse_cons]
    rw [hc] at h
    apply split_append
    · apply chain_split seen q
      intro c0 hc0
      apply h c0
      rw [List.getLast?_cons, ← hc0]
      cases hq : (branch_chain q).getLast? with
      | none => exact absurd (List.getLast?_eq_none_iff.mp hq) (branch_chain_ne_nil q)
      | some z => rfl
    · intro done x rest e p hp
      cases done with
      | nil =>
        simp at e
        obtain ⟨rfl, _⟩ := e
        have : p = q := by
          simp [git_commit.parent] at hp
          exact hp.symm
        subst this
        left; left
        simp only [List.map_reverse, List.mem_reverse, List.mem_map]
        exact ⟨p, mem_branch_chain_self p, rfl⟩
      | cons y ys => simp at e

theorem heads_split :
    ∀ (heads : List rev_ref) (seen : List Nat), heads_parent_first_from seen heads = true →
      ∀ done c rest,
        (heads.filter (fun h => !h.tail)).flatMap (fun h => (branch_chain h.commit).reverse)
          = done ++ c :: rest →
        ∀ p, c.parent = some p → p.addr ∈ seen ∨ p.addr ∈ done.map (fun d => d.addr) := by
  intro heads
  induction heads with
  | nil => intro seen _ done c rest e; simp at e
  | cons h hs ih =>
    intro seen hh
    unfold heads_parent_first_from at hh
    cases ht : h.tail with
    | true =>
      rw [ht] at hh
      simp only [if_true] at hh
      have e2 : (h :: hs).filter (fun h => !h.tail) = hs.filter (fun h => !h.tail) := by
        simp [List.filter_cons, ht]
      rw [e2]
      exact ih seen hh
    | false =>
      rw [ht] at hh
      simp only [Bool.false_eq_true, if_false, Bool.and_eq_true] at hh
      have e2 : (h :: hs).filter (fun h => !h.tail) = h :: hs.filter (fun h => !h.tail) := by
        simp [List.filter_cons, ht]
      rw [e2, List.flatMap_cons]
      apply split_append
      · apply chain_split seen h.commit
        intro c0 hc0 p hp
        have h1 := hh.1
        rw [hc0] at h1
        simp only [hp] at h1
        simpa using h1
      · intro done c rest e p hp
        rcases ih _ hh.2 done c rest e p hp with h1 | h1
        · left
          rcases List.mem_append.mp h1 with h2 | h2
          · left; simpa using h2
          · exact Or.inr h2
        · exact Or.inr h1

theorem flatten_history_commits (heads : List rev_ref) :
    (flatten_history heads).map (fun hp => hp.commit)
      = (heads.filter (fun h => !h.tail)).flatMap (fun h => (branch_chain h.commit).reverse) := by
  unfold flatten_history
  induction heads.filter (fun h => !h.tail) with
  | nil => rfl
  | cons h hs ih =>
    simp only [List.flatMap_cons, List.map_append, ih, List.map_map]
    congr 1
    exact List.map_id' _

/-- With the heads listed parent branch first, the flattened array has every commit after
its parent. -/
theorem flatten_history_parent_first (heads : List rev_ref) (h : heads_parent_first heads) :
    parent_first ((flatten_history heads).map (fun hp => hp.commit)) := by
  rw [flatten_history_commits]
  exact parent_first_from_of_split _ _ (heads_split heads [] h)

theorem sort_by_date_le {a b : commit_seq} (ha : a.commit.date < 2147483648)
    (hb : b.commit.date < 2147483648) (h : sort_by_date a b ≤ 0) :
    a.commit.date ≤ b.commit.date := by
  unfold sort_by_date at h
  simp only [] at h
  split_ifs at h with h1
  · omega
  · omega

/-- A sort by date keeps every commit after its parent when every commit is strictly
younger than the entry of its parent (and the dates are small enough for the difference
that `sort_by_date` returns). -/
theorem sorted_parent_first (flat sorted : List commit_seq) (hperm : sorted.Perm flat)
    (hsorted : sorted.Pairwise (fun a b => sort_by_date a b ≤ 0))
    (hpf : parent_first (flat.map (fun hp => hp.commit)))
    (hdates : ∀ x ∈ flat, x.commit.date < 2147483648)
    (hstrict : ∀ x ∈ flat, ∀ p, x.commit.parent = some p →
      ∀ d ∈ flat, d.commit.addr = p.addr → d.commit.date < x.commit.date) :
    parent_first (sorted.map (fun hp => hp.commit)) := by
  apply parent_first_from_of_split
  intro done c rest e p hp
  right
  obtain ⟨sd, sr', e1, e2, e3⟩ := List.map_eq_append_iff.mp e
  obtain ⟨x, sr, e4, e5, e6⟩ := List.map_eq_cons_iff.mp e3
  subst e5
  have hxs : x ∈ sorted := by rw [e1, e4]; simp
  have hxf : x ∈ flat := hperm.mem_iff.mp hxs
  -- the entry of the parent in the array
  obtain ⟨fa, fb, ef⟩ := List.append_of_mem hxf
  have hd := @parent_first_split _ hpf (fa.map (fun hp => hp.commit))
    (fb.map (fun hp => hp.commit)) x.commit p (by rw [ef]; simp) hp
  simp only [List.map_map, List.mem_map, Function.comp] at hd
  obtain ⟨d, hdfa, hda⟩ := hd
  have hdf : d ∈ flat := by rw [ef]; exact List.mem_append_left _ hdfa
  have hlt := hstrict x hxf p hp d hdf hda
  have hds : d ∈ sorted := hperm.mem_iff.mpr hdf
  rw [e1, e4] at hds hsorted
  rcases List.mem_append.mp hds with h1 | h1
  · rw [← e2, ← hda]
    simp only [List.map_map, List.mem_map, Function.comp]
    exact ⟨d, h1, rfl⟩
  · exfalso
    rcases List.mem_cons.mp h1 with h2 | h2
    · rw [h2] at hlt; exact Nat.lt_irrefl _ hlt
    · have hp2 := (List.pairwise_append.mp hsorted).2.1
      have := (List.pairwise_cons.mp hp2).1 d h2
      have := sort_by_date_le (hdates x hxf) (hdates d hdf) this
      omega

/-- C4, as stated, fails: in scenario S1 in canonical order with `fromtime` at the date of
C0, the heads are listed parent branch first, C0 is not reported and C1 is, and the
stream has the line `from :2` while no record declares `mark :2`. -/
theorem from_without_commit_record :
    heads_parent_first_from [] [s1_master] = true ∧
    Out.from_ 2 ∈ (export_commits sample_env [s1_master] "refs/heads/".toList 1631152000
      false false false false (Exporter.start 2)).out ∧
    Out.mark_line 2 ∉ (export_commits sample_env [s1_master] "refs/heads/".toList 1631152000
      false false false false (Exporter.start 2)).out := by
  decide

/-- Why the date-sorted case of C4 asks for strictly older parents: for a parent and a
child of equal date the check `sortable` passes, both orders of the two entries are
ordered by `sort_by_date`, and with a sort that returns the child first the child is
exported before its parent and prints `from :0`. -/
theorem equal_dates_from_zero :
    sortable (flatten_history [tie_master]) = true ∧
    (reversing_env.qsort_history sort_by_date (flatten_history [tie_master])).Pairwise
      (fun a b => sort_by_date a b ≤ 0) ∧
    Out.from_ 0 ∈ (export_commits reversing_env [tie_master] "refs/heads/".toList 0
      false false false false (Exporter.start 2)).out := by
  decide

/-- C4, amended: in the stream of `export_commits` with `fromtime <= 0`, when every commit
is reported, for every revision list whose heads are listed parent branch first (and whose
files carry blob serials, at most `seqno0`): every `from :M` line comes after a `mark :M`
line of a commit record.  This holds in branch order, in canonical order when the array
is not sorted, and in canonical order when it is sorted by date by a `qsort` that returns
a permutation in the order of `sort_by_date`, provided the dates are below 2^31 and every
commit is strictly younger than its parent. -/
theorem parent_before_child (env : Env) (heads : List rev_ref) (branch_pfx : List Char)
    (fromtime : Int) (revmap reposurgeon force_dates branchorder : Bool) (seqno0 : Nat)
    (hfrom : fromtime ≤ 0)
    (hser : ∀ f ∈ files_of (export_order env heads branchorder), f.serial ≤ seqno0)
    (hheads : heads_parent_first heads)
    (hsort : branchorder = false → sortable (flatten_history heads) = true →
      (env.qsort_history sort_by_date (flatten_history heads)).Perm (flatten_history heads) ∧
      (env.qsort_history sort_by_date (flatten_history heads)).Pairwise
        (fun a b => sort_by_date a b ≤ 0) ∧
      (∀ x ∈ flatten_history heads, x.commit.date < 2147483648) ∧
      (∀ x ∈ flatten_history heads, ∀ p, x.commit.parent = some p →
        ∀ d ∈ flatten_history heads, d.commit.addr = p.addr → d.commit.date < x.commit.date)) :
    from_after_mark (export_commits env heads branch_pfx fromtime revmap reposurgeon force_dates
      branchorder (Exporter.start seqno0)).out := by
  apply from_after_mark_of_parent_first env heads branch_pfx fromtime revmap reposurgeon
    force_dates branchorder seqno0 hfrom hser
  have hflat := flatten_history_parent_first heads hheads
  cases hb : branchorder with
  | true =>
    have : export_order env heads true
        = (flatten_history heads).map (fun hp => hp.commit) := by
      rw [flatten_history_commits]; simp [export_order]
    rw [this]; exact hflat
  | false =>
    have : export_order env heads false
        = (sorted_history env heads).map (fun hp => hp.commit) := by
      simp [export_order]
    rw [this]
    unfold sorted_history
    cases hs : sortable (flatten_history heads) with
    | false => simpa using hflat
    | true =>
      obtain ⟨h1, h2, h3, h4⟩ := hsort hb hs
      simpa using sorted_parent_first _ _ h1 h2 hflat h3 h4

/-- C4, amended, at scenario S1 in canonical order: the array, C0 then C1, is sorted by
date as it is. -/
theorem parent_before_child_witness :
    (heads_parent_first [s1_master] ∧
     sortable (flatten_history [s1_master]) = true ∧
     ∀ f ∈ files_of (export_order sample_env [s1_master] false), f.serial ≤ 2) ∧
    from_after_mark (export_commits sample_env [s1_master] "refs/heads/".toList 0 false false
      false false (Exporter.start 2)).out :=
  have hh : heads_parent_first_from [] [s1_master] = true := by decide
  ⟨⟨hh, by decide, by decide⟩,
   parent_before_child sample_env [s1_master] "refs/heads/".toList 0 false false false false 2
    (by decide) (by decide) hh
    (fun _ _ => ⟨List.Perm.refl _, by decide, by decide, by decide⟩)⟩

/-- C3 at scenario S1 in canonical order, two blobs having been spooled. -/
theorem blob_before_use_witness :
    (∀ f ∈ files_of (export_order sample_env [s1_master] false), 1 ≤ f.serial ∧ f.serial ≤ 2) ∧
    blob_before_M (export_commits sample_env [s1_master] "refs/heads/".toList 0 false false
      false false (Exporter.start 2)).out :=
  ⟨by decide,
   blob_before_use sample_env [s1_master] "refs/heads/".toList 0 false false false false 2
    (fun l => List.Perm.refl l) (by decide)⟩

/-! ## Versions and patches: the first binding is kept -/

theorem modify_node_self (t : NodeTable) (a : Nat) (f : Node → Node) :
    (t.modify a f).node a = f (t.node a) := by
  simp [NodeTable.modify]

theorem bind_version_spec (t1 : NodeTable) (node : Nat) (v : cvs_version) :
    (∀ w, (t1.node node).version = some w →
      ((bind_version t1 node v).1.node node).version = some w ∧ (bind_version t1 node v).1 = t1) ∧
    ((t1.node node).version = none →
      ((bind_version t1 node v).1.node node).version = some v.addr) ∧
    ((t1.node node).version = none → (t1.node node).number.c % 2 = 1 →
      ((bind_version t1 node v).1.node node).version = some v.addr ∧
      (bind_version t1 node v).2 = [Announce.odd_depth_revision (t1.node node).number]) := by
  refine ⟨?_, ?_, ?_⟩
  · intro w hw
    simp [bind_version, hw]
  · intro hn
    simp [bind_version, hn, modify_node_self]
  · intro hn hodd
    simp [bind_version, hn, modify_node_self, hodd]

theorem bind_patch_spec (t1 : NodeTable) (node : Nat) (p : cvs_patch) :
    (∀ w, (t1.node node).patch = some w →
      ((bind_patch t1 node p).1.node node).patch = some w ∧ (bind_patch t1 node p).1 = t1) ∧
    ((t1.node node).patch = none →
      ((bind_patch t1 node p).1.node node).patch = some p.addr) ∧
    ((t1.node node).patch = none → (t1.node node).number.c % 2 = 1 →
      ((bind_patch t1 node p).1.node node).patch = some p.addr ∧
      (bind_patch t1 node p).2 = [Announce.odd_depth_patch (t1.node node).number]) := by
  refine ⟨?_, ?_, ?_⟩
  · intro w hw
    simp [bind_patch, hw]
  · intro hn
    simp [bind_patch, hn, modify_node_self]
  · intro hn hodd
    simp [bind_patch, hn, modify_node_self, hodd]

/-- C11: `hash_version(v)` sets `v->node` to the node of the number; a node that already
carries a version keeps it (and the duplicate is announced), a node without one is bound
to `v`, whatever the parity of its depth (an odd depth is announced); and likewise
`hash_patch(p)` for the patch. -/
theorem hash_version_keeps_first (t : NodeTable) (v : cvs_version) (p : cvs_patch) :
    ((hash_version t v).1 = (hash_number t v.number).1 ∧
     (∀ w, ((hash_number t v.number).2.node (hash_number t v.number).1).version = some w →
        ((hash_version t v).2.1.node (hash_version t v).1).version = some w ∧
        (hash_version t v).2.1 = (hash_number t v.number).2) ∧
     (((hash_number t v.number).2.node (hash_number t v.number).1).version = none →
        ((hash_version t v).2.1.node (hash_version t v).1).version = some v.addr) ∧
     (((hash_number t v.number).2.node (hash_number t v.number).1).version = none →
        ((hash_number t v.number).2.node (hash_number t v.number).1).number.c % 2 = 1 →
        ((hash_version t v).2.1.node (hash_version t v).1).version = some v.addr ∧
        (hash_version t v).2.2 =
          [Announce.odd_depth_revision
            ((hash_number t v.number).2.node (hash_number t v.number).1).number])) ∧
    ((hash_patch t p).1 = (hash_number t p.number).1 ∧
     (∀ w, ((hash_number t p.number).2.node (hash_number t p.number).1).patch = some w →
        ((hash_patch t p).2.1.node (hash_patch t p).1).patch = some w ∧
        (hash_patch t p).2.1 = (hash_number t p.number).2) ∧
     (((hash_number t p.number).2.node (hash_number t p.number).1).patch = none →
        ((hash_patch t p).2.1.node (hash_patch t p).1).patch = some p.addr) ∧
     (((hash_number t p.number).2.node (hash_number t p.number).1).patch = none →
        ((hash_number t p.number).2.node (hash_number t p.number).1).number.c % 2 = 1 →
        ((hash_patch t p).2.1.node (hash_patch t p).1).patch = some p.addr ∧
        (hash_patch t p).2.2 =
          [Announce.odd_depth_patch
            ((hash_number t p.number).2.node (hash_number t p.number).1).number])) := by
  exact ⟨⟨rfl, bind_version_spec _ _ v⟩, ⟨rfl, bind_patch_spec _ _ p⟩⟩

/-- C11 at a sample: the second delta numbered 1.1 leaves the node bound to the first one,
and a delta with the odd-depth number 1.2.2 is bound all the same. -/
theorem hash_version_keeps_first_witness :
    (((hash_version (hash_version NodeTable.empty ⟨1, rev_1_1⟩).2.1 ⟨2, rev_1_1⟩).2.1.node
        (hash_version (hash_version NodeTable.empty ⟨1, rev_1_1⟩).2.1 ⟨2, rev_1_1⟩).1).version
      = some 1) ∧
    (((hash_version NodeTable.empty ⟨3, rev_1_2_2⟩).2.1.node
        (hash_version NodeTable.empty ⟨3, rev_1_2_2⟩).1).version = some 3) ∧
    (((hash_patch (hash_patch NodeTable.empty ⟨1, rev_1_1⟩).2.1 ⟨2, rev_1_1⟩).2.1.node
        (hash_patch (hash_patch NodeTable.empty ⟨1, rev_1_1⟩).2.1 ⟨2, rev_1_1⟩).1).patch
      = some 1) :=
  ⟨((hash_version_keeps_first (hash_version NodeTable.empty ⟨1, rev_1_1⟩).2.1 ⟨2, rev_1_1⟩
      ⟨2, rev_1_1⟩).1.2.1 1 (by decide)).1,
   (hash_version_keeps_first NodeTable.empty ⟨3, rev_1_2_2⟩ ⟨3, rev_1_2_2⟩).1.2.2.1 (by decide),
   ((hash_version_keeps_first (hash_patch NodeTable.empty ⟨1, rev_1_1⟩).2.1 ⟨2, rev_1_1⟩
      ⟨2, rev_1_1⟩).2.2.1 1 (by decide)).1⟩
/-! ## Path canonicalization -/

theorem next_component_slash (c rest : List Char) (hc : '/' ∉ c) :
    next_component (c ++ '/' :: rest) = (c ++ ['/'], rest) := by
  induction c with
  | nil => simp [next_component]
  | cons x c ih =>
    have hx : x ≠ '/' := fun h => hc (by simp [h])
    have hc1 : '/' ∉ c := fun h => hc (List.mem_cons_of_mem _ h)
    simp [next_component, hx, ih hc1]

theorem next_component_last (c : List Char) (hc : '/' ∉ c) : next_component c = (c, []) := by
  induction c with
  | nil => simp [next_component]
  | cons x c ih =>
    have hx : x ≠ '/' := fun h => hc (by simp [h])
    have hc1 : '/' ∉ c := fun h => hc (List.mem_cons_of_mem _ h)
    simp [next_component, hx, ih hc1]

theorem path_components_succ (fuel : Nat) (s : List Char) (hs : s ≠ []) :
    path_components (fuel + 1) s =
      (next_component s).1 :: path_components fuel (next_component s).2 := by
  cases s with
  | nil => exact absurd rfl hs
  | cons ch rest => rfl

theorem path_components_nil (fuel : Nat) : path_components fuel [] = [] := by
  cases fuel <;> rfl

/-- The components the loop of `export_filename` visits in the path made of the directory
names `ds` and the final name `fin`. -/
theorem path_components_join (ds : List (List Char)) (fin : List Char)
    (hds : ∀ d ∈ ds, '/' ∉ d) (hfin : '/' ∉ fin) :
    ∀ fuel, (ds.flatMap (fun d => d ++ ['/']) ++ fin).length ≤ fuel →
      path_components fuel (ds.flatMap (fun d => d ++ ['/']) ++ fin) =
        ds.map (fun d => d ++ ['/']) ++ (if fin = [] then [] else [fin]) := by
  induction ds with
  | nil =>
    intro fuel hf
    by_cases hn : fin = []
    · simp [hn, path_components_nil]
    · cases fuel with
      | zero =>
        simp only [List.flatMap_nil, List.nil_append, Nat.le_zero, List.length_eq_zero] at hf
        exact absurd hf hn
      | succ fuel =>
        simp only [List.flatMap_nil, List.nil_append, List.map_nil, if_neg hn]
        rw [path_components_succ _ _ hn, next_component_last _ hfin, path_components_nil]
  | cons d ds ih =>
    intro fuel hf
    have hd : '/' ∉ d := hds d (List.mem_cons_self _ _)
    have e : (d :: ds).flatMap (fun d => d ++ ['/']) ++ fin =
        d ++ '/' :: (ds.flatMap (fun d => d ++ ['/']) ++ fin) := by
      simp [List.flatMap_cons]
    rw [e] at hf ⊢
    cases fuel with
    | zero => simp at hf
    | succ fuel =>
      rw [path_components_succ _ _ (by simp), next_component_slash _ _ hd]
      simp only [List.map_cons, List.cons_append]
      rw [ih (fun x hx => hds x (List.mem_cons_of_mem _ hx)) fuel (by
        simp only [List.length_append, List.length_cons] at hf ⊢
        omega)]

theorem export_components_cons (ic : Bool) (comp : List Char) (rest : List (List Char))
    (h : rest ≠ []) :
    export_components ic (comp :: rest) = dir_component comp ++ export_components ic rest := by
  cases rest with
  | nil => exact absurd rfl h
  | cons r rs => rfl

theorem dir_component_slash (d : List Char) :
    dir_component (d ++ ['/']) =
      if (d == "Attic".toList || d == "RCS".toList) = true then [] else d ++ ['/'] := by
  have e1 : "Attic/".toList = "Attic".toList ++ ['/'] := by decide
  have e2 : "RCS/".toList = "RCS".toList ++ ['/'] := by decide
  unfold dir_component
  rw [e1, e2]
  by_cases h1 : d = "Attic".toList
  · subst h1; decide
  · by_cases h2 : d = "RCS".toList
    · subst h2; decide
    · have k1 : ¬ (d ++ ['/'] = "Attic".toList ++ ['/']) := fun h => h1 (List.append_cancel_right h)
      have k2 : ¬ (d ++ ['/'] = "RCS".toList ++ ['/']) := fun h => h2 (List.append_cancel_right h)
      have k3 : ¬ ((d == "Attic".toList || d == "RCS".toList) = true) := by
        simp only [Bool.or_eq_true, beq_iff_eq, not_or]
        exact ⟨h1, h2⟩
      rw [if_neg (fun h => k1 h.2), if_neg (fun h => k2 h.2), if_neg k3]

theorem export_components_join (ic : Bool) (ds : List (List Char)) (fin : List Char) :
    export_components ic (ds.map (fun d => d ++ ['/']) ++ [fin]) =
      (ds.filter (fun c => !(c == "Attic".toList || c == "RCS".toList))).flatMap
        (fun c => c ++ ['/']) ++ final_component fin ic := by
  induction ds with
  | nil => rfl
  | cons d ds ih =>
    simp only [List.map_cons, List.cons_append]
    rw [export_components_cons _ _ _ (by simp), ih, dir_component_slash, List.filter_cons]
    by_cases h : (d == "Attic".toList || d == "RCS".toList) = true
    · simp only [h, Bool.not_true, if_true, Bool.false_eq_true, if_false, List.nil_append]
    · have h1 : (d == "Attic".toList || d == "RCS".toList) = false := by simpa using h
      simp only [h1, Bool.not_false, if_true, Bool.false_eq_true, if_false, List.flatMap_cons,
        List.append_assoc]

/-- What `export_filename` returns for the path made of the directory names `ds` and the
final name `fin`, which is not empty. -/
theorem export_filename_join (ic : Bool) (ds : List (List Char)) (fin : List Char)
    (hds : ∀ d ∈ ds, '/' ∉ d) (hfin : '/' ∉ fin) (hne : fin ≠ []) :
    export_filename 0 (ds.flatMap (fun d => d ++ ['/']) ++ fin) ic =
      (ds.filter (fun c => !(c == "Attic".toList || c == "RCS".toList))).flatMap
        (fun c => c ++ ['/']) ++ final_component fin ic := by
  unfold export_filename
  simp only [List.drop_zero]
  rw [path_components_join ds fin hds hfin _ (le_refl _), if_neg hne, export_components_join]

/-- What `export_filename` returns for a path that ends with a `/`: the last directory
name with its `/` is taken as the final component. -/
theorem export_filename_join_slash (ic : Bool) (ds : List (List Char)) (d : List Char)
    (hds : ∀ x ∈ ds, '/' ∉ x) (hd : '/' ∉ d) :
    export_filename 0 ((ds ++ [d]).flatMap (fun d => d ++ ['/'])) ic =
      (ds.filter (fun c => !(c == "Attic".toList || c == "RCS".toList))).flatMap
        (fun c => c ++ ['/']) ++ final_component (d ++ ['/']) ic := by
  unfold export_filename
  simp only [List.drop_zero]
  have h := path_components_join (ds ++ [d]) [] (by
    intro x hx
    rcases List.mem_append.mp hx with h | h
    · exact hds x h
    · simp only [List.mem_singleton] at h; subst h; exact hd) (by simp)
    ((ds ++ [d]).flatMap (fun d => d ++ ['/'])).length (by simp)
  simp only [List.append_nil, if_true] at h
  rw [h]
  have := export_components_join ic ds (d ++ ['/'])
  simpa using this

theorem splitOn_no_sep (p : List Char) : ∀ l ∈ p.splitOn '/', '/' ∉ l := by
  induction p with
  | nil => simp
  | cons x xs ih =>
    intro l hl
    rw [List.splitOn, List.splitOnP_cons] at hl
    rw [List.splitOn] at ih
    by_cases hx : x = '/'
    · simp only [hx, beq_self_eq_true, if_true, List.mem_cons] at hl
      rcases hl with h | h
      · subst h; simp
      · exact ih l h
    · have hx1 : (x == '/') = false := by simpa using hx
      simp only [hx1] at hl
      cases hsp : List.splitOnP (fun x => x == '/') xs with
      | nil => rw [hsp] at hl; simp at hl
      | cons hd tl =>
        rw [hsp] at hl ih
        simp only [List.modifyHead, Bool.false_eq_true, if_false, List.mem_cons] at hl
        rcases hl with h | h
        · subst h
          intro hm
          rcases List.mem_cons.mp hm with h1 | h1
          · exact hx h1.symm
          · exact ih hd (List.mem_cons_self _ _) h1
        · exact ih l (List.mem_cons_of_mem _ h)

theorem intercalate_slash (l : List (List Char)) (hl : l ≠ []) :
    ['/'].intercalate l = l.dropLast.flatMap (fun d => d ++ ['/']) ++ l.getLastD [] := by
  induction l with
  | nil => exact absurd rfl hl
  | cons a l ih =>
    cases l with
    | nil => simp [List.intercalate]
    | cons b l =>
      have := ih (by simp)
      simp only [List.intercalate, List.intersperse, List.flatten_cons] at this ⊢
      rw [this]
      simp [List.getLastD]

/-- Every path is its directory components, each with its `/`, followed by its final
component. -/
theorem path_eq_join (p : List Char) :
    p = (dir_names p).flatMap (fun d => d ++ ['/']) ++ base_name p := by
  have h := List.intercalate_splitOn p '/'
  rw [intercalate_slash (p.splitOn '/') (List.splitOnP_ne_nil _ _)] at h
  exact h.symm

theorem dir_names_no_slash (p : List Char) : ∀ d ∈ dir_names p, '/' ∉ d :=
  fun d hd => splitOn_no_sep p d (List.mem_of_mem_dropLast hd)

theorem base_name_no_slash (p : List Char) : '/' ∉ base_name p := by
  unfold base_name
  cases h : p.splitOn '/' with
  | nil => simp
  | cons a l =>
    apply splitOn_no_sep p
    rw [h, List.getLastD_eq_getLast?, List.getLast?_eq_getLast _ (by simp)]
    exact List.getLast_mem _

theorem getD_append_two (body : List Char) (x y d : Char) :
    (body ++ [x, y]).getD body.length d = x ∧ (body ++ [x, y]).getD (body.length + 1) d = y := by
  induction body with
  | nil => exact ⟨rfl, rfl⟩
  | cons a body ih => simpa using ih

theorem length_append_two (body : List Char) (x y : Char) :
    (body ++ [x, y]).length = body.length + 2 := by
  simp

theorem final_component_v (body : List Char) (ic : Bool) (hne : body ≠ []) :
    final_component (body ++ ",v".toList) ic =
      if ic = true ∧ body = ".cvsignore".toList then ".gitignore".toList else body := by
  have hl : 0 < body.length := List.length_pos.mpr hne
  have e : ",v".toList = [',', 'v'] := rfl
  unfold final_component
  simp only []
  rw [e, length_append_two]
  have h1 : (body ++ [',', 'v']).getD (body.length + 2 - 2) ' ' = ',' :=
    (getD_append_two body ',' 'v' ' ').1
  have h2 : (body ++ [',', 'v']).getD (body.length + 2 - 1) ' ' = 'v' :=
    (getD_append_two body ',' 'v' ' ').2
  have hT : 2 < body.length + 2 ∧ (body ++ [',', 'v']).getD (body.length + 2 - 2) ' ' = ',' ∧
      (body ++ [',', 'v']).getD (body.length + 2 - 1) ' ' = 'v' := ⟨by omega, h1, h2⟩
  simp only [if_pos hT]
  have h3 : body.length + 2 - 2 = body.length := by omega
  rw [h3, List.take_left' rfl]
  by_cases hc : ic = true ∧ body = ".cvsignore".toList
  · rw [if_pos hc, if_pos ⟨hc.1, by rw [hc.2]; rfl, hc.2⟩]
  · rw [if_neg hc, if_neg (fun h => hc ⟨h.1, h.2.2⟩)]

theorem final_component_plain (c : List Char) (ic : Bool)
    (h : ¬ (2 < c.length ∧ c.getD (c.length - 2) ' ' = ',' ∧ c.getD (c.length - 1) ' ' = 'v')) :
    final_component c ic =
      if ic = true ∧ c = ".cvsignore".toList then ".gitignore".toList else c := by
  unfold final_component
  simp only []
  rw [if_neg h, List.take_length]
  by_cases hc : ic = true ∧ c = ".cvsignore".toList
  · rw [if_pos hc, if_pos ⟨hc.1, by rw [hc.2]; rfl, hc.2⟩]
  · rw [if_neg hc, if_neg (fun h => hc ⟨h.1, h.2.2⟩)]

theorem trimmed_iff (c : List Char) :
    (2 < c.length ∧ c.getD (c.length - 2) ' ' = ',' ∧ c.getD (c.length - 1) ' ' = 'v') ↔
      ∃ body, body ≠ [] ∧ c = body ++ ",v".toList := by
  have e : ",v".toList = [',', 'v'] := rfl
  constructor
  · rintro ⟨h1, h2, h3⟩
    have hd : (c.drop (c.length - 2)).length = 2 := by
      simp only [List.length_drop]; omega
    obtain ⟨x, y, hxy⟩ := List.length_eq_two.mp hd
    obtain ⟨t, ht⟩ : ∃ t, c = t ++ [x, y] :=
      ⟨c.take (c.length - 2), by rw [← hxy, List.take_append_drop]⟩
    subst ht
    rw [length_append_two] at h1 h2 h3
    have k1 := (getD_append_two t x y ' ').1
    have k2 := (getD_append_two t x y ' ').2
    have a1 : t.length + 2 - 2 = t.length := by omega
    have a2 : t.length + 2 - 1 = t.length + 1 := by omega
    rw [a1, k1] at h2
    rw [a2, k2] at h3
    refine ⟨t, ?_, by rw [h2, h3, e]⟩
    intro h0
    subst h0
    simp at h1
  · rintro ⟨body, hne, rfl⟩
    have hl : 0 < body.length := List.length_pos.mpr hne
    rw [e, length_append_two]
    have a1 : body.length + 2 - 2 = body.length := by omega
    have a2 : body.length + 2 - 1 = body.length + 1 := by omega
    rw [a1, a2]
    exact ⟨by omega, (getD_append_two body ',' 'v' ' ').1, (getD_append_two body ',' 'v' ' ').2⟩

theorem final_component_no_slash (c : List Char) (ic : Bool) (h : '/' ∉ c) :
    '/' ∉ final_component c ic := by
  unfold final_component
  simp only []
  split_ifs
  · decide
  · exact fun hm => h (List.mem_of_mem_take hm)
  · decide
  · exact fun hm => h (List.mem_of_mem_take hm)

theorem final_component_ne_nil (c : List Char) (ic : Bool) (h : c ≠ []) :
    final_component c ic ≠ [] := by
  by_cases ht : (2 < c.length ∧ c.getD (c.length - 2) ' ' = ',' ∧ c.getD (c.length - 1) ' ' = 'v')
  · obtain ⟨body, hne, rfl⟩ := (trimmed_iff c).mp ht
    rw [final_component_v _ _ hne]
    split_ifs
    · decide
    · exact hne
  · rw [final_component_plain _ _ ht]
    split_ifs
    · decide
    · exact h

theorem final_component_slash (d : List Char) (ic : Bool) :
    final_component (d ++ ['/']) ic = d ++ ['/'] := by
  have ht : ¬ (2 < (d ++ ['/']).length ∧ (d ++ ['/']).getD ((d ++ ['/']).length - 2) ' ' = ',' ∧
      (d ++ ['/']).getD ((d ++ ['/']).length - 1) ' ' = 'v') := by
    intro ht
    obtain ⟨body, _, hb⟩ := (trimmed_iff _).mp ht
    have := congrArg List.getLast? hb
    rw [show ",v".toList = [',', 'v'] from rfl] at this
    simp at this
  rw [final_component_plain _ _ ht, if_neg]
  rintro ⟨_, h⟩
  have : '/' ∈ ".cvsignore".toList := by rw [← h]; simp
  exact absurd this (by decide)

theorem final_component_twice (c : List Char) (ic : Bool) (h : ¬ (",v,v".toList <:+ c)) :
    final_component (final_component c ic) ic = final_component c ic := by
  have hg : final_component ".gitignore".toList ic = ".gitignore".toList := by
    cases ic <;> decide
  by_cases ht : (2 < c.length ∧ c.getD (c.length - 2) ' ' = ',' ∧ c.getD (c.length - 1) ' ' = 'v')
  · obtain ⟨body, hne, rfl⟩ := (trimmed_iff c).mp ht
    rw [final_component_v _ _ hne]
    by_cases hc : ic = true ∧ body = ".cvsignore".toList
    · rw [if_pos hc, hg]
    · rw [if_neg hc]
      have hb : ¬ (2 < body.length ∧ body.getD (body.length - 2) ' ' = ',' ∧
          body.getD (body.length - 1) ' ' = 'v') := by
        intro hb
        obtain ⟨b2, _, rfl⟩ := (trimmed_iff body).mp hb
        apply h
        exact ⟨b2, by rw [List.append_assoc]; rfl⟩
      rw [final_component_plain _ _ hb, if_neg hc]
  · rw [final_component_plain _ _ ht]
    by_cases hc : ic = true ∧ c = ".cvsignore".toList
    · rw [if_pos hc, hg]
    · rw [if_neg hc, final_component_plain _ _ ht, if_neg hc]

theorem export_filename_path (p : List Char) (ic : Bool) (h : base_name p ≠ []) :
    export_filename 0 p ic = kept_dirs p ++ final_component (base_name p) ic := by
  have := export_filename_join ic (dir_names p) (base_name p) (dir_names_no_slash p)
    (base_name_no_slash p) h
  rw [← path_eq_join p] at this
  exact this

/-- A path without final component is empty or ends with a `/`: it is a list of directory
names, each with its `/`. -/
theorem path_of_base_name_nil (p : List Char) (h : base_name p = []) :
    p = [] ∨ ∃ ds d, dir_names p = ds ++ [d] ∧ p = (ds ++ [d]).flatMap (fun d => d ++ ['/']) := by
  have hp := path_eq_join p
  rw [h, List.append_nil] at hp
  rcases List.eq_nil_or_concat (dir_names p) with h0 | ⟨ds, d, h1⟩
  · left; rw [hp, h0]; rfl
  · right
    refine ⟨ds, d, by rw [h1, List.concat_eq_append], ?_⟩
    rw [← List.concat_eq_append, ← h1]
    exact hp

theorem getLast_of_base_name_nil (p : List Char) (h : base_name p = []) (hp : p ≠ []) :
    p.getLast? = some '/' := by
  rcases path_of_base_name_nil p h with h0 | ⟨ds, d, _, h1⟩
  · exact absurd h0 hp
  · rw [h1, List.flatMap_append]
    simp

theorem export_filename_nil (ic : Bool) : export_filename 0 [] ic = [] := by
  cases ic <;> decide

theorem final_component_ic (c : List Char) (h1 : c ≠ ".cvsignore".toList)
    (h2 : c ≠ ".cvsignore,v".toList) : final_component c true = final_component c false := by
  by_cases ht : (2 < c.length ∧ c.getD (c.length - 2) ' ' = ',' ∧ c.getD (c.length - 1) ' ' = 'v')
  · obtain ⟨body, hne, rfl⟩ := (trimmed_iff c).mp ht
    rw [final_component_v _ _ hne, final_component_v _ _ hne]
    have hb : body ≠ ".cvsignore".toList := by
      intro hb
      apply h2
      rw [hb]
      rfl
    rw [if_neg (fun h => hb h.2), if_neg (fun h => hb h.2)]
  · rw [final_component_plain _ _ ht, final_component_plain _ _ ht,
      if_neg (fun h => h1 h.2), if_neg (fun h => h1 h.2)]

/-- C12, amended: for every path that does not end with a `/`, `export_filename` (with
`striplen` 0) returns the directory components that are neither `Attic` nor `RCS`, each
with its `/`, verbatim and in the original order, followed by what it makes of the final
component, which holds no `/`: every directory component `Attic` or `RCS` is dropped and
no other is. -/
theorem export_filename_dirs (p : List Char) (ic : Bool) (h : p.getLast? ≠ some '/') :
    export_filename 0 p ic = kept_dirs p ++ final_component (base_name p) ic ∧
    '/' ∉ final_component (base_name p) ic := by
  refine ⟨?_, final_component_no_slash _ _ (base_name_no_slash p)⟩
  by_cases hb : base_name p = []
  · by_cases hp : p = []
    · subst hp; cases ic <;> decide
    · exact absurd (getLast_of_base_name_nil p hb hp) h
  · exact export_filename_path p ic hb

theorem export_filename_strip (striplen : Nat) (file_name : List Char) (ic : Bool) :
    export_filename striplen file_name ic = export_filename 0 (file_name.drop striplen) ic := by
  simp [export_filename]

/-- C13: when the final component of the path, the file name after `striplen`, is `body,v`,
the result of `export_filename` ends with `body`, for either value of `ignoreconv` when the
component is not `.cvsignore,v`; and when `body` is not empty the result is the rewritten
directory part followed by `body`, so nothing else is removed from the component. -/
theorem export_filename_trims_v (striplen : Nat) (file_name body : List Char) (ic : Bool)
    (hb : base_name (file_name.drop striplen) = body ++ ",v".toList)
    (hi : ic = false ∨ base_name (file_name.drop striplen) ≠ ".cvsignore,v".toList) :
    body <:+ export_filename striplen file_name ic ∧
    (body ≠ [] →
      export_filename striplen file_name ic = kept_dirs (file_name.drop striplen) ++ body) := by
  rw [export_filename_strip]
  generalize file_name.drop striplen = p at hb hi ⊢
  have hne : base_name p ≠ [] := by
    rw [hb]
    intro h0
    have := congrArg List.length h0
    rw [show ",v".toList = [',', 'v'] from rfl, length_append_two] at this
    simp at this
  have hr := export_filename_path p ic hne
  have key : body ≠ [] → export_filename 0 p ic = kept_dirs p ++ body := by
    intro hbody
    rw [hr, hb, final_component_v _ _ hbody, if_neg]
    rintro ⟨hic, hbd⟩
    rcases hi with h | h
    · rw [hic] at h; exact absurd h (by decide)
    · apply h
      rw [hb, hbd]
      rfl
  refine ⟨?_, key⟩
  by_cases hbody : body = []
  · rw [hbody]; exact List.nil_suffix
  · rw [key hbody]; exact List.suffix_append _ _

/-- C14: a final component `.cvsignore,v` or `.cvsignore` of the file name after `striplen`,
in any directory, comes out as `.gitignore` with `ignoreconv` and as `.cvsignore` without,
after the rewritten directory part; for any other final component `ignoreconv` makes no
difference. -/
theorem export_filename_cvsignore (striplen : Nat) (file_name : List Char) :
    (base_name (file_name.drop striplen) = ".cvsignore,v".toList ∨
        base_name (file_name.drop striplen) = ".cvsignore".toList →
      export_filename striplen file_name true =
        kept_dirs (file_name.drop striplen) ++ ".gitignore".toList ∧
      export_filename striplen file_name false =
        kept_dirs (file_name.drop striplen) ++ ".cvsignore".toList) ∧
    (base_name (file_name.drop striplen) ≠ ".cvsignore,v".toList →
        base_name (file_name.drop striplen) ≠ ".cvsignore".toList →
      export_filename striplen file_name true = export_filename striplen file_name false) := by
  rw [export_filename_strip striplen file_name true, export_filename_strip striplen file_name false]
  generalize file_name.drop striplen = p
  constructor
  · intro h
    have hne : base_name p ≠ [] := by
      rcases h with h | h <;> rw [h] <;> decide
    rw [export_filename_path p true hne, export_filename_path p false hne]
    have g1 : final_component ".cvsignore,v".toList true = ".gitignore".toList := by decide
    have g2 : final_component ".cvsignore,v".toList false = ".cvsignore".toList := by decide
    have g3 : final_component ".cvsignore".toList true = ".gitignore".toList := by decide
    have g4 : final_component ".cvsignore".toList false = ".cvsignore".toList := by decide
    rcases h with h | h <;> rw [h]
    · rw [g1, g2]; exact ⟨rfl, rfl⟩
    · rw [g3, g4]; exact ⟨rfl, rfl⟩
  · intro h1 h2
    by_cases hb : base_name p = []
    · rcases path_of_base_name_nil p hb with h0 | ⟨ds, d, hd, hp⟩
      · rw [h0, export_filename_nil, export_filename_nil]
      · have hno : ∀ x ∈ ds ++ [d], '/' ∉ x := by
          intro x hx
          rw [← hd] at hx
          exact dir_names_no_slash p x hx
        rw [hp, export_filename_join_slash true ds d
            (fun x hx => hno x (List.mem_append_left _ hx)) (hno d (by simp)),
          export_filename_join_slash false ds d
            (fun x hx => hno x (List.mem_append_left _ hx)) (hno d (by simp)),
          final_component_slash, final_component_slash]
    · rw [export_filename_path p true hb, export_filename_path p false hb,
        final_component_ic _ h2 h1]

theorem filter_kept_twice (ds : List (List Char)) :
    (ds.filter (fun c => !(c == "Attic".toList || c == "RCS".toList))).filter
      (fun c => !(c == "Attic".toList || c == "RCS".toList)) =
    ds.filter (fun c => !(c == "Attic".toList || c == "RCS".toList)) := by
  rw [List.filter_filter]
  congr 1
  funext c
  simp

/-- C15, amended: for every path that does not end with `,v,v`, applying `export_filename`
(with `striplen` 0) to its own result gives the same string. -/
theorem export_filename_idem (p : List Char) (ic : Bool) (h : ¬ (",v,v".toList <:+ p)) :
    export_filename 0 (export_filename 0 p ic) ic = export_filename 0 p ic := by
  by_cases hb : base_name p = []
  · rcases path_of_base_name_nil p hb with h0 | ⟨ds, d, hd, hp⟩
    · rw [h0, export_filename_nil, export_filename_nil]
    · have hno : ∀ x ∈ ds ++ [d], '/' ∉ x := by
        intro x hx
        rw [← hd] at hx
        exact dir_names_no_slash p x hx
      have hds : ∀ x ∈ ds, '/' ∉ x := fun x hx => hno x (List.mem_append_left _ hx)
      have hdd : '/' ∉ d := hno d (by simp)
      have e1 := export_filename_join_slash ic ds d hds hdd
      rw [final_component_slash] at e1
      have e2 := export_filename_join_slash ic
        (ds.filter (fun c => !(c == "Attic".toList || c == "RCS".toList))) d
        (fun x hx => hds x (List.mem_of_mem_filter hx)) hdd
      rw [final_component_slash, filter_kept_twice, List.flatMap_append] at e2
      simp only [List.flatMap_cons, List.flatMap_nil, List.append_nil] at e2
      rw [hp, e1, e2]
  · have hsuf : ¬ (",v,v".toList <:+ base_name p) := by
      intro hs
      apply h
      have : base_name p <:+ p := by
        conv_rhs => rw [path_eq_join p]
        exact List.suffix_append _ _
      exact hs.trans this
    have e1 := export_filename_path p ic hb
    have e2 := export_filename_join ic
      ((dir_names p).filter (fun c => !(c == "Attic".toList || c == "RCS".toList)))
      (final_component (base_name p) ic)
      (fun x hx => dir_names_no_slash p x (List.mem_of_mem_filter hx))
      (final_component_no_slash _ _ (base_name_no_slash p))
      (final_component_ne_nil _ _ hb)
    rw [filter_kept_twice, final_component_twice _ _ hsuf] at e2
    rw [e1]
    exact e2

/-- Scenario S3: `sub/Attic/bar,v` comes out as `sub/bar` and `RCS/baz,v` as `baz`, while
the directory `myAttic` is kept. -/
theorem s3_attic_rcs_strip :
    export_filename 0 "sub/Attic/bar,v".toList true = "sub/bar".toList ∧
    export_filename 0 "RCS/baz,v".toList true = "baz".toList ∧
    export_filename 0 "myAttic/baz,v".toList true = "myAttic/baz".toList := by decide

/-- C12, as stated, fails: in the path `sub/Attic/` the component `Attic` is followed by a
`/`, yet `export_filename` copies it; the component that ends the path is taken as the
final one, with its `/`. -/
theorem attic_at_end_kept :
    "Attic".toList ∈ dir_names "sub/Attic/".toList ∧
    export_filename 0 "sub/Attic/".toList true = "sub/Attic/".toList ∧
    export_filename 0 "sub/Attic/".toList false = "sub/Attic/".toList := by decide

/-- C12, amended, at the path `sub/Attic/bar,v`, where the directory part comes out as
`sub/`. -/
theorem export_filename_dirs_witness :
    "sub/Attic/bar,v".toList.getLast? ≠ some '/' ∧
    kept_dirs "sub/Attic/bar,v".toList = "sub/".toList ∧
    (export_filename 0 "sub/Attic/bar,v".toList true =
        kept_dirs "sub/Attic/bar,v".toList ++
          final_component (base_name "sub/Attic/bar,v".toList) true ∧
      '/' ∉ final_component (base_name "sub/Attic/bar,v".toList) true) :=
  ⟨by decide, by decide, export_filename_dirs "sub/Attic/bar,v".toList true (by decide)⟩

/-- C13 at the file name `/repo/sub/foo,v` with the 6 characters of `/repo/` stripped. -/
theorem export_filename_trims_v_witness :
    base_name ("/repo/sub/foo,v".toList.drop 6) = "foo".toList ++ ",v".toList ∧
    base_name ("/repo/sub/foo,v".toList.drop 6) ≠ ".cvsignore,v".toList ∧
    kept_dirs ("/repo/sub/foo,v".toList.drop 6) = "sub/".toList ∧
    ("foo".toList <:+ export_filename 6 "/repo/sub/foo,v".toList true ∧
      ("foo".toList ≠ [] →
        export_filename 6 "/repo/sub/foo,v".toList true =
          kept_dirs ("/repo/sub/foo,v".toList.drop 6) ++ "foo".toList)) :=
  ⟨by decide, by decide, by decide,
    export_filename_trims_v 6 "/repo/sub/foo,v".toList "foo".toList true (by decide)
      (Or.inr (by decide))⟩

/-- C14 at the paths `a/.cvsignore,v` and `a/x.cvsignore,v`. -/
theorem export_filename_cvsignore_witness :
    (export_filename 0 "a/.cvsignore,v".toList true =
        kept_dirs ("a/.cvsignore,v".toList.drop 0) ++ ".gitignore".toList ∧
      export_filename 0 "a/.cvsignore,v".toList false =
        kept_dirs ("a/.cvsignore,v".toList.drop 0) ++ ".cvsignore".toList) ∧
    export_filename 0 "a/x.cvsignore,v".toList true =
      export_filename 0 "a/x.cvsignore,v".toList false :=
  ⟨(export_filename_cvsignore 0 "a/.cvsignore,v".toList).1 (Or.inl (by decide)),
   (export_filename_cvsignore 0 "a/x.cvsignore,v".toList).2 (by decide) (by decide)⟩

/-- C15, as stated, fails: `foo,v,v` gives `foo,v`, and a second application trims that
to `foo`. -/
theorem double_v_not_idempotent :
    export_filename 0 "foo,v,v".toList true = "foo,v".toList ∧
    export_filename 0 (export_filename 0 "foo,v,v".toList true) true = "foo".toList ∧
    export_filename 0 (export_filename 0 "foo,v,v".toList false) false ≠
      export_filename 0 "foo,v,v".toList false := by decide

/-- C15, amended, at the path `sub/Attic/.cvsignore,v`. -/
theorem export_filename_idem_witness :
    ¬ (",v,v".toList <:+ "sub/Attic/.cvsignore,v".toList) ∧
    export_filename 0 (export_filename 0 "sub/Attic/.cvsignore,v".toList true) true =
      export_filename 0 "sub/Attic/.cvsignore,v".toList true :=
  ⟨by decide, export_filename_idem "sub/Attic/.cvsignore,v".toList true (by decide)⟩

/-! ## Blob spool: the path of a blob -/

theorem hex_facts : ∀ d, d < 256 →
    '/' ∉ hex d ∧ (hex d).head? ≠ some '=' ∧ hex d ≠ [] := by
  decide!

theorem fanout_digits_small (m : Nat) (h : m / 256 = 0) : fanout_digits m = [m] := by
  have hm : m < 256 := by
    rcases Nat.div_eq_zero_iff (by decide : 0 < 256) |>.mp h with h1
    exact h1
  unfold fanout_digits
  split_ifs with h0
  · rw [h0]
  · rw [Nat.digits_of_lt 256 m h0 hm]

theorem fanout_digits_big (m : Nat) (h : m / 256 ≠ 0) :
    fanout_digits m = (m % 256) :: fanout_digits (m / 256) := by
  have hm : 0 < m := by
    rcases Nat.eq_zero_or_pos m with h0 | h0
    · rw [h0] at h; exact absurd rfl h
    · exact h0
  unfold fanout_digits
  rw [if_neg (by omega), if_neg h, Nat.digits_def' (by decide) hm]

theorem fanout_digits_ne_nil (m : Nat) : fanout_digits m ≠ [] := by
  unfold fanout_digits
  split_ifs with h0
  · simp
  · exact fun h => h0 (Nat.digits_eq_nil_iff_eq_zero.mp h)

theorem fanout_path_small (path : List Char) (m : Nat) (h : m / 256 = 0) :
    fanout_path path m = path ++ "/=".toList ++ hex (m % 256) := by
  have hm : m % 256 = m := Nat.mod_eq_of_lt (by
    exact (Nat.div_eq_zero_iff (by decide : 0 < 256)).mp h)
  rw [hm]
  unfold fanout_path
  rw [fanout_digits_small m h]
  simp [List.getLastD]

theorem fanout_path_big (path : List Char) (m : Nat) (h : m / 256 ≠ 0) :
    fanout_path path m = fanout_path (path ++ "/".toList ++ hex (m % 256)) (m / 256) := by
  unfold fanout_path
  rw [fanout_digits_big m h]
  obtain ⟨a, l, hl⟩ := List.exists_cons_of_ne_nil (fanout_digits_ne_nil (m / 256))
  rw [hl]
  simp [List.dropLast, List.getLastD]

theorem sub_mod_div (m : Nat) : (m - m % 256) / 256 = m / 256 := by
  omega

/-- Without `create` the loop of `blobfile` returns, and leaves the file system alone. -/
theorem blobfile_loop_false :
    ∀ (fuel m : Nat) (path : List Char) (fs : FileSys), m + 1 ≤ fuel →
      blobfile_loop false fuel m path fs = some (fanout_path path m, fs) := by
  intro fuel
  induction fuel with
  | zero => intro m path fs h; omega
  | succ fuel ih =>
    intro m path fs hf
    unfold blobfile_loop
    simp only [sub_mod_div]
    by_cases hz : m / 256 = 0
    · rw [if_pos hz, fanout_path_small path m hz]
    · rw [if_neg hz, fanout_path_big path m hz, if_neg (by simp)]
      apply ih
      have : m / 256 < m := Nat.div_lt_self (by omega) (by decide)
      omega

theorem fanout_top_lt (s : Nat) : (fanout_digits s).getLastD 0 < 256 := by
  unfold fanout_digits
  split_ifs with h0
  · decide
  · have hne : Nat.digits 256 s ≠ [] := Nat.digits_ne_nil_iff_ne_zero.mpr h0
    rw [List.getLastD_eq_getLast?, List.getLast?_eq_getLast _ hne]
    exact Nat.digits_lt_base (by decide) (List.getLast_mem hne)

theorem fanout_top_pos (s : Nat) (hs : 1 ≤ s) : 1 ≤ (fanout_digits s).getLastD 0 := by
  have h0 : s ≠ 0 := by omega
  unfold fanout_digits
  rw [if_neg h0]
  have hne : Nat.digits 256 s ≠ [] := Nat.digits_ne_nil_iff_ne_zero.mpr h0
  rw [List.getLastD_eq_getLast?, List.getLast?_eq_getLast _ hne]
  have := Nat.getLast_digit_ne_zero 256 h0
  simp only [Option.getD_some]
  omega

theorem getD_append_suffix (X S : List Char) (k : Nat) (hk : k ≤ S.length)
    (d : Char) : (X ++ S).getD ((X ++ S).length - k) d = S.getD (S.length - k) d := by
  rw [List.length_append, List.getD_eq_getElem?_getD, List.getD_eq_getElem?_getD,
    List.getElem?_append_right (by omega)]
  congr 2
  omega

theorem fanout_tail_not_zero : ∀ top, top < 256 → 1 ≤ top →
    ((('/' :: '=' :: hex top).getD (('/' :: '=' :: hex top).length - 3) ' ' == '/') &&
     (('/' :: '=' :: hex top).getD (('/' :: '=' :: hex top).length - 2) ' ' == '=') &&
     (('/' :: '=' :: hex top).getD (('/' :: '=' :: hex top).length - 1) ' ' == '0')) = false := by
  decide!

/-- The path of a blob of serial 1 or more never ends with `/=0`: the digit behind the `=`
is the most significant one, which is not zero. -/
theorem ends_fanout_zero_fanout (blobdir : List Char) (s : Nat) (hs : 1 ≤ s) :
    ends_fanout_zero (fanout_path blobdir s) = false := by
  have h := fanout_tail_not_zero _ (fanout_top_lt s) (fanout_top_pos s hs)
  have hlt := fanout_top_lt s
  unfold ends_fanout_zero fanout_path
  generalize (fanout_digits s).getLastD 0 = top at h hlt
  generalize blobdir ++ (fanout_digits s).dropLast.flatMap (fun d => '/' :: hex d) = X
  have hl : 3 ≤ ('/' :: '=' :: hex top).length := by
    have := List.length_pos.mpr (hex_facts top hlt).2.2
    simp only [List.length_cons]
    omega
  rw [getD_append_suffix X _ 3 hl, getD_append_suffix X _ 2 (by omega),
    getD_append_suffix X _ 1 (by omega)]
  simp only [Bool.and_assoc] at h ⊢
  rw [h, Bool.and_false]

/-! ## Blob spool: wrap-up -/

theorem export_wrap_loop_dirs (blobdir : List Char) :
    ∀ (n : Nat) (fs : FileSys), ∃ fs1, export_wrap_loop blobdir n fs = some fs1 ∧
      fs1.dirs = fs.dirs ∧ ∀ f ∈ fs1.files, f ∈ fs.files := by
  intro n
  induction n with
  | zero => intro fs; exact ⟨fs, rfl, rfl, fun f hf => hf⟩
  | succ n ih =>
    intro fs
    unfold export_wrap_loop
    have hb : blobfile blobdir (n + 1) false fs = some (fanout_path blobdir (n + 1), fs) :=
      blobfile_loop_false _ _ _ _ (le_refl _)
    rw [hb]
    simp only [ends_fanout_zero_fanout blobdir (n + 1) (by omega), Bool.false_eq_true, if_false]
    obtain ⟨fs1, h1, h2, h3⟩ := ih (fs.unlink (fanout_path blobdir (n + 1)))
    refine ⟨fs1, h1, h2, ?_⟩
    intro f hf
    have := h3 f hf
    simp only [FileSys.unlink] at this
    exact List.mem_of_mem_filter this

theorem dropWhile_until (p : Char → Bool) (l1 l2 : List Char) (a : Char)
    (h1 : ∀ x ∈ l1, p x = true) (ha : p a = false) :
    (l1 ++ a :: l2).dropWhile p = a :: l2 := by
  induction l1 with
  | nil => simp [List.dropWhile, ha]
  | cons x l1 ih =>
    have hx := h1 x (List.mem_cons_self _ _)
    simp only [List.cons_append, List.dropWhile, hx]
    exact ih (fun y hy => h1 y (List.mem_cons_of_mem _ hy))

theorem parent_dir_append (P S : List Char) (hS : '/' ∉ S) : parent_dir (P ++ '/' :: S) = P := by
  unfold parent_dir
  rw [List.reverse_append, List.reverse_cons, List.append_assoc, List.singleton_append,
    dropWhile_until _ _ _ _ (by
      intro x hx
      have : x ≠ '/' := fun h => hS (by rw [← h]; exact List.mem_reverse.mp hx)
      simpa using this) (by simp)]
  simp

/-- A path whose last component begins with `=` is not one whose last component does not. -/
theorem file_not_dir {p P S P1 S1 : List Char} (h1 : p = P ++ '/' :: '=' :: S) (hS : '/' ∉ S)
    (h2 : p = P1 ++ '/' :: S1) (hS1 : '/' ∉ S1) (hh : S1.head? ≠ some '=') : False := by
  have hS2 : '/' ∉ '=' :: S := by
    intro hm
    rcases List.mem_cons.mp hm with h | h
    · exact absurd h (by decide)
    · exact hS h
  have e1 := parent_dir_append P ('=' :: S) hS2
  have e2 := parent_dir_append P1 S1 hS1
  rw [← h1] at e1
  rw [← h2] at e2
  have hP : P = P1 := by rw [← e1, ← e2]
  subst hP
  rw [h1] at h2
  have := List.append_cancel_left h2
  simp only [List.cons.injEq, true_and] at this
  rw [← this] at hh
  exact hh rfl

theorem rmdir_with_child (fs : FileSys) (p d : List Char) (hd : d ∈ fs.dirs)
    (hp : parent_dir d = p) : fs.rmdir p = none := by
  unfold FileSys.rmdir
  rw [if_neg]
  rintro ⟨_, h, _⟩
  exact h d hd hp

/-- `export_wrap` removes no directory when the spool directory holds one: the loop
removes none, and the last `rmdir` fails. -/
theorem export_wrap_with_child (sp : Spool) (d : List Char) (hd : d ∈ sp.fs.dirs)
    (hp : parent_dir d = sp.blobdir) :
    ∃ r, export_wrap sp = some ([Out.done], true, r) ∧ r.fs.dirs = sp.fs.dirs := by
  obtain ⟨fs1, h1, h2, _⟩ := export_wrap_loop_dirs sp.blobdir sp.seqno sp.fs
  unfold export_wrap
  rw [h1]
  simp only []
  rw [rmdir_with_child fs1 sp.blobdir d (by rw [h2]; exact hd) hp]
  exact ⟨_, rfl, h2⟩

/-! ## Blob spool: spooling -/

theorem spool_inv_init (blobdir : List Char) : SpoolInv blobdir (export_init blobdir).fs := by
  refine ⟨by simp [export_init], ?_, ?_⟩
  · intro d hd
    left
    simpa [export_init] using hd
  · intro f hf
    simp [export_init] at hf

theorem access_dir_of_inv {blobdir : List Char} {fs : FileSys} (hinv : SpoolInv blobdir fs)
    (P S : List Char) (hS : '/' ∉ S) (hh : S.head? ≠ some '=')
    (ha : fs.access (P ++ '/' :: S) = true) : P ++ '/' :: S ∈ fs.dirs := by
  have ha1 : P ++ '/' :: S ∈ fs.dirs ∨ P ++ '/' :: S ∈ fs.files.map Prod.fst := by
    unfold FileSys.access at ha
    rcases Bool.or_eq_true _ _ |>.mp ha with h | h
    · exact Or.inl (List.elem_iff.mp h)
    · exact Or.inr (List.elem_iff.mp h)
  rcases ha1 with h | h1
  · exact h
  · exfalso
    obtain ⟨f, hf, hfe⟩ := List.mem_map.mp h1
    obtain ⟨P1, S1, e1, hs1⟩ := hinv.2.2 f hf
    rw [hfe] at e1
    exact file_not_dir e1 hs1 rfl hS hh

/-- With `create` the loop of `blobfile` returns when it starts in a directory of the spool:
every `mkdir` it tries succeeds. -/
theorem blobfile_loop_create (blobdir : List Char) :
    ∀ (fuel m : Nat) (path : List Char) (fs : FileSys), m + 1 ≤ fuel → SpoolInv blobdir fs →
      path ∈ fs.dirs →
      ∃ fs1, blobfile_loop true fuel m path fs = some (fanout_path path m, fs1) ∧
        SpoolInv blobdir fs1 ∧ parent_dir (fanout_path path m) ∈ fs1.dirs ∧
        (∀ d ∈ fs.dirs, d ∈ fs1.dirs) ∧ fs1.files = fs.files ∧
        (m / 256 ≠ 0 → path ++ "/".toList ++ hex (m % 256) ∈ fs1.dirs) := by
  intro fuel
  induction fuel with
  | zero => intro m path fs h; omega
  | succ fuel ih =>
    intro m path fs hf hinv hpath
    have hd : m % 256 < 256 := Nat.mod_lt _ (by decide)
    obtain ⟨hx1, hx2, _⟩ := hex_facts (m % 256) hd
    unfold blobfile_loop
    simp only [sub_mod_div]
    by_cases hz : m / 256 = 0
    · rw [if_pos hz, fanout_path_small path m hz]
      refine ⟨fs, rfl, hinv, ?_, fun d h => h, rfl, fun h => absurd hz h⟩
      have e : path ++ "/=".toList ++ hex (m % 256) = path ++ '/' :: ('=' :: hex (m % 256)) := by
        simp
      rw [e, parent_dir_append]
      · exact hpath
      · intro hm
        rcases List.mem_cons.mp hm with h | h
        · exact absurd h (by decide)
        · exact hx1 h
    · rw [if_neg hz, fanout_path_big path m hz]
      have e : path ++ "/".toList ++ hex (m % 256) = path ++ '/' :: hex (m % 256) := by simp
      have hm1 : m / 256 + 1 ≤ fuel := by
        have : m / 256 < m := Nat.div_lt_self (by omega) (by decide)
        omega
      by_cases hacc : fs.access (path ++ "/".toList ++ hex (m % 256)) = false
      · rw [if_pos ⟨trivial, hacc⟩]
        have hmk : fs.mkdir (path ++ "/".toList ++ hex (m % 256)) =
            some { fs with dirs := fs.dirs ++ [path ++ "/".toList ++ hex (m % 256)] } := by
          unfold FileSys.mkdir
          rw [if_pos ⟨hacc, by rw [e, parent_dir_append _ _ hx1]; exact hpath⟩]
        rw [hmk]
        simp only []
        have hinv1 : SpoolInv blobdir
            { fs with dirs := fs.dirs ++ [path ++ "/".toList ++ hex (m % 256)] } := by
          refine ⟨List.mem_append_left _ hinv.1, ?_, hinv.2.2⟩
          intro d hdm
          rcases List.mem_append.mp hdm with h | h
          · exact hinv.2.1 d h
          · right
            simp only [List.mem_singleton] at h
            exact ⟨path, hex (m % 256), by rw [h, e], hx1, hx2⟩
        obtain ⟨fs1, h1, h2, h3, h4, h5, _⟩ := ih (m / 256) (path ++ "/".toList ++ hex (m % 256))
          { fs with dirs := fs.dirs ++ [path ++ "/".toList ++ hex (m % 256)] } hm1 hinv1
          (by simp)
        exact ⟨fs1, h1, h2, h3, fun d hdm => h4 d (List.mem_append_left _ hdm), h5,
          fun _ => h4 _ (by simp)⟩
      · rw [if_neg (fun h => hacc h.2)]
        have hin : path ++ "/".toList ++ hex (m % 256) ∈ fs.dirs := by
          rw [e]
          apply access_dir_of_inv hinv path _ hx1 hx2
          rw [← e]
          simpa using hacc
        obtain ⟨fs1, h1, h2, h3, h4, h5, _⟩ := ih (m / 256) (path ++ "/".toList ++ hex (m % 256))
          fs hm1 hinv hin
        exact ⟨fs1, h1, h2, h3, h4, h5, fun _ => h4 _ hin⟩

theorem read_after_write {fs fs1 : FileSys} {p c : List Char} (h : fs.write p c = some fs1) :
    fs1.read p = some c := by
  unfold FileSys.write at h
  split_ifs at h
  simp only [Option.some.injEq] at h
  subst h
  unfold FileSys.read
  simp only []
  rw [List.find?_append]
  have hnone : List.find? (fun f => f.1 == p) (fs.files.filter (fun f => f.1 != p)) = none := by
    rw [List.find?_eq_none]
    intro x hx
    have := (List.mem_filter.mp hx).2
    simpa using this
  rw [hnone]
  simp

/-- The path of a blob is the spool directory followed by more text, the last component
of which begins with `=`. -/
theorem fanout_path_shape (blobdir : List Char) (s : Nat) :
    ∃ X S, fanout_path blobdir s = (blobdir ++ X) ++ '/' :: '=' :: S ∧ '/' ∉ S :=
  ⟨_, _, rfl, (hex_facts _ (fanout_top_lt s)).1⟩

/-- In a well-formed spool with a serial left, `export_blob` returns: the file is written
under the next serial, with the image of the buffer. -/
theorem export_blob_ok (MAX_SERIAL_T striplen : Nat) (sp : Spool) (file_name : Atom)
    (buf : List Char) (hinv : SpoolInv sp.blobdir sp.fs) (hlt : sp.seqno < MAX_SERIAL_T) :
    ∃ sp1, export_blob MAX_SERIAL_T striplen sp file_name buf = some (sp.seqno + 1, sp1) ∧
      sp1.blobdir = sp.blobdir ∧ sp1.seqno = sp.seqno + 1 ∧ SpoolInv sp.blobdir sp1.fs ∧
      (∀ d ∈ sp.fs.dirs, d ∈ sp1.fs.dirs) ∧
      sp1.fs.read (fanout_path sp.blobdir (sp.seqno + 1)) = some (blob_image
        (if file_name.drop striplen = ".cvsignore,v".toList then CVS_IGNORES.length else 0) buf) ∧
      ((sp.seqno + 1) / 256 ≠ 0 →
        sp.blobdir ++ "/".toList ++ hex ((sp.seqno + 1) % 256) ∈ sp1.fs.dirs) := by
  obtain ⟨fs1, h1, h2, h3, h4, h5, h6⟩ := blobfile_loop_create sp.blobdir (sp.seqno + 1 + 1)
    (sp.seqno + 1) sp.blobdir sp.fs (le_refl _) hinv hinv.1
  obtain ⟨X, S, hshape, hS⟩ := fanout_path_shape sp.blobdir (sp.seqno + 1)
  have hnd : fanout_path sp.blobdir (sp.seqno + 1) ∉ fs1.dirs := by
    intro hm
    rcases h2.2.1 _ hm with h | ⟨P1, S1, e1, hs1, hh1⟩
    · have := congrArg List.length h
      rw [hshape] at this
      simp only [List.length_append, List.length_cons] at this
      omega
    · exact file_not_dir hshape hS e1 hs1 hh1
  unfold export_blob
  simp only []
  rw [if_neg (by omega)]
  have hb : blobfile sp.blobdir (sp.seqno + 1) true sp.fs =
      some (fanout_path sp.blobdir (sp.seqno + 1), fs1) := h1
  rw [hb]
  simp only []
  generalize blob_image
    (if file_name.drop striplen = ".cvsignore,v".toList then CVS_IGNORES.length else 0) buf = img
  obtain ⟨fs2, hw, hd2, hf2⟩ : ∃ fs2, fs1.write (fanout_path sp.blobdir (sp.seqno + 1)) img =
      some fs2 ∧ fs2.dirs = fs1.dirs ∧ ∀ f ∈ fs2.files, f ∈ fs1.files ∨
        f.1 = fanout_path sp.blobdir (sp.seqno + 1) := by
    unfold FileSys.write
    rw [if_pos ⟨h3, hnd⟩]
    refine ⟨_, rfl, rfl, ?_⟩
    intro f hf
    rcases List.mem_append.mp hf with h | h
    · exact Or.inl (List.mem_of_mem_filter h)
    · simp only [List.mem_singleton] at h
      right
      rw [h]
  rw [hw]
  simp only []
  refine ⟨_, rfl, rfl, rfl, ⟨by rw [hd2]; exact h2.1, by rw [hd2]; exact h2.2.1, ?_⟩,
    by rw [hd2]; exact h4, read_after_write hw, by rw [hd2]; exact h6⟩
  intro f hf
  rcases hf2 f hf with h | h
  · exact h2.2.2 f h
  · rw [h]
    exact ⟨_, _, hshape, hS⟩

theorem spool_all_ok (MAX_SERIAL_T striplen : Nat) :
    ∀ (files : List (Atom × List Char)) (sp : Spool), SpoolInv sp.blobdir sp.fs →
      sp.seqno + files.length ≤ MAX_SERIAL_T →
      ∃ sp1, spool_all MAX_SERIAL_T striplen sp files = some sp1 ∧ sp1.blobdir = sp.blobdir ∧
        sp1.seqno = sp.seqno + files.length ∧ SpoolInv sp.blobdir sp1.fs ∧
        (∀ d ∈ sp.fs.dirs, d ∈ sp1.fs.dirs) ∧
        (sp.seqno < 256 → 256 ≤ sp.seqno + files.length →
          sp.blobdir ++ "/0".toList ∈ sp1.fs.dirs) := by
  intro files
  induction files with
  | nil =>
    intro sp hinv _
    exact ⟨sp, rfl, rfl, rfl, hinv, fun d h => h, fun h1 h2 => by simp at h2; omega⟩
  | cons f files ih =>
    intro sp hinv hle
    obtain ⟨file_name, buf⟩ := f
    simp only [List.length_cons] at hle
    obtain ⟨sp1, h1, h2, h3, h4, h5, _, h7⟩ :=
      export_blob_ok MAX_SERIAL_T striplen sp file_name buf hinv (by omega)
    obtain ⟨sp2, k1, k2, k3, k4, k5, k6⟩ := ih sp1 (by rw [h2]; exact h4) (by rw [h3]; omega)
    unfold spool_all
    rw [h1]
    simp only []
    refine ⟨sp2, k1, by rw [k2, h2], by rw [k3, h3, List.length_cons]; omega,
      by rw [← h2]; exact k4, fun d hd => k5 d (h5 d hd), ?_⟩
    intro hs hn
    by_cases h256 : sp.seqno + 1 = 256
    · apply k5
      have := h7 (by rw [h256]; decide)
      rw [h256] at this
      have e : sp.blobdir ++ "/".toList ++ hex (256 % 256) = sp.blobdir ++ "/0".toList := by
        rw [List.append_assoc]
        rfl
      rw [← e]
      exact this
    · rw [← h2]
      exact k6 (by rw [h3]; omega) (by rw [h3]; simp only [List.length_cons] at hn; omega)

/-- After 256 blobs or more were spooled, `export_wrap` leaves the spool directory and its
subdirectory `0` behind: the run is not fatal, no `rmdir` is tried in the loop, and the
last one fails. -/
theorem spool_wrap_leaves_dir (MAX_SERIAL_T striplen : Nat) (blobdir : List Char)
    (files : List (Atom × List Char)) (h1 : 256 ≤ files.length)
    (h2 : files.length ≤ MAX_SERIAL_T) :
    ∃ sp r, spool_all MAX_SERIAL_T striplen (export_init blobdir) files = some sp ∧
      sp.seqno = files.length ∧ export_wrap sp = some ([Out.done], true, r) ∧
      blobdir ∈ r.fs.dirs ∧ blobdir ++ "/0".toList ∈ r.fs.dirs := by
  obtain ⟨sp, k1, k2, k3, k4, _, k6⟩ := spool_all_ok MAX_SERIAL_T striplen files
    (export_init blobdir) (spool_inv_init blobdir) (by simpa [export_init] using h2)
  have hb : sp.blobdir = blobdir := k2
  have hin : blobdir ++ "/0".toList ∈ sp.fs.dirs :=
    k6 (by simp [export_init]) (by simpa [export_init] using h1)
  obtain ⟨r, hr, hd⟩ := export_wrap_with_child sp (blobdir ++ "/0".toList) hin (by
    rw [hb]
    exact parent_dir_append blobdir ['0'] (by decide))
  refine ⟨sp, r, k1, by rw [k3]; simp [export_init], hr, ?_, by rw [hd]; exact hin⟩
  rw [hd]
  exact k4.1

/-- C16, amended: in a well-formed spool with a serial left, `export_blob` writes to the
blob file of the next serial `data <len + L>`, the `L` bytes of the default ignores, the
buffer and a newline when the file name after `striplen` is `.cvsignore,v`, that is, for
the `.cvsignore` of the top directory; for every other name it writes `data <len>`, the
buffer and a newline. -/
theorem export_blob_image (MAX_SERIAL_T striplen : Nat) (sp : Spool) (file_name : Atom)
    (buf : List Char) (hinv : SpoolInv sp.blobdir sp.fs) (hlt : sp.seqno < MAX_SERIAL_T) :
    ∃ sp1, export_blob MAX_SERIAL_T striplen sp file_name buf = some (sp.seqno + 1, sp1) ∧
      sp1.fs.read (fanout_path sp.blobdir (sp.seqno + 1)) = some
        (if file_name.drop striplen = ".cvsignore,v".toList then
          "data ".toList ++ Nat.toDigits 10 (buf.length + CVS_IGNORES.length) ++ ['\n'] ++
            CVS_IGNORES ++ buf ++ ['\n']
         else "data ".toList ++ Nat.toDigits 10 buf.length ++ ['\n'] ++ buf ++ ['\n']) := by
  obtain ⟨sp1, h1, _, _, _, _, h6, _⟩ :=
    export_blob_ok MAX_SERIAL_T striplen sp file_name buf hinv hlt
  refine ⟨sp1, h1, ?_⟩
  rw [h6]
  congr 1
  have hL : CVS_IGNORES.length > 0 := by decide!
  by_cases hc : file_name.drop striplen = ".cvsignore,v".toList
  · rw [if_pos hc, if_pos hc]
    unfold blob_image
    rw [if_pos hL, List.take_length]
  · rw [if_neg hc, if_neg hc]
    unfold blob_image
    rw [if_neg (by omega)]
    simp

/-- C16, amended, at the `.cvsignore,v` of the top directory, spooled first. -/
theorem export_blob_image_witness :
    SpoolInv "d".toList (export_init "d".toList).fs ∧ (export_init "d".toList).seqno < 65535 ∧
    ∃ sp1, export_blob 65535 0 (export_init "d".toList) ".cvsignore,v".toList "*.log\n".toList =
        some (0 + 1, sp1) ∧
      sp1.fs.read (fanout_path "d".toList (0 + 1)) = some
        (if (".cvsignore,v".toList.drop 0) = ".cvsignore,v".toList then
          "data ".toList ++ Nat.toDigits 10 ("*.log\n".toList.length + CVS_IGNORES.length) ++
            ['\n'] ++ CVS_IGNORES ++ "*.log\n".toList ++ ['\n']
         else "data ".toList ++ Nat.toDigits 10 "*.log\n".toList.length ++ ['\n'] ++
            "*.log\n".toList ++ ['\n']) :=
  ⟨spool_inv_init "d".toList, by decide,
    export_blob_image 65535 0 (export_init "d".toList) ".cvsignore,v".toList "*.log\n".toList
      (spool_inv_init "d".toList) (by decide)⟩

/-- C16, as stated, fails: the name `sub/.cvsignore,v` ends with `.cvsignore,v`, and
`export_blob` writes the buffer without the default ignores, under `data 6`. -/
theorem cvsignore_in_subdir_plain :
    ".cvsignore,v".toList <:+ "sub/.cvsignore,v".toList ∧
    export_blob 65535 0 (export_init "d".toList) "sub/.cvsignore,v".toList "*.log\n".toList =
      some (1, ⟨"d".toList, 1, ⟨["d".toList], [("d/=1".toList, "data 6\n*.log\n\n".toList)]⟩⟩) := by
  decide

/-- C18 fails on the code once 256 blobs are spooled: serial 256 lies in the subdirectory
`0`, no path of a serial from 1 on ends with `/=0`, so `export_wrap` never removes that
subdirectory, the last `rmdir` fails and the spool directory is still there. -/
theorem wrap_leaves_spool_256 :
    ∃ sp r, spool_all 65535 0 (export_init "/tmp/cvs-fast-export-0123456789".toList)
        (List.replicate 256 ("foo,v".toList, "a\n".toList)) = some sp ∧
      sp.seqno = 256 ∧ export_wrap sp = some ([Out.done], true, r) ∧
      "/tmp/cvs-fast-export-0123456789".toList ∈ r.fs.dirs ∧
      "/tmp/cvs-fast-export-0123456789/0".toList ∈ r.fs.dirs := by
  obtain ⟨sp, r, h1, h2, h3, h4, h5⟩ := spool_wrap_leaves_dir 65535 0
    "/tmp/cvs-fast-export-0123456789".toList (List.replicate 256 ("foo,v".toList, "a\n".toList))
    (by rw [List.length_replicate]) (by rw [List.length_replicate]; decide)
  exact ⟨sp, r, h1, by rw [h2, List.length_replicate], h3, h4, h5⟩

/-! ## Blob spool: fewer than 256 blobs -/

theorem parent_dir_length_lt (p : List Char) (hp : p ≠ []) :
    (parent_dir p).length < p.length := by
  unfold parent_dir
  rw [List.length_reverse, List.length_drop]
  have h1 : (List.dropWhile (fun ch => ch != '/') p.reverse).length ≤ p.reverse.length :=
    (List.dropWhile_suffix _).length_le
  rw [List.length_reverse] at h1
  have h2 : 0 < p.length := List.length_pos.mpr hp
  omega

theorem export_wrap_loop_files (blobdir : List Char) :
    ∀ (n : Nat) (fs : FileSys), ∃ fs1, export_wrap_loop blobdir n fs = some fs1 ∧
      fs1.dirs = fs.dirs ∧
      ∀ f ∈ fs1.files, f ∈ fs.files ∧ ∀ s, 1 ≤ s → s ≤ n → f.1 ≠ fanout_path blobdir s := by
  intro n
  induction n with
  | zero =>
    intro fs
    exact ⟨fs, rfl, rfl, fun f hf => ⟨hf, fun s h1 h2 => by omega⟩⟩
  | succ n ih =>
    intro fs
    unfold export_wrap_loop
    have hb : blobfile blobdir (n + 1) false fs = some (fanout_path blobdir (n + 1), fs) :=
      blobfile_loop_false _ _ _ _ (le_refl _)
    rw [hb]
    simp only [ends_fanout_zero_fanout blobdir (n + 1) (by omega), Bool.false_eq_true, if_false]
    obtain ⟨fs1, h1, h2, h3⟩ := ih (fs.unlink (fanout_path blobdir (n + 1)))
    refine ⟨fs1, h1, h2, ?_⟩
    intro f hf
    obtain ⟨k1, k2⟩ := h3 f hf
    simp only [FileSys.unlink, List.mem_filter, bne_iff_ne, ne_eq] at k1
    refine ⟨k1.1, ?_⟩
    intro s hs1 hs2
    by_cases hs : s = n + 1
    · rw [hs]; exact k1.2
    · exact k2 s hs1 (by omega)

/-- What a call of `export_blob` that returns has done. -/
theorem export_blob_some {MAX_SERIAL_T striplen : Nat} {sp sp1 : Spool} {file_name : Atom}
    {buf : List Char} {serial : Nat}
    (h : export_blob MAX_SERIAL_T striplen sp file_name buf = some (serial, sp1)) :
    ∃ path fs1 fs2 img, blobfile sp.blobdir (sp.seqno + 1) true sp.fs = some (path, fs1) ∧
      fs1.write path img = some fs2 ∧ serial = sp.seqno + 1 ∧
      sp1 = { sp with seqno := sp.seqno + 1, fs := fs2 } := by
  unfold export_blob at h
  simp only [] at h
  generalize (if file_name.drop striplen = ".cvsignore,v".toList then CVS_IGNORES.length else 0)
    = extralen at h
  by_cases hm : sp.seqno ≥ MAX_SERIAL_T
  · rw [if_pos hm] at h
    exact absurd h (by simp)
  · rw [if_neg hm] at h
    cases hb : blobfile sp.blobdir (sp.seqno + 1) true sp.fs with
    | none => rw [hb] at h; exact absurd h (by simp)
    | some r =>
      obtain ⟨path, fs1⟩ := r
      rw [hb] at h
      simp only [] at h
      cases hw : fs1.write path (blob_image extralen buf) with
      | none => rw [hw] at h; exact absurd h (by simp)
      | some fs2 =>
        rw [hw] at h
        simp only [Option.some.injEq, Prod.mk.injEq] at h
        exact ⟨path, fs1, fs2, _, rfl, hw, h.1.symm, h.2.symm⟩

/-- Below serial 256 `export_blob` makes no directory: the blob file lies in the spool
directory itself. -/
theorem export_blob_small (MAX_SERIAL_T striplen : Nat) (sp sp1 : Spool) (file_name : Atom)
    (buf : List Char) (serial : Nat) (hs : sp.seqno + 1 < 256)
    (h : export_blob MAX_SERIAL_T striplen sp file_name buf = some (serial, sp1)) :
    sp1.blobdir = sp.blobdir ∧ sp1.seqno = sp.seqno + 1 ∧ sp1.fs.dirs = sp.fs.dirs ∧
    ∀ f ∈ sp1.fs.files, f ∈ sp.fs.files ∨ f.1 = fanout_path sp.blobdir (sp.seqno + 1) := by
  have hz : (sp.seqno + 1) / 256 = 0 := Nat.div_eq_of_lt hs
  have hb : blobfile sp.blobdir (sp.seqno + 1) true sp.fs =
      some (fanout_path sp.blobdir (sp.seqno + 1), sp.fs) := by
    unfold blobfile blobfile_loop
    simp only [sub_mod_div]
    rw [if_pos hz, fanout_path_small _ _ hz]
  obtain ⟨path, fs1, fs2, img, e1, e2, _, e4⟩ := export_blob_some h
  rw [hb] at e1
  simp only [Option.some.injEq, Prod.mk.injEq] at e1
  obtain ⟨rfl, rfl⟩ := e1
  unfold FileSys.write at e2
  split_ifs at e2
  simp only [Option.some.injEq] at e2
  subst e2
  subst e4
  refine ⟨rfl, rfl, rfl, ?_⟩
  intro f hf
  rcases List.mem_append.mp hf with h1 | h1
  · exact Or.inl (List.mem_of_mem_filter h1)
  · right
    rw [List.mem_singleton.mp h1]

theorem spool_all_small (MAX_SERIAL_T striplen : Nat) :
    ∀ (files : List (Atom × List Char)) (sp sp1 : Spool),
      sp.seqno + files.length < 256 →
      spool_all MAX_SERIAL_T striplen sp files = some sp1 →
      (∀ f ∈ sp.fs.files, ∃ s, 1 ≤ s ∧ s ≤ sp.seqno ∧ f.1 = fanout_path sp.blobdir s) →
      sp1.fs.dirs = sp.fs.dirs ∧
      ∀ f ∈ sp1.fs.files, ∃ s, 1 ≤ s ∧ s ≤ sp.seqno + files.length ∧
        f.1 = fanout_path sp.blobdir s := by
  intro files
  induction files with
  | nil =>
    intro sp sp1 _ h hf
    simp only [spool_all, Option.some.injEq] at h
    subst h
    exact ⟨rfl, by simpa using hf⟩
  | cons x files ih =>
    intro sp sp1 hlt h hf
    obtain ⟨file_name, buf⟩ := x
    simp only [List.length_cons] at hlt
    unfold spool_all at h
    cases hb : export_blob MAX_SERIAL_T striplen sp file_name buf with
    | none => rw [hb] at h; simp at h
    | some r =>
      obtain ⟨serial, sp2⟩ := r
      rw [hb] at h
      simp only [] at h
      obtain ⟨hd1, hd2, d2, f2⟩ := export_blob_small MAX_SERIAL_T striplen sp sp2 file_name buf
        serial (by omega) hb
      have hdir : sp2.blobdir = sp.blobdir ∧ sp2.seqno = sp.seqno + 1 := ⟨hd1, hd2⟩
      obtain ⟨k1, k2⟩ := ih sp2 sp1 (by rw [hdir.2]; omega) h (by
        intro f hfm
        rcases f2 f hfm with h1 | h1
        · obtain ⟨s, a, b, c⟩ := hf f h1
          exact ⟨s, a, by rw [hdir.2]; omega, by rw [hdir.1]; exact c⟩
        · exact ⟨sp.seqno + 1, by omega, by rw [hdir.2], by rw [hdir.1]; exact h1⟩)
      refine ⟨k1.trans d2, ?_⟩
      intro f hfm
      obtain ⟨s, a, b, c⟩ := k2 f hfm
      exact ⟨s, a, by rw [hdir.2] at b; simp only [List.length_cons]; omega,
        by rw [hdir.1] at c; exact c⟩

/-- With fewer than 256 blobs spooled no subdirectory is made, and `export_wrap` removes
every blob file and then the spool directory. -/
theorem spool_wrap_clean (MAX_SERIAL_T striplen : Nat) (blobdir : List Char)
    (files : List (Atom × List Char)) (hne : blobdir ≠ []) (h1 : files.length < 256)
    (h2 : files.length ≤ MAX_SERIAL_T) :
    ∃ sp r, spool_all MAX_SERIAL_T striplen (export_init blobdir) files = some sp ∧
      export_wrap sp = some ([Out.done], false, r) ∧ r.fs.dirs = [] ∧ r.fs.files = [] := by
  obtain ⟨sp, k1, k2, k3, _, _, _⟩ := spool_all_ok MAX_SERIAL_T striplen files
    (export_init blobdir) (spool_inv_init blobdir) (by simpa [export_init] using h2)
  have hb : sp.blobdir = blobdir := k2
  have hn : sp.seqno = files.length := by rw [k3]; simp [export_init]
  obtain ⟨d1, f1⟩ := spool_all_small MAX_SERIAL_T striplen files (export_init blobdir) sp
    (by simpa [export_init] using h1) k1 (by simp [export_init])
  have d1' : sp.fs.dirs = [blobdir] := d1
  obtain ⟨fs1, w1, w2, w3⟩ := export_wrap_loop_files sp.blobdir sp.seqno sp.fs
  have hfiles : fs1.files = [] := by
    apply List.eq_nil_iff_forall_not_mem.mpr
    intro f hf
    obtain ⟨m1, m2⟩ := w3 f hf
    obtain ⟨s, a, b, c⟩ := f1 f m1
    refine m2 s a ?_ (by rw [hb]; exact c)
    rw [hn]
    simpa [export_init] using b
  have hrm : fs1.rmdir sp.blobdir = some { fs1 with dirs := fs1.dirs.erase sp.blobdir } := by
    unfold FileSys.rmdir
    rw [if_pos]
    refine ⟨by rw [w2, d1', hb]; simp, ?_, by rw [hfiles]; simp⟩
    intro d hd
    rw [w2, d1'] at hd
    rw [List.mem_singleton.mp hd, hb]
    intro he
    have := parent_dir_length_lt blobdir hne
    rw [he] at this
    exact absurd this (lt_irrefl _)
  refine ⟨sp, { sp with seqno := 0, fs := { fs1 with dirs := fs1.dirs.erase sp.blobdir } },
    k1, ?_, ?_, hfiles⟩
  · unfold export_wrap
    rw [w1]
    simp only []
    rw [hrm]
  · simp [w2, d1', hb]

/-! ## The one-shot default ignores -/

theorem EachAfter.append_each {α : Type} {P : α → List α → Prop} {l l' : List α}
    (h : EachAfter P l) (hl : ∀ a x b, l' = a ++ x :: b → P x (l ++ a)) :
    EachAfter P (l ++ l') := by
  intro pre x post e
  rcases List.append_eq_append_iff.mp e with ⟨a', h1, h2⟩ | ⟨c', h1, h2⟩
  · rw [h1]
    exact hl a' x post h2
  · cases c' with
    | nil =>
      simp only [List.append_nil, List.nil_append] at h1 h2
      subst h1
      have := hl [] x post h2.symm
      simpa using this
    | cons y c'' =>
      simp only [List.cons_append, List.cons.injEq] at h2
      obtain ⟨rfl, _⟩ := h2
      exact h pre x c'' h1

theorem PlainStep.stay (st : Exporter) : PlainStep st st :=
  ⟨rfl, [], by simp, by simp⟩

theorem PlainStep.seq {a b c : Exporter} (h1 : PlainStep a b) (h2 : PlainStep b c) :
    PlainStep a c := by
  obtain ⟨n1, l1, e1, q1⟩ := h1
  obtain ⟨n2, l2, e2, q2⟩ := h2
  refine ⟨n2.trans n1, l1 ++ l2, by rw [e2, e1, List.append_assoc], ?_⟩
  intro e he
  rcases List.mem_append.mp he with h | h
  · exact q1 e h
  · exact q2 e h

theorem PlainStep.line (st : Exporter) {e : Out} (h : plain_line e = true) :
    PlainStep st (st.print e) :=
  ⟨rfl, [e], rfl, by simpa using h⟩

theorem PlainStep.when {a b : Exporter} (c : Prop) [Decidable c] (h : c → PlainStep a b) :
    PlainStep a (if c then b else a) := by
  split_ifs with hc
  · exact h hc
  · exact PlainStep.stay a

theorem plain_line_facts {e : Out} (h : plain_line e = true) :
    e ≠ Out.ignores ∧ e ≠ Out.newline ∧ is_fileop e = false ∧ touches_gitignore e = false := by
  cases e <;> simp_all [plain_line, is_fileop, touches_gitignore]

/-- Lines that are no synthesized `.gitignore` keep the stream part of the invariant when
the file operations among them come while it holds that a synthesized `.gitignore` lies
in a complete record. -/
theorem ignores_stream_append {out l : List Out} (h1 : ignores_first out)
    (h2 : fileops_closed out) (hl : ∀ e ∈ l, e ≠ Out.ignores)
    (hk : (∃ e ∈ l, is_fileop e = true) → Out.ignores ∈ out → Out.newline ∈ out) :
    ignores_first (out ++ l) ∧ fileops_closed (out ++ l) := by
  constructor
  · apply EachAfter.append_each h1
    intro a x b e hx
    exact absurd hx (hl x (by rw [e]; simp))
  · apply EachAfter.append_each h2
    intro a x b e hx hin
    have hio : Out.ignores ∈ out := by
      rcases List.mem_append.mp hin with h | h
      · exact h
      · exact absurd rfl (hl Out.ignores (by rw [e]; simp [h]))
    exact List.mem_append_left _ (hk ⟨x, by rw [e]; simp, hx⟩ hio)

theorem ignores_inv_plain {st st' : Exporter} (h : ignores_inv st) (hs : PlainStep st st') :
    ignores_inv st' := by
  obtain ⟨⟨p1, p2, p3⟩, p4⟩ := h
  obtain ⟨hn, l, hl, hq⟩ := hs
  have hnot : ∀ e ∈ l, e ≠ Out.ignores := fun e he => (plain_line_facts (hq e he)).1
  obtain ⟨q2, q3⟩ := ignores_stream_append p2 p3 hnot (by
    rintro ⟨e, he, hf⟩
    rw [(plain_line_facts (hq e he)).2.2.1] at hf
    exact absurd hf (by decide))
  refine ⟨⟨?_, by rw [hl]; exact q2, by rw [hl]; exact q3⟩, ?_⟩
  · intro hni e he
    rw [hl] at he
    rcases List.mem_append.mp he with h | h
    · exact p1 (by rw [← hn]; exact hni) e h
    · have := plain_line_facts (hq e h)
      exact ⟨this.1, this.2.1, this.2.2.2⟩
  · intro hin
    rw [hl] at hin ⊢
    rcases List.mem_append.mp hin with h | h
    · exact List.mem_append_left _ (p4 h)
    · exact absurd rfl (hnot _ h)

theorem touches_eq (p : List Char) (h : p = ".gitignore".toList) :
    (p == ".gitignore".toList) = decide (p = ".gitignore".toList) := by
  rw [h]
  decide

theorem touches_ne (p : List Char) (h : p ≠ ".gitignore".toList) :
    (p == ".gitignore".toList) = decide (p = ".gitignore".toList) := by
  rw [decide_eq_false h]
  exact beq_false_of_ne h

theorem touches_decide (p : List Char) :
    (p == ".gitignore".toList) = decide (p = ".gitignore".toList) := by
  by_cases h : p = ".gitignore".toList
  · exact touches_eq p h
  · exact touches_ne p h

/-- What `print_op` prints and does to `need_ignores`. -/
theorem print_op_shape (st : Exporter) (op2 : fileop) :
    ∃ l, (print_op st op2).out = st.out ++ l ∧
      (∀ e ∈ l, is_fileop e = true ∧ e ≠ Out.ignores ∧ e ≠ Out.newline ∧
        touches_gitignore e = decide (op2.path = ".gitignore".toList)) ∧
      (print_op st op2).need_ignores =
        (st.need_ignores && !decide (op2.path = ".gitignore".toList)) := by
  have hflag : ∀ s : Exporter,
      (if s.need_ignores = true ∧ op2.path = ".gitignore".toList then
          { s with need_ignores := false } else s).out = s.out ∧
      (if s.need_ignores = true ∧ op2.path = ".gitignore".toList then
          { s with need_ignores := false } else s).need_ignores =
        (s.need_ignores && !decide (op2.path = ".gitignore".toList)) := by
    intro s
    by_cases hc : s.need_ignores = true ∧ op2.path = ".gitignore".toList
    · rw [if_pos hc]
      refine ⟨rfl, ?_⟩
      rw [hc.1, decide_eq_true hc.2]
      rfl
    · rw [if_neg hc]
      refine ⟨rfl, ?_⟩
      cases hni : s.need_ignores with
      | false => rfl
      | true =>
        have hp : op2.path ≠ ".gitignore".toList := fun h => hc ⟨hni, h⟩
        rw [decide_eq_false hp]
        rfl
  have hM : ∀ s : Exporter, ∃ l,
      (if op2.op = 'M' then
        s.print (Out.M op2.mode (st.markmap op2.serial).external op2.path) else s).out = s.out ++ l ∧
      (∀ e ∈ l, is_fileop e = true ∧ e ≠ Out.ignores ∧ e ≠ Out.newline ∧
        touches_gitignore e = decide (op2.path = ".gitignore".toList)) ∧
      (if op2.op = 'M' then
        s.print (Out.M op2.mode (st.markmap op2.serial).external op2.path) else s).need_ignores
        = s.need_ignores := by
    intro s
    by_cases h : op2.op = 'M'
    · rw [if_pos h]
      refine ⟨[_], rfl, ?_, rfl⟩
      intro e he
      rw [List.mem_singleton.mp he]
      exact ⟨rfl, by simp, by simp, touches_decide _⟩
    · rw [if_neg h]
      exact ⟨[], by simp, by simp, rfl⟩
  have hD : ∀ s : Exporter, ∃ l,
      (if op2.op = 'D' then s.print (Out.D op2.path) else s).out = s.out ++ l ∧
      (∀ e ∈ l, is_fileop e = true ∧ e ≠ Out.ignores ∧ e ≠ Out.newline ∧
        touches_gitignore e = decide (op2.path = ".gitignore".toList)) ∧
      (if op2.op = 'D' then s.print (Out.D op2.path) else s).need_ignores = s.need_ignores := by
    intro s
    by_cases h : op2.op = 'D'
    · rw [if_pos h]
      refine ⟨[_], rfl, ?_, rfl⟩
      intro e he
      rw [List.mem_singleton.mp he]
      exact ⟨rfl, by simp, by simp, touches_decide _⟩
    · rw [if_neg h]
      exact ⟨[], by simp, by simp, rfl⟩
  obtain ⟨l1, a1, a2, a3⟩ := hM st
  obtain ⟨l2, b1, b2, b3⟩ := hD
    (if op2.op = 'M' then st.print (Out.M op2.mode (st.markmap op2.serial).external op2.path)
     else st)
  obtain ⟨c1, c2⟩ := hflag (if op2.op = 'D' then
    (if op2.op = 'M' then st.print (Out.M op2.mode (st.markmap op2.serial).external op2.path)
     else st).print (Out.D op2.path)
    else (if op2.op = 'M' then
      st.print (Out.M op2.mode (st.markmap op2.serial).external op2.path) else st))
  refine ⟨l1 ++ l2, ?_, ?_, ?_⟩
  · show Exporter.out (ite _ _ _) = _
    rw [c1, b1, a1, List.append_assoc]
  · intro e he
    rcases List.mem_append.mp he with h | h
    · exact a2 e h
    · exact b2 e h
  · show Exporter.need_ignores (ite _ _ _) = _
    rw [c2, b3, a3]

theorem ignores_inv_print_op {st : Exporter} (h : ignores_inv st) (op2 : fileop) :
    ignores_inv (print_op st op2) := by
  obtain ⟨⟨p1, p2, p3⟩, p4⟩ := h
  obtain ⟨l, hl, hq, hn⟩ := print_op_shape st op2
  obtain ⟨q2, q3⟩ := ignores_stream_append p2 p3 (fun e he => (hq e he).2.1) (fun _ => p4)
  refine ⟨⟨?_, by rw [hl]; exact q2, by rw [hl]; exact q3⟩, ?_⟩
  · intro hni e he
    rw [hn] at hni
    simp only [Bool.and_eq_true, Bool.not_eq_true', decide_eq_false_iff_not] at hni
    rw [hl] at he
    rcases List.mem_append.mp he with h | h
    · exact p1 hni.1 e h
    · have := hq e h
      refine ⟨this.2.1, this.2.2.1, ?_⟩
      rw [this.2.2.2]
      simpa using hni.2
  · intro hin
    rw [hl] at hin ⊢
    rcases List.mem_append.mp hin with h | h
    · exact List.mem_append_left _ (p4 h)
    · exact absurd rfl ((hq _ h).2.1)

theorem ignores_inv_print_ops (ops : List fileop) :
    ∀ st : Exporter, ignores_inv st → ignores_inv (ops.foldl print_op st) := by
  induction ops with
  | nil => intro st h; exact h
  | cons op ops ih => intro st h; exact ih _ (ignores_inv_print_op h op)

/-- After `print_ignores` the flag is down, and the synthesized `.gitignore`, if printed,
stands where the invariant wants it. -/
theorem ignores_open_print_ignores {st : Exporter} (h : ignores_inv st) :
    ignores_open (print_ignores st) ∧ (print_ignores st).need_ignores = false ∧
    ∃ l, (print_ignores st).out = st.out ++ l ∧ ∀ e ∈ l, is_fileop e = false := by
  obtain ⟨⟨p1, p2, p3⟩, p4⟩ := h
  unfold print_ignores
  by_cases hni : st.need_ignores = true
  · rw [if_pos hni]
    refine ⟨⟨fun h => absurd h (by simp [Exporter.print]), ?_, ?_⟩, rfl, [Out.ignores], rfl,
      by simp [is_fileop]⟩
    · apply EachAfter.append_each p2
      intro a x b e _
      have ha : a = [] := by
        cases a with
        | nil => rfl
        | cons y a => simp at e
      rw [ha, List.append_nil]
      exact p1 hni
    · apply EachAfter.append_each p3
      intro a x b e hx
      have hxe : x = Out.ignores := by
        cases a with
        | nil => simp at e; exact e.1.symm
        | cons y a => simp at e
      rw [hxe] at hx
      exact absurd hx (by decide)
  · rw [if_neg hni]
    exact ⟨⟨p1, p2, p3⟩, by simpa using hni, [], by simp, by simp⟩

theorem flush_op_plain (report : Bool) (st : Exporter) (op2 : fileop) :
    PlainStep st (flush_op report st op2) := by
  unfold flush_op
  simp only []
  split_ifs
  · exact ⟨rfl, [Out.blob (st.mark + 1) op2.serial], rfl, by simp [plain_line]⟩
  · exact ⟨rfl, [], by simp [Exporter.next_mark], by simp⟩
  · exact PlainStep.stay st

theorem flush_ops_plain (report : Bool) (ops : List fileop) :
    ∀ st : Exporter, PlainStep st (flush_ops report ops st) := by
  unfold flush_ops
  induction ops with
  | nil => intro st; exact PlainStep.stay st
  | cons op ops ih =>
    intro st
    exact (flush_op_plain report st op).seq (ih _)

theorem after_flush_plain (env : Env) (c : git_commit) (report : Bool) (st : Exporter) :
    PlainStep st (after_flush env c report st) := by
  unfold after_flush
  have h0 : PlainStep st { st with other := links_of env.atom_bloom c st.other } :=
    ⟨rfl, [], by simp, by simp⟩
  exact h0.seq (flush_ops_plain report _ _)

theorem commit_header_plain (c : git_commit) (ref : List Char) (report : Bool) (st : Exporter) :
    PlainStep st (commit_header c ref report st) := by
  refine ⟨by cases report <;> rfl, _, header_out c ref report st, ?_⟩
  intro e he
  split_ifs at he
  · rcases List.mem_cons.mp he with h | h
    · rw [h]; rfl
    · rw [List.mem_singleton.mp h]; rfl
  · simp at he

theorem print_committer_plain (env : Env) (force_dates : Bool) (c : git_commit)
    (st : Exporter) : PlainStep st (print_committer env force_dates c st) :=
  (@PlainStep.line st (Out.committer _ _ _ _) rfl).seq (@PlainStep.line _ (Out.data _) rfl)

theorem print_from_plain (c : git_commit) (st : Exporter) : PlainStep st (print_from c st) := by
  unfold print_from
  cases c.parent with
  | none => exact PlainStep.stay st
  | some p => exact @PlainStep.line st (Out.from_ _) rfl

theorem emit_tags_plain (env : Env) (c : git_commit) (st : Exporter) :
    PlainStep st (emit_tags env c st) := by
  unfold emit_tags
  generalize env.all_tags = tags
  induction tags generalizing st with
  | nil => exact PlainStep.stay st
  | cons t tags ih =>
    simp only [List.foldl_cons]
    exact (PlainStep.when _ (fun _ => @PlainStep.line st (Out.tag_reset _ _) rfl)).seq (ih _)

theorem emit_resets_plain (branch_pfx : List Char) (heads : List rev_ref) (st : Exporter) :
    PlainStep st (emit_resets branch_pfx heads st) := by
  unfold emit_resets
  induction heads generalizing st with
  | nil => exact PlainStep.stay st
  | cons h heads ih =>
    simp only [List.foldl_cons]
    exact (@PlainStep.line st (Out.branch_reset _ _) rfl).seq (ih _)

/-- The end of a reported commit record: with the flag down, the property and the blank
line restore the invariant. -/
theorem ignores_inv_trailer {st : Exporter} (h : ignores_open st)
    (hni : st.need_ignores = false) (revmap reposurgeon : Bool) (here : Nat)
    (revpairs : List Char) :
    ignores_inv (commit_trailer true revmap reposurgeon here revpairs st) := by
  obtain ⟨p1, p2, p3⟩ := h
  obtain ⟨l, hl, hn, hq, hnl⟩ : ∃ l,
      (commit_trailer true revmap reposurgeon here revpairs st).out = st.out ++ l ∧
      (commit_trailer true revmap reposurgeon here revpairs st).need_ignores = st.need_ignores ∧
      (∀ e ∈ l, e ≠ Out.ignores ∧ is_fileop e = false) ∧ Out.newline ∈ l := by
    unfold commit_trailer
    cases revmap <;> cases reposurgeon <;>
      simp [Exporter.print, is_fileop]
  obtain ⟨q2, q3⟩ := ignores_stream_append p2 p3 (fun e he => (hq e he).1) (by
    rintro ⟨e, he, hf⟩
    rw [(hq e he).2] at hf
    exact absurd hf (by decide))
  refine ⟨⟨?_, by rw [hl]; exact q2, by rw [hl]; exact q3⟩, ?_⟩
  · intro h
    rw [hn, hni] at h
    exact absurd h (by decide)
  · intro _
    rw [hl]
    exact List.mem_append_right _ hnl

theorem commit_trailer_unreported (revmap reposurgeon : Bool) (here : Nat)
    (revpairs : List Char) (st : Exporter) :
    PlainStep st (commit_trailer false revmap reposurgeon here revpairs st) := by
  unfold commit_trailer
  cases revmap <;> cases reposurgeon <;> exact ⟨rfl, [], by simp, by simp⟩

/-- `export_commit` keeps the invariant of the one-shot default ignores. -/
theorem ignores_inv_export_commit (env : Env) (c : git_commit) (branch_pfx branch : List Char)
    (report revmap reposurgeon force_dates : Bool) {st : Exporter} (h : ignores_inv st) :
    ignores_inv (export_commit env c branch_pfx branch report revmap reposurgeon force_dates st) := by
  unfold export_commit
  simp only []
  have h5 : ignores_inv (commit_header c (branch_pfx ++ branch) report
      (after_flush env c report st)) :=
    ignores_inv_plain h ((after_flush_plain env c report st).seq
      (commit_header_plain c _ report _))
  generalize commit_header c (branch_pfx ++ branch) report (after_flush env c report st) = st5
    at h5 ⊢
  cases report with
  | false =>
    simp only [Bool.false_eq_true, if_false]
    exact ignores_inv_plain h5 (commit_trailer_unreported _ _ _ _ _)
  | true =>
    simp only [if_true]
    unfold print_commit_body
    have h6 := ignores_inv_print_ops (env.qsort_fileops (commit_ops env c st)) _
      (ignores_inv_plain h5 ((print_committer_plain env force_dates c st5).seq
        (print_from_plain c _)))
    obtain ⟨k1, k2, _⟩ := ignores_open_print_ignores h6
    exact ignores_inv_trailer k1 k2 _ _ _ _

/-- A property of the state that `export_commit` keeps and that steps printing plain lines
keep holds after `export_commits`. -/
theorem export_commits_plain_induct (env : Env) (heads : List rev_ref) (branch_pfx : List Char)
    (fromtime : Int) (revmap reposurgeon force_dates branchorder : Bool) (st : Exporter)
    (Inv : Exporter → Prop)
    (h_commit : ∀ c br report s, Inv s →
      Inv (export_commit env c branch_pfx br report revmap reposurgeon force_dates s))
    (h_plain : ∀ s s', Inv s → PlainStep s s' → Inv s')
    (h0 : Inv { st with markmap := fun _ => ⟨0, false⟩ }) :
    Inv (export_commits env heads branch_pfx fromtime revmap reposurgeon force_dates
      branchorder st) := by
  unfold export_commits
  simp only []
  refine h_plain _ _ ?_ (emit_resets_plain branch_pfx heads _)
  generalize ({ st with markmap := fun _ => ⟨0, false⟩ } : Exporter) = s0 at h0 ⊢
  cases branchorder with
  | true =>
    simp only [if_true]
    induction heads generalizing s0 with
    | nil => exact h0
    | cons h hs ih =>
      simp only [List.foldl_cons]
      apply ih
      unfold export_branch
      split_ifs
      · exact h0
      · generalize branch_chain h.commit = chain
        induction chain with
        | nil => exact h0
        | cons c chain ihc =>
          simp only [List.foldr_cons]
          exact h_plain _ _ (h_commit _ _ _ _ ihc) (emit_tags_plain env c _)
  | false =>
    simp only [Bool.false_eq_true, if_false]
    generalize sorted_history env heads = l
    generalize ([] : List Nat) = realized
    induction l generalizing realized s0 with
    | nil => exact h0
    | cons hp l ih =>
      unfold canonical_loop
      simp only []
      apply ih
      refine h_plain _ _ (h_commit _ _ _ _ ?_) (emit_tags_plain env hp.commit _)
      apply h_plain _ _ h0
      split_ifs
      · split
        · exact PlainStep.when _ (fun _ => @PlainStep.line s0 (Out.anchor _) rfl)
        · exact PlainStep.stay _
      · exact PlainStep.stay _

theorem ignores_inv_start (seqno0 : Nat) :
    ignores_inv { Exporter.start seqno0 with markmap := fun _ => ⟨0, false⟩ } := by
  refine ⟨⟨?_, EachAfter.nil _, EachAfter.nil _⟩, ?_⟩
  · intro _ e he
    simp [Exporter.start] at he
  · intro h
    simp [Exporter.start] at h

/-- C19, as stated, fails: the first commit of the stream has no `.gitignore` and gets the
synthesized one; its child adds a `.cvsignore`, so a later commit of the same stream has
a file operation of its own on `.gitignore`. -/
theorem ignores_then_gitignore :
    Out.ignores ∈ (export_commits sample_env [ign_master] "refs/heads/".toList 0
      false false false false (Exporter.start 2)).out ∧
    Out.M 0o644 3 ".gitignore".toList ∈ (export_commits sample_env [ign_master]
      "refs/heads/".toList 0 false false false false (Exporter.start 2)).out := by
  decide

/-- C19, amended: in the stream of one run the synthesized `M 100644 inline .gitignore`
record is printed at most once; when it is printed, no commit record is complete before
it and no file operation on the path `.gitignore` stands before it, and every file
operation that follows it comes after the blank line that closes its record: it stands
in the first commit record of the stream, behind all the file operations of that
commit, none of which is on `.gitignore`. -/
theorem ignores_one_shot (env : Env) (heads : List rev_ref) (branch_pfx : List Char)
    (fromtime : Int) (revmap reposurgeon force_dates branchorder : Bool) (seqno0 : Nat) :
    (export_commits env heads branch_pfx fromtime revmap reposurgeon force_dates branchorder
      (Exporter.start seqno0)).out.count Out.ignores ≤ 1 ∧
    ∀ pre post, (export_commits env heads branch_pfx fromtime revmap reposurgeon force_dates
        branchorder (Exporter.start seqno0)).out = pre ++ Out.ignores :: post →
      (∀ e ∈ pre, e ≠ Out.newline ∧ touches_gitignore e = false) ∧
      (∀ p1 x p2, post = p1 ++ x :: p2 → is_fileop x = true → Out.newline ∈ p1) := by
  have hinv := export_commits_plain_induct env heads branch_pfx fromtime revmap reposurgeon
    force_dates branchorder (Exporter.start seqno0) ignores_inv
    (fun c br report s h => ignores_inv_export_commit env c branch_pfx br report revmap
      reposurgeon force_dates h)
    (fun s s' h hs => ignores_inv_plain h hs) (ignores_inv_start seqno0)
  obtain ⟨⟨_, hfirst, hclosed⟩, _⟩ := hinv
  generalize (export_commits env heads branch_pfx fromtime revmap reposurgeon force_dates
    branchorder (Exporter.start seqno0)).out = out at hfirst hclosed ⊢
  have hsplit : ∀ pre post, out = pre ++ Out.ignores :: post →
      (∀ e ∈ pre, e ≠ Out.ignores ∧ e ≠ Out.newline ∧ touches_gitignore e = false) ∧
      Out.ignores ∉ post := by
    intro pre post e
    refine ⟨hfirst pre Out.ignores post e rfl, ?_⟩
    intro hm
    obtain ⟨p1, p2, hp⟩ := List.append_of_mem hm
    have e2 : out = (pre ++ Out.ignores :: p1) ++ Out.ignores :: p2 := by
      rw [e, hp]; simp
    exact (hfirst _ Out.ignores p2 e2 rfl Out.ignores (by simp)).1 rfl
  constructor
  · by_cases hm : Out.ignores ∈ out
    · obtain ⟨pre, post, e⟩ := List.append_of_mem hm
      obtain ⟨h1, h2⟩ := hsplit pre post e
      rw [e, List.count_append, List.count_cons_self,
        List.count_eq_zero_of_not_mem (fun h => (h1 _ h).1 rfl),
        List.count_eq_zero_of_not_mem h2]
    · rw [List.count_eq_zero_of_not_mem hm]
      exact Nat.zero_le _
  · intro pre post e
    obtain ⟨h1, _⟩ := hsplit pre post e
    refine ⟨fun x hx => ⟨(h1 x hx).2.1, (h1 x hx).2.2⟩, ?_⟩
    intro p1 x p2 hp hx
    have e2 : out = (pre ++ Out.ignores :: p1) ++ x :: p2 := by
      rw [e, hp]; simp
    have hnl := hclosed _ x p2 e2 hx (by simp)
    rcases List.mem_append.mp hnl with h | h
    · exact absurd rfl (h1 _ h).2.1
    · rcases List.mem_cons.mp h with h | h
      · exact absurd h (by decide)
      · exact h

/-- C19, amended, at scenario S1: the synthesized `.gitignore` is in the stream, once. -/
theorem ignores_one_shot_witness :
    Out.ignores ∈ (export_commits sample_env [s1_master] "refs/heads/".toList 0
      false false false false (Exporter.start 2)).out ∧
    (export_commits sample_env [s1_master] "refs/heads/".toList 0
      false false false false (Exporter.start 2)).out.count Out.ignores ≤ 1 :=
  ⟨by decide, (ignores_one_shot sample_env [s1_master] "refs/heads/".toList 0
    false false false false 2).1⟩

/-! ## The incremental cut of canonical order -/

theorem body_line_not_commit {st : Exporter} {c : git_commit} {ops : List fileop} {e : Out}
    (h : body_line st c ops e) : commit_ref e = none := by
  rcases h with ⟨_, _, _, _, rfl⟩ | ⟨_, rfl⟩ | ⟨_, _, rfl⟩ | ⟨_, _, _, rfl⟩ | ⟨_, rfl⟩ | rfl |
    ⟨_, rfl⟩ | rfl <;> rfl

/-- The `commit` lines `export_commit` adds to the stream: one with `report`, none
without. -/
theorem export_commit_refs (env : Env) (c : git_commit) (branch_pfx branch : List Char)
    (report revmap reposurgeon force_dates : Bool) (st : Exporter) :
    (export_commit env c branch_pfx branch report revmap reposurgeon force_dates st).out.filterMap
        commit_ref =
      st.out.filterMap commit_ref ++ (if report = true then [branch_pfx ++ branch] else []) := by
  obtain ⟨_, l3, e3, q3⟩ := export_commit_prints env c branch_pfx branch report revmap
    reposurgeon force_dates st
  obtain ⟨_, _, _, l1, e1, q1⟩ := flush_ops_frame report (commit_ops env c st)
    { st with other := links_of env.atom_bloom c st.other }
  have e1' : (after_flush env c report st).out = st.out ++ l1 := e1
  rw [e3, header_out, e1']
  simp only [List.filterMap_append]
  have h1 : l1.filterMap commit_ref = [] := by
    rw [List.filterMap_eq_nil_iff]
    intro a ha
    obtain ⟨m, s, rfl⟩ := q1 a ha
    rfl
  have h3 : l3.filterMap commit_ref = [] := by
    rw [List.filterMap_eq_nil_iff]
    intro a ha
    exact body_line_not_commit (q3 a ha).2
  rw [h1, h3]
  cases report <;> simp [commit_ref]

theorem prints_no_commit {Q : Out → Prop} {st st' : Exporter} (h : Prints Q st st')
    (hq : ∀ e, Q e → commit_ref e = none) :
    st'.out.filterMap commit_ref = st.out.filterMap commit_ref := by
  obtain ⟨_, l, e, q⟩ := h
  rw [e, List.filterMap_append]
  have : l.filterMap commit_ref = [] := by
    rw [List.filterMap_eq_nil_iff]
    exact fun a ha => hq a (q a ha)
  rw [this, List.append_nil]

/-- One round of the export loop of canonical order is one call of `export_commit`, after
the anchor line if one is due, and before the tags of the commit. -/
theorem canonical_loop_round (env : Env) (branch_pfx : List Char) (fromtime : Int)
    (revmap reposurgeon force_dates : Bool) (hp : commit_seq) (rest : List commit_seq)
    (realized : List Nat) (st : Exporter) :
    ∃ (report : Bool) (st1 : Exporter) (realized1 : List Nat),
      (report = false ↔
        0 < fromtime ∧ display_date env force_dates hp.commit (st.mark + 1) ≤ fromtime) ∧
      (st1 = st ∨ st1 = st.print (Out.anchor (branch_pfx ++ hp.head.ref_name))) ∧
      canonical_loop env branch_pfx fromtime revmap reposurgeon force_dates (hp :: rest)
          realized st =
        canonical_loop env branch_pfx fromtime revmap reposurgeon force_dates rest realized1
          (emit_tags env hp.commit (export_commit env hp.commit branch_pfx hp.head.ref_name
            report revmap reposurgeon force_dates st1)) := by
  refine ⟨!(decide (0 < fromtime) &&
      decide (fromtime ≥ display_date env force_dates hp.commit (st.mark + 1))), _, _, ?_, ?_, rfl⟩
  · simp
  · split_ifs
    · split
      · split_ifs
        · exact Or.inr rfl
        · exact Or.inl rfl
      · exact Or.inl rfl
    · exact Or.inl rfl

theorem canonical_loop_refs (env : Env) (branch_pfx : List Char) (fromtime : Int)
    (revmap reposurgeon : Bool) :
    ∀ (l : List commit_seq) (realized : List Nat) (st : Exporter),
      (canonical_loop env branch_pfx fromtime revmap reposurgeon false l realized st).out.filterMap
          commit_ref =
        st.out.filterMap commit_ref ++
          (l.filter (fun hp => !(decide (0 < fromtime) &&
            decide ((hp.commit.date : Int) + env.RCS_EPOCH ≤ fromtime)))).map
            (fun hp => branch_pfx ++ hp.head.ref_name) := by
  intro l
  induction l with
  | nil => intro realized st; simp [canonical_loop]
  | cons hp l ih =>
    intro realized st
    obtain ⟨report, st1, realized1, hr, hst, heq⟩ := canonical_loop_round env branch_pfx fromtime
      revmap reposurgeon false hp l realized st
    have hd : display_date env false hp.commit (st.mark + 1) =
        (hp.commit.date : Int) + env.RCS_EPOCH := by
      simp [display_date]
    rw [hd] at hr
    have h1 : st1.out.filterMap commit_ref = st.out.filterMap commit_ref := by
      rcases hst with h | h
      · rw [h]
      · rw [h]
        simp [Exporter.print, commit_ref]
    rw [heq, ih, prints_no_commit (emit_tags_prints env hp.commit _)
      (by rintro e ⟨name, rfl⟩; rfl), export_commit_refs, h1, List.filter_cons]
    cases report with
    | false =>
      have hc := hr.mp rfl
      simp [hc.1, hc.2]
    | true =>
      have hc : ¬ (0 < fromtime ∧ (hp.commit.date : Int) + env.RCS_EPOCH ≤ fromtime) :=
        fun h => absurd (hr.mpr h) (by decide)
      have hk : (!(decide (0 < fromtime) &&
          decide ((hp.commit.date : Int) + env.RCS_EPOCH ≤ fromtime))) = true := by
        rcases not_and_or.mp hc with h | h <;> simp [h]
      simp [hk]

/-- C20, as stated, fails: a commit whose effective date is equal to `fromtime` is not
reported; the stream of the run holds no commit record, only the `reset` of the branch. -/
theorem cut_at_date :
    display_date sample_env false cut_c0 1 = 1631152000 ∧
    (export_commits sample_env [cut_master] "refs/heads/".toList 1631152000 false false false
      false (Exporter.start 1)).out = [Out.branch_reset "refs/heads/master".toList 2] := by
  decide

/-- C20, amended: in canonical order every round of the export loop calls `export_commit`
once, with `report = false` exactly when `fromtime > 0` and the effective date of the
commit, `display_date(commit, mark + 1)`, is not later than `fromtime`; a commit whose
effective date is equal to `fromtime` is not reported.  So, without `force_dates`, the
commit records of the stream are those of the entries of the array with
`fromtime <= 0` or `date + RCS_EPOCH > fromtime`, in the order of the array. -/
theorem canonical_report_cut (env : Env) (heads : List rev_ref) (branch_pfx : List Char)
    (fromtime : Int) (revmap reposurgeon force_dates : Bool) (seqno0 : Nat) :
    (∀ (hp : commit_seq) (rest : List commit_seq) (realized : List Nat) (st : Exporter),
      ∃ (report : Bool) (st1 : Exporter) (realized1 : List Nat),
        (report = false ↔
          0 < fromtime ∧ display_date env force_dates hp.commit (st.mark + 1) ≤ fromtime) ∧
        (st1 = st ∨ st1 = st.print (Out.anchor (branch_pfx ++ hp.head.ref_name))) ∧
        canonical_loop env branch_pfx fromtime revmap reposurgeon force_dates (hp :: rest)
            realized st =
          canonical_loop env branch_pfx fromtime revmap reposurgeon force_dates rest realized1
            (emit_tags env hp.commit (export_commit env hp.commit branch_pfx hp.head.ref_name
              report revmap reposurgeon force_dates st1))) ∧
    (export_commits env heads branch_pfx fromtime revmap reposurgeon false false
        (Exporter.start seqno0)).out.filterMap commit_ref =
      ((sorted_history env heads).filter (fun hp => !(decide (0 < fromtime) &&
        decide ((hp.commit.date : Int) + env.RCS_EPOCH ≤ fromtime)))).map
        (fun hp => branch_pfx ++ hp.head.ref_name) := by
  refine ⟨canonical_loop_round env branch_pfx fromtime revmap reposurgeon force_dates, ?_⟩
  unfold export_commits
  simp only [Bool.false_eq_true, if_false]
  rw [prints_no_commit (emit_resets_prints branch_pfx heads _)
    (by rintro e ⟨h, _, rfl⟩; rfl), canonical_loop_refs]
  simp [Exporter.start]

/-- C20, amended, at scenario S1 cut at the date of the first commit: the first commit,
whose effective date is `fromtime`, is left out and the second one is reported. -/
theorem canonical_report_cut_witness :
    (export_commits sample_env [s1_master] "refs/heads/".toList 1631152000 false false false
        false (Exporter.start 2)).out.filterMap commit_ref = ["refs/heads/master".toList] :=
  ((canonical_report_cut sample_env [s1_master] "refs/heads/".toList 1631152000 false false
    false 2).2).trans (by decide)

/-! ## Blob spool: one path per serial -/

theorem flush_op_revmap (report : Bool) (st : Exporter) (op2 : fileop) :
    (flush_op report st op2).revmap_out = st.revmap_out := by
  unfold flush_op
  simp only []
  split_ifs <;> rfl

theorem flush_ops_revmap (report : Bool) (ops : List fileop) :
    ∀ st : Exporter, (flush_ops report ops st).revmap_out = st.revmap_out := by
  unfold flush_ops
  induction ops with
  | nil => intro st; rfl
  | cons op ops ih =>
    intro st
    rw [List.foldl_cons, ih, flush_op_revmap]

theorem print_op_revmap (st : Exporter) (op2 : fileop) :
    (print_op st op2).revmap_out = st.revmap_out := by
  unfold print_op
  simp only []
  split_ifs <;> rfl

theorem print_ops_revmap (ops : List fileop) :
    ∀ st : Exporter, (ops.foldl print_op st).revmap_out = st.revmap_out := by
  induction ops with
  | nil => intro st; rfl
  | cons op ops ih =>
    intro st
    rw [List.foldl_cons, ih, print_op_revmap]

theorem commit_body_revmap (env : Env) (force_dates : Bool) (commit : git_commit)
    (ops : List fileop) (st : Exporter) :
    (print_commit_body env force_dates commit ops st).revmap_out = st.revmap_out := by
  unfold print_commit_body print_ignores
  have h1 : (print_from commit (print_committer env force_dates commit st)).revmap_out
      = st.revmap_out := by
    unfold print_from print_committer
    cases commit.parent <;> rfl
  split_ifs
  · show (ops.foldl print_op _).revmap_out = _
    rw [print_ops_revmap, h1]
  · rw [print_ops_revmap, h1]

theorem commit_header_revmap (commit : git_commit) (ref : List Char) (report : Bool)
    (st : Exporter) : (commit_header commit ref report st).revmap_out = st.revmap_out := by
  unfold commit_header
  cases report <;> rfl

/-- What `export_commit` appends to the revmap file: the text of `revpairs`, with the mark
of the commit put before every newline, when the sink is there, and nothing otherwise. -/
theorem export_commit_revmap (env : Env) (commit : git_commit) (branch_pfx branch : List Char)
    (report revmap reposurgeon force_dates : Bool) (st : Exporter) :
    (export_commit env commit branch_pfx branch report revmap reposurgeon force_dates st).revmap_out
      = st.revmap_out ++
        (if revmap then
          write_revmap (commit_header commit (branch_pfx ++ branch) report
              (after_flush env commit report st)).mark
            (build_revpairs env.striplen reposurgeon commit
              (links_of env.atom_bloom commit st.other))
         else []) := by
  have h5 : (commit_header commit (branch_pfx ++ branch) report
      (after_flush env commit report st)).revmap_out = st.revmap_out := by
    rw [commit_header_revmap]
    unfold after_flush
    rw [flush_ops_revmap]
  unfold export_commit commit_trailer
  simp only []
  cases revmap <;> cases report <;> cases reposurgeon <;>
    simp [Exporter.print, commit_body_revmap, h5]

theorem build_revpairs_plain (striplen : Nat) (commit : git_commit) (other : Links) :
    build_revpairs striplen false commit other = [] := by
  unfold build_revpairs
  simp

theorem write_revmap_append (here : Nat) (a b : List Char) :
    write_revmap here (a ++ b) = write_revmap here a ++ write_revmap here b := by
  simp [write_revmap]

theorem write_revmap_line (here : Nat) (l : List Char) (h : '\n' ∉ l) :
    write_revmap here (l ++ ['\n']) = l ++ " :".toList ++ Nat.toDigits 10 here ++ ['\n'] := by
  rw [write_revmap_append]
  have h1 : write_revmap here l = l := by
    unfold write_revmap
    induction l with
    | nil => rfl
    | cons c l ih =>
      have hc : c ≠ '\n' := fun e => h (by rw [e]; exact List.mem_cons_self _ _)
      simp only [List.map_cons, List.flatten_cons, if_neg hc]
      rw [ih (fun hm => h (List.mem_cons_of_mem _ hm))]
      rfl
  rw [h1]
  simp [write_revmap]

theorem write_revmap_lines (here : Nat) (lines : List (List Char))
    (h : ∀ l ∈ lines, '\n' ∉ l) :
    write_revmap here (lines.map (fun l => l ++ ['\n'])).flatten
      = (lines.map (fun l => l ++ " :".toList ++ Nat.toDigits 10 here ++ ['\n'])).flatten := by
  induction lines with
  | nil => rfl
  | cons l lines ih =>
    simp only [List.map_cons, List.flatten_cons]
    rw [write_revmap_append, write_revmap_line here l (h l (List.mem_cons_self _ _)),
      ih (fun x hx => h x (List.mem_cons_of_mem _ hx))]

/-- With `reposurgeon` and the sink, the revmap file gets one line
`<path> <dotted-rev> :<commit-mark>` for every file of the commit that got an `M` entry,
in the order the files are visited; the path is `export_filename(f, false)`. -/
theorem revmap_with_reposurgeon (env : Env) (commit : git_commit) (branch_pfx branch : List Char)
    (report force_dates : Bool) (st : Exporter)
    (h : ∀ f ∈ commit.dirs.flatten, '\n' ∉ stringify_revision
      (export_filename env.striplen f.file_name false) " ".toList f.number) :
    (export_commit env commit branch_pfx branch report true true force_dates st).revmap_out
      = st.revmap_out ++
        ((commit.dirs.flatten.filter
            (needs_M commit.parent.isSome (links_of env.atom_bloom commit st.other))).map
          (fun f => export_filename env.striplen f.file_name false ++ " ".toList ++
            cvs_number_string f.number ++ " :".toList ++
            Nat.toDigits 10 (commit_header commit (branch_pfx ++ branch) report
              (after_flush env commit report st)).mark ++ ['\n'])).flatten := by
  rw [export_commit_revmap]
  simp only [if_true]
  congr 1
  unfold build_revpairs
  simp only [if_true]
  have := write_revmap_lines (commit_header commit (branch_pfx ++ branch) report
      (after_flush env commit report st)).mark
    ((commit.dirs.flatten.filter
      (needs_M commit.parent.isSome (links_of env.atom_bloom commit st.other))).map
      (fun f => stringify_revision (export_filename env.striplen f.file_name false)
        " ".toList f.number))
    (by
      intro l hl
      obtain ⟨f, hf, e⟩ := List.mem_map.mp hl
      rw [← e]
      exact h f (List.mem_of_mem_filter hf))
  simp only [List.map_map, Function.comp_def] at this
  rw [this]
  rfl

/-- C21 fails on the code when the sink is supplied without `reposurgeon`: for every
commit, `export_commit` leaves the revmap file as it was, since the lines are put into
`revpairs` only `if (reposurgeon)`.  In scenario S1 the first commit has the one
operation `M foo` and gets mark 2; with the sink alone the revmap receives nothing, with
`reposurgeon` too it receives the line `foo 1.1 :2`. -/
theorem revmap_empty_without_reposurgeon :
    (∀ (env : Env) (commit : git_commit) (branch_pfx branch : List Char)
        (report force_dates : Bool) (st : Exporter),
      (export_commit env commit branch_pfx branch report true false force_dates st).revmap_out
        = st.revmap_out) ∧
    commit_ops sample_env s1_c0 (Exporter.start 1) = [⟨'M', 0o644, 1, "foo".toList⟩] ∧
    (export_commit sample_env s1_c0 "refs/heads/".toList "master".toList true true false false
      (Exporter.start 1)).revmap_out = [] ∧
    (export_commit sample_env s1_c0 "refs/heads/".toList "master".toList true true true false
      (Exporter.start 1)).revmap_out = "foo 1.1 :2\n".toList ∧
    Out.mark_line 2 ∈ (export_commit sample_env s1_c0 "refs/heads/".toList "master".toList true
      true false false (Exporter.start 1)).out := by
  refine ⟨?_, by decide, by decide, by decide, by decide⟩
  intro env commit branch_pfx branch report force_dates st
  rw [export_commit_revmap, build_revpairs_plain]
  simp [write_revmap]

/-! ## Canonical order without the sort is branch order -/

theorem canonical_loop_zero (env : Env) (branch_pfx : List Char)
    (revmap reposurgeon force_dates : Bool) :
    ∀ (hist : List commit_seq) (realized : List Nat) (st : Exporter),
      canonical_loop env branch_pfx 0 revmap reposurgeon force_dates hist realized st
        = hist.foldl (export_round env branch_pfx revmap reposurgeon force_dates) st := by
  intro hist
  induction hist with
  | nil => intro realized st; rfl
  | cons hp rest ih =>
    intro realized st
    unfold canonical_loop
    simp only [lt_self_iff_false, decide_False, Bool.false_and, Bool.not_false, Bool.and_true,
      Bool.false_eq_true, if_false]
    rw [ih]
    rfl

theorem export_branch_rounds (env : Env) (branch_pfx : List Char)
    (revmap reposurgeon force_dates : Bool) (st : Exporter) (h : rev_ref) :
    export_branch env branch_pfx revmap reposurgeon force_dates st h
      = (flatten_history [h]).foldl (export_round env branch_pfx revmap reposurgeon force_dates)
          st := by
  unfold export_branch flatten_history
  cases ht : h.tail with
  | true => simp [ht]
  | false =>
    simp only [ht, Bool.false_eq_true, if_false, List.filter_cons, Bool.not_false, if_true,
      List.filter_nil, List.flatMap_cons, List.flatMap_nil, List.append_nil]
    rw [List.foldl_map, List.foldl_reverse]
    rfl

theorem flatten_history_cons (h : rev_ref) (hs : List rev_ref) :
    flatten_history (h :: hs) = flatten_history [h] ++ flatten_history hs := by
  unfold flatten_history
  cases ht : h.tail <;> simp [List.filter_cons, ht]

theorem export_branches_rounds (env : Env) (branch_pfx : List Char)
    (revmap reposurgeon force_dates : Bool) :
    ∀ (heads : List rev_ref) (st : Exporter),
      heads.foldl (export_branch env branch_pfx revmap reposurgeon force_dates) st
        = (flatten_history heads).foldl
            (export_round env branch_pfx revmap reposurgeon force_dates) st := by
  intro heads
  induction heads with
  | nil => intro st; rfl
  | cons h hs ih =>
    intro st
    rw [List.foldl_cons, ih, export_branch_rounds, flatten_history_cons h hs, List.foldl_append]

theorem flatten_history_one (h : rev_ref) :
    flatten_history [h] =
      if h.tail then [] else (branch_chain h.commit).reverse.map (fun c => ⟨c, h⟩) := by
  unfold flatten_history
  cases ht : h.tail <;> simp [List.filter_cons, ht]

theorem export_ncommit_from (heads : List rev_ref) :
    ∀ n, heads.foldl (fun n h => if h.tail then n else n + (branch_chain h.commit).length) n
      = n + (flatten_history heads).length := by
  induction heads with
  | nil => intro n; rfl
  | cons h hs ih =>
    intro n
    rw [List.foldl_cons, ih, flatten_history_cons h hs, flatten_history_one, List.length_append]
    cases ht : h.tail
    · simp only [Bool.false_eq_true, if_false, List.length_map, List.length_reverse]
      exact Nat.add_assoc _ _ _
    · simp

/-- The number of entries `export_ncommit` counts is the number of entries of the
flattened array. -/
theorem export_ncommit_length (heads : List rev_ref) :
    export_ncommit heads = (flatten_history heads).length := by
  unfold export_ncommit
  rw [export_ncommit_from, Nat.zero_add]

theorem set_at_length {α : Type} (X Z : List α) (a b : α) :
    (X ++ a :: Z).set X.length b = X ++ b :: Z := by
  rw [List.set_append_right _ _ (le_refl _), Nat.sub_self, List.set_cons_zero]

/-- The stores of one head fill its span of the array with its chain in reverse. -/
theorem fill_chain_array (base L : Nat) (h : rev_ref) :
    ∀ (chain : List git_commit) (i : Nat) (A Z : List (Option commit_seq)),
      i + chain.length = L → A.length = base →
      (fill_chain base L h i chain).foldl (fun arr w => arr.set w.1 (some w.2))
          (A ++ List.replicate chain.length none ++ Z)
        = A ++ chain.reverse.map (fun c => some ⟨c, h⟩) ++ Z := by
  intro chain
  induction chain with
  | nil => intro i A Z _ _; simp [fill_chain]
  | cons c rest ih =>
    intro i A Z hL hA
    have hidx : base + L - (i + 1) = (A ++ List.replicate rest.length none).length := by
      rw [List.length_append, List.length_replicate, hA]
      simp only [List.length_cons] at hL
      omega
    have harr : A ++ List.replicate (c :: rest).length none ++ Z
        = (A ++ List.replicate rest.length none) ++ none :: Z := by
      rw [List.length_cons, List.replicate_succ']
      simp
    unfold fill_chain
    rw [List.foldl_cons, harr]
    simp only []
    rw [hidx, set_at_length]
    have hL' : (i + 1) + rest.length = L := by
      simp only [List.length_cons] at hL
      omega
    have := ih (i + 1) A (some ⟨c, h⟩ :: Z) hL' hA
    rw [List.append_assoc A] at this ⊢
    rw [List.append_assoc A] at this
    rw [this]
    simp

theorem fill_chain_indices (base L : Nat) (h : rev_ref) :
    ∀ (chain : List git_commit) (i : Nat), i + chain.length = L →
      (fill_chain base L h i chain).map Prod.fst = (List.range' base chain.length).reverse := by
  intro chain
  induction chain with
  | nil => intro i _; rfl
  | cons c rest ih =>
    intro i hL
    simp only [List.length_cons] at hL
    unfold fill_chain
    rw [List.map_cons, ih (i + 1) (by omega), List.length_cons, List.range'_concat,
      List.reverse_append]
    simp only [List.reverse_cons, List.reverse_nil, List.nil_append, List.singleton_append,
      Nat.one_mul, List.cons.injEq, and_true]
    omega

/-- Phase 1 leaves in the array, from `branchbase` on, the entries of the heads one span
after the other, each span holding the chain of its head in reverse. -/
theorem fill_history_array :
    ∀ (heads : List rev_ref) (base : Nat) (A Z : List (Option commit_seq)), A.length = base →
      (fill_history base heads).foldl (fun arr w => arr.set w.1 (some w.2))
          (A ++ List.replicate (flatten_history heads).length none ++ Z)
        = A ++ (flatten_history heads).map some ++ Z := by
  intro heads
  induction heads with
  | nil => intro base A Z _; simp [fill_history, flatten_history]
  | cons h hs ih =>
    intro base A Z hA
    unfold fill_history
    rw [flatten_history_cons h hs, flatten_history_one]
    cases ht : h.tail
    · simp only [Bool.false_eq_true, if_false, List.length_append, List.length_map,
        List.length_reverse, List.map_append, List.map_map]
      rw [List.foldl_append, List.replicate_add]
      have h1 := fill_chain_array base (branch_chain h.commit).length h (branch_chain h.commit) 0 A
        (List.replicate (flatten_history hs).length none ++ Z) (Nat.zero_add _) hA
      simp only [List.append_assoc] at h1 ⊢
      rw [h1]
      have h2 := ih (base + (branch_chain h.commit).length)
        (A ++ (branch_chain h.commit).reverse.map (fun c => some ⟨c, h⟩)) Z
        (by rw [List.length_append, List.length_map, List.length_reverse, hA])
      simp only [List.append_assoc] at h2
      rw [h2]
      rfl
    · simp only [if_true, List.nil_append]
      exact ih base A Z hA

theorem fill_history_indices :
    ∀ (heads : List rev_ref) (base : Nat),
      ((fill_history base heads).map Prod.fst).Perm
        (List.range' base (flatten_history heads).length) := by
  intro heads
  induction heads with
  | nil => intro base; simp [fill_history, flatten_history]
  | cons h hs ih =>
    intro base
    unfold fill_history
    rw [flatten_history_cons h hs, flatten_history_one]
    cases ht : h.tail
    · simp only [Bool.false_eq_true, if_false, List.length_append, List.length_map,
        List.length_reverse, List.map_append]
      rw [fill_chain_indices base _ h _ 0 (Nat.zero_add _),
        Nat.add_comm (branch_chain h.commit).length (flatten_history hs).length,
        ← List.range'_append_1 base (branch_chain h.commit).length (flatten_history hs).length]
      exact List.Perm.append (List.reverse_perm _) (ih _)
    · simp only [if_true, List.nil_append]
      exact ih base

/-- C24: when the flattened array is not sortable by date and `fromtime` is 0, the run in
canonical order is the run in branch order: both call `export_commit`, reporting, on the
entries (commit, head) of the flattened array in order, that is, for each non-tail head in
the order of the head list, on its chain down to the first commit flagged `tail`, oldest
first.  The array that phase 1 fills store by store is that list: it has
`export_ncommit` entries and every index is stored into exactly once. -/
theorem canonical_is_branch_order (env : Env) (heads : List rev_ref) (branch_pfx : List Char)
    (revmap reposurgeon force_dates : Bool) (st : Exporter)
    (hns : sortable (flatten_history heads) = false) :
    export_commits env heads branch_pfx 0 revmap reposurgeon force_dates false st
      = export_commits env heads branch_pfx 0 revmap reposurgeon force_dates true st ∧
    export_commits env heads branch_pfx 0 revmap reposurgeon force_dates false st
      = emit_resets branch_pfx heads
          ((flatten_history heads).foldl
            (export_round env branch_pfx revmap reposurgeon force_dates)
            { st with markmap := fun _ => ⟨0, false⟩ }) ∧
    flatten_history heads = (heads.filter (fun h => !h.tail)).flatMap
      (fun h => (branch_chain h.commit).reverse.map (fun c => ⟨c, h⟩)) ∧
    history_array heads = (flatten_history heads).map some ∧
    (history_array heads).length = export_ncommit heads ∧
    ((fill_history 0 heads).map Prod.fst).Perm (List.range (export_ncommit heads)) := by
  have hcan : export_commits env heads branch_pfx 0 revmap reposurgeon force_dates false st
      = emit_resets branch_pfx heads
          ((flatten_history heads).foldl
            (export_round env branch_pfx revmap reposurgeon force_dates)
            { st with markmap := fun _ => ⟨0, false⟩ }) := by
    unfold export_commits sorted_history
    simp only [Bool.false_eq_true, if_false, hns]
    rw [canonical_loop_zero]
  have hbr : export_commits env heads branch_pfx 0 revmap reposurgeon force_dates true st
      = emit_resets branch_pfx heads
          ((flatten_history heads).foldl
            (export_round env branch_pfx revmap reposurgeon force_dates)
            { st with markmap := fun _ => ⟨0, false⟩ }) := by
    unfold export_commits
    simp only [if_true]
    rw [export_branches_rounds]
  have harr : history_array heads = (flatten_history heads).map some := by
    have := fill_history_array heads 0 [] [] rfl
    simp only [List.nil_append, List.append_nil] at this
    unfold history_array
    rw [export_ncommit_length, this]
  refine ⟨hcan.trans hbr.symm, hcan, rfl, harr, ?_, ?_⟩
  · rw [harr, List.length_map, export_ncommit_length]
  · rw [export_ncommit_length, List.range_eq_range']
    exact fill_history_indices heads 0

/-- C24 at a head whose first commit is dated after its child: the array is the first
commit, then the child, and the stores go to index 1, then to index 0. -/
theorem canonical_is_branch_order_witness :
    sortable (flatten_history [late_master]) = false ∧
    (fill_history 0 [late_master]).map Prod.fst = [1, 0] ∧
    (flatten_history [late_master]).map (fun hp => hp.commit.addr) = [140, 141] ∧
    export_commits sample_env [late_master] "refs/heads/".toList 0 false false false false
        (Exporter.start 2)
      = export_commits sample_env [late_master] "refs/heads/".toList 0 false false false true
        (Exporter.start 2) :=
  ⟨by decide, by decide, by decide,
   (canonical_is_branch_order sample_env [late_master] "refs/heads/".toList false false false
      (Exporter.start 2) (by decide)).1⟩

/-! ## Canonical order by date -/

/-- With dates below 2^31 the array sorted by `sort_by_date` is in non-decreasing order of
date and holds the entries of the flattened array, each as often; canonical mode hands
them to `export_commit` in that order. -/
theorem canonical_by_date (env : Env) (heads : List rev_ref)
    (hs : sortable (flatten_history heads) = true)
    (hperm : (env.qsort_history sort_by_date (flatten_history heads)).Perm
      (flatten_history heads))
    (hsorted : (env.qsort_history sort_by_date (flatten_history heads)).Pairwise
      (fun a b => sort_by_date a b ≤ 0))
    (hdates : ∀ x ∈ flatten_history heads, x.commit.date < 2147483648) :
    (sorted_history env heads).Pairwise (fun a b => a.commit.date ≤ b.commit.date) ∧
    (sorted_history env heads).Perm (flatten_history heads) ∧
    export_order env heads false = (sorted_history env heads).map (fun hp => hp.commit) := by
  have e : sorted_history env heads = env.qsort_history sort_by_date (flatten_history heads) := by
    unfold sorted_history
    rw [if_pos hs]
  refine ⟨?_, ?_, ?_⟩
  · rw [e]
    refine hsorted.imp_of_mem ?_
    intro a b ha hb h
    exact sort_by_date_le (hdates a (hperm.mem_iff.mp ha)) (hdates b (hperm.mem_iff.mp hb)) h
  · rw [e]; exact hperm
  · simp [export_order]

/-- C25 fails on the code for dates 2^31 or more apart: `sort_by_date` returns the
difference cut to an `int`, so for the dates 2147483648 and 0 it is negative in both
directions.  The flattened array of two branches with these first commits passes the
check `sortable` and is in the order of `sort_by_date` as it stands, and canonical mode
exports the later commit first: the dates of the `committer` lines decrease. -/
theorem sort_by_date_wraps :
    sortable (flatten_history [far_head, near_head]) = true ∧
    sort_by_date ⟨far_c0, far_head⟩ ⟨near_c0, near_head⟩ = -2147483648 ∧
    sort_by_date ⟨near_c0, near_head⟩ ⟨far_c0, far_head⟩ = -2147483648 ∧
    (flatten_history [far_head, near_head]).map (fun hp => hp.commit.date) = [2147483648, 0] ∧
    (flatten_history [far_head, near_head]).Pairwise (fun a b => sort_by_date a b ≤ 0) ∧
    (export_order sample_env [far_head, near_head] false).map (fun c => c.date)
      = [2147483648, 0] ∧
    (export_commits sample_env [far_head, near_head] "refs/heads/".toList 0 false false false
      false (Exporter.start 2)).out.filterMap committer_date = [2778635648, 631152000] := by
  refine ⟨by decide, by decide, by decide, by decide, by decide, by decide, by decide⟩

/-! ## Branch building: what the loops write -/

theorem build_branches_loops (qsort : (Nat → Nat → Int) → List Nat → List Nat) (t : NodeTable)
    (h : t.nentries ≠ 0) :
    build_branches qsort t =
      down_loop (qsort (fun a b => compare (t.node a).number (t.node b).number) (all_nodes t))
        (pair_loop (qsort (fun a b => compare (t.node a).number (t.node b).number) (all_nodes t))
          (trunk_if_last
            (qsort (fun a b => compare (t.node a).number (t.node b).number) (all_nodes t)) t)) := by
  unfold build_branches
  rw [if_neg h]
  rfl

theorem pair_loop_cons (x y : Nat) (r : List Nat) (t : NodeTable) :
    pair_loop (x :: y :: r) t = try_pair (pair_loop (y :: r) t) x y := rfl

theorem modify_keep {α : Type} (π : Node → α) (t : NodeTable) (a : Nat) (f : Node → Node)
    (x : Nat) (hf : ∀ nd, π (f nd) = π nd) : π ((t.modify a f).node x) = π (t.node x) := by
  unfold NodeTable.modify
  by_cases e : x = a
  · subst e; simp [hf]
  · simp [Function.update_noteq e]

theorem modify_other (t : NodeTable) (a : Nat) (f : Node → Node) (x : Nat) (h : x ≠ a) :
    (t.modify a f).node x = t.node x := by
  unfold NodeTable.modify
  simp [Function.update_noteq h]

theorem bucket_find_congr (s s' : NodeTable) (key : cvs_number) (ht : s'.table = s.table)
    (hn : ∀ x, (s'.node x).number = (s.node x).number) :
    bucket_find s' key = bucket_find s key := by
  unfold bucket_find
  rw [ht]
  congr 1
  funext p
  rw [hn]

theorem bucket_find_depth {s : NodeTable} {key : cvs_number} {p : Nat}
    (h : bucket_find s key = some p) : (s.node p).number.c = key.c := by
  unfold bucket_find at h
  have := List.find?_some h
  exact ((same_number_iff _ _).mp this).1

theorem try_pair_starts_table (t : NodeTable) (b : Nat) :
    (try_pair_starts t b).table = t.table := by
  unfold try_pair_starts
  split_ifs
  · simp only []
    split <;> rfl
  · rfl

theorem try_pair_table (t : NodeTable) (a b : Nat) : (try_pair t a b).table = t.table := by
  unfold try_pair
  simp only []
  split_ifs
  · rfl
  · rfl
  · exact try_pair_starts_table t b
  · exact try_pair_starts_table _ b
  · exact try_pair_starts_table t b

theorem pair_loop_num (v : List Nat) (t : NodeTable) (x : Nat) :
    ((pair_loop v t).node x).number = (t.node x).number :=
  pair_loop_number v t x

theorem pair_loop_table (v : List Nat) (t : NodeTable) : (pair_loop v t).table = t.table := by
  induction v with
  | nil => rfl
  | cons a v ih =>
    cases v with
    | nil => rfl
    | cons b r => rw [pair_loop_cons, try_pair_table]; exact ih

theorem link_down_table (t : NodeTable) (a : Nat) : (link_down t a).table = t.table := by
  unfold link_down
  split_ifs
  · split <;> rfl
  · rfl

theorem down_loop_table (v : List Nat) (t : NodeTable) : (down_loop v t).table = t.table := by
  unfold down_loop
  induction v with
  | nil => rfl
  | cons a v ih => rw [List.foldr_cons, link_down_table]; exact ih

theorem down_loop_num (v : List Nat) (t : NodeTable) (x : Nat) :
    ((down_loop v t).node x).number = (t.node x).number :=
  (link_down_loop v t).2 x

theorem trunk_if_last_node (v : List Nat) (t : NodeTable) : (trunk_if_last v t).node = t.node := by
  unfold trunk_if_last
  split
  · split_ifs <;> rfl
  · rfl

theorem trunk_if_last_table (v : List Nat) (t : NodeTable) :
    (trunk_if_last v t).table = t.table := by
  unfold trunk_if_last
  split
  · split_ifs <;> rfl
  · rfl

theorem try_pair_starts_keep {α : Type} (π : Node → α) (t : NodeTable) (b z : Nat)
    (h1 : ∀ nd, π { nd with starts := true } = π nd)
    (h2 : ∀ nd x, π { nd with next := some x } = π nd) :
    π ((try_pair_starts t b).node z) = π (t.node z) := by
  unfold try_pair_starts
  split_ifs
  · simp only []
    split
    · rw [modify_keep π _ _ _ _ (fun nd => h2 nd b), modify_keep π _ _ _ _ h1]
    · rw [modify_keep π _ _ _ _ h1]
  · rfl

theorem try_pair_keep {α : Type} (π : Node → α) (t : NodeTable) (a b z : Nat)
    (h1 : ∀ nd, π { nd with starts := true } = π nd)
    (h2 : ∀ nd x, π { nd with next := some x } = π nd)
    (h3 : ∀ nd x, π { nd with to_ := some x } = π nd) :
    π ((try_pair t a b).node z) = π (t.node z) := by
  unfold try_pair
  simp only []
  split_ifs
  · rw [modify_keep π _ _ _ _ (fun nd => h3 nd a), modify_keep π _ _ _ _ (fun nd => h2 nd b)]
  · rw [modify_keep π _ _ _ _ (fun nd => h3 nd b), modify_keep π _ _ _ _ (fun nd => h2 nd b)]
  · exact try_pair_starts_keep π t b z h1 h2
  · exact try_pair_starts_keep π _ b z h1 h2
  · exact try_pair_starts_keep π t b z h1 h2

theorem try_pair_starts_flag (t : NodeTable) (b z : Nat) :
    ((try_pair_starts t b).node z).starts =
      ((t.node z).starts || (decide (z = b) && decide ((t.node b).number.c % 2 = 0))) := by
  unfold try_pair_starts
  by_cases he : (t.node b).number.c % 2 = 0
  · rw [if_pos he]
    simp only [he, decide_True, Bool.and_true]
    have key : ((t.modify b (fun nd => { nd with starts := true })).node z).starts
        = ((t.node z).starts || decide (z = b)) := by
      by_cases e : z = b
      · subst e
        rw [modify_node_self]
        simp
      · rw [modify_other _ _ _ _ e]
        simp [e]
    split
    · rw [modify_keep (fun nd => nd.starts) _ _ (fun nd => { nd with next := some b }) _
        (fun _ => rfl)]
      exact key
    · exact key
  · rw [if_neg he]
    simp [he]

theorem try_pair_unlinked (s : NodeTable) (x y : Nat)
    (h : pair_linked (s.node x).number (s.node y).number = false) :
    ∃ s0 : NodeTable, s0.node = s.node ∧ s0.table = s.table ∧
      try_pair s x y = try_pair_starts s0 y := by
  unfold pair_linked agree at h
  unfold try_pair
  simp only []
  by_cases h1 : (s.node x).number.c = (s.node y).number.c
  · rw [if_pos h1]
    have hd : decide ((s.node x).number.c = (s.node y).number.c) = true := decide_eq_true h1
    rw [hd] at h
    simp only [Bool.true_and, Bool.or_eq_false_iff, decide_eq_false_iff_not] at h
    rw [if_neg h.1, if_neg (by rw [h.2]; simp)]
    exact ⟨s, rfl, rfl, rfl⟩
  · rw [if_neg h1]
    split_ifs
    · exact ⟨{ s with head_node := some x }, rfl, rfl, rfl⟩
    · exact ⟨s, rfl, rfl, rfl⟩

theorem try_pair_flag (s : NodeTable) (x y z : Nat) :
    ((try_pair s x y).node z).starts =
      ((s.node z).starts || (decide (z = y) &&
        (!pair_linked (s.node x).number (s.node y).number &&
          decide ((s.node y).number.c % 2 = 0)))) := by
  cases hl : pair_linked (s.node x).number (s.node y).number with
  | false =>
    obtain ⟨s0, e1, _, e3⟩ := try_pair_unlinked s x y hl
    rw [e3, try_pair_starts_flag, e1]
    simp
  | true =>
    simp only [Bool.not_true, Bool.false_and, Bool.and_false, Bool.or_false]
    unfold pair_linked agree at hl
    simp only [Bool.and_eq_true, decide_eq_true_eq, Bool.or_eq_true] at hl
    unfold try_pair
    simp only []
    rw [if_pos hl.1]
    split_ifs
    · rw [modify_keep (fun nd => nd.starts) _ _ (fun nd => { nd with to_ := some x }) _
          (fun _ => rfl),
        modify_keep (fun nd => nd.starts) _ _ (fun nd => { nd with next := some y }) _
          (fun _ => rfl)]
    · rw [modify_keep (fun nd => nd.starts) _ _ (fun nd => { nd with to_ := some y }) _
          (fun _ => rfl),
        modify_keep (fun nd => nd.starts) _ _ (fun nd => { nd with next := some y }) _
          (fun _ => rfl)]
    · exfalso
      rcases hl.2 with h2 | h2
      · contradiction
      · contradiction

theorem try_pair_starts_next (t : NodeTable) (b z : Nat)
    (h : (t.node b).number.c ≤ (t.node z).number.c) (h1 : 1 ≤ (t.node z).number.c) :
    ((try_pair_starts t b).node z).next = (t.node z).next := by
  unfold try_pair_starts
  split_ifs
  · simp only []
    split
    · rename_i p hp
      have hn : ∀ q, ((t.modify b (fun nd => { nd with starts := true })).node q).number
          = (t.node q).number := fun q => modify_number t b _ q (fun _ => rfl)
      have hd := bucket_find_depth hp
      simp only [hn] at hd
      have hpz : z ≠ p := by
        intro e
        rw [← e] at hd
        omega
      rw [modify_other _ _ _ _ hpz,
        modify_keep (fun nd => nd.next) _ _ (fun nd => { nd with starts := true }) _
          (fun _ => rfl)]
    · rw [modify_keep (fun nd => nd.next) _ _ (fun nd => { nd with starts := true }) _
        (fun _ => rfl)]
  · rfl

theorem try_pair_next_frame (s : NodeTable) (x y z : Nat) (hx : z ≠ x)
    (h : (s.node y).number.c ≤ (s.node z).number.c) (h1 : 1 ≤ (s.node z).number.c) :
    ((try_pair s x y).node z).next = (s.node z).next := by
  cases hl : pair_linked (s.node x).number (s.node y).number with
  | false =>
    obtain ⟨s0, e1, _, e3⟩ := try_pair_unlinked s x y hl
    rw [e3, try_pair_starts_next s0 y z (by rw [e1]; exact h) (by rw [e1]; exact h1), e1]
  | true =>
    unfold pair_linked agree at hl
    simp only [Bool.and_eq_true, decide_eq_true_eq, Bool.or_eq_true] at hl
    unfold try_pair
    simp only []
    rw [if_pos hl.1]
    split_ifs
    · rw [modify_keep (fun nd => nd.next) _ _ (fun nd => { nd with to_ := some x }) _
          (fun _ => rfl), modify_other _ _ _ _ hx]
    · rw [modify_keep (fun nd => nd.next) _ _ (fun nd => { nd with to_ := some y }) _
          (fun _ => rfl), modify_other _ _ _ _ hx]
    · exfalso
      rcases hl.2 with h2 | h2
      · contradiction
      · contradiction

theorem try_pair_to_frame (s : NodeTable) (x y z : Nat) (hx : z ≠ x)
    (hy : z ≠ y ∨ (s.node y).number.c ≠ 2) :
    ((try_pair s x y).node z).to_ = (s.node z).to_ := by
  cases hl : pair_linked (s.node x).number (s.node y).number with
  | false =>
    obtain ⟨s0, e1, _, e3⟩ := try_pair_unlinked s x y hl
    rw [e3, try_pair_starts_keep (fun nd => nd.to_) s0 y z (fun _ => rfl) (fun _ _ => rfl), e1]
  | true =>
    unfold pair_linked agree at hl
    simp only [Bool.and_eq_true, decide_eq_true_eq, Bool.or_eq_true] at hl
    unfold try_pair
    simp only []
    rw [if_pos hl.1]
    split_ifs with h2 h3
    · have hzy : z ≠ y := by
        rcases hy with h | h
        · exact h
        · exact absurd (hl.1 ▸ h2) h
      rw [modify_other _ _ _ _ hzy,
        modify_keep (fun nd => nd.to_) _ _ (fun nd => { nd with next := some y }) _
          (fun _ => rfl)]
    · rw [modify_other _ _ _ _ hx, modify_other _ _ _ _ hx]
    · exfalso
      rcases hl.2 with h4 | h4
      · contradiction
      · contradiction

theorem try_pair_link2 (s : NodeTable) (x y : Nat)
    (hc : (s.node x).number.c = (s.node y).number.c) (h2 : (s.node x).number.c = 2)
    (hxy : x ≠ y) :
    ((try_pair s x y).node x).next = some y ∧ ((try_pair s x y).node y).to_ = some x := by
  unfold try_pair
  simp only []
  rw [if_pos hc, if_pos h2]
  constructor
  · rw [modify_other _ _ _ _ hxy, modify_node_self]
  · rw [modify_node_self]

theorem try_pair_linkN (s : NodeTable) (x y : Nat)
    (hc : (s.node x).number.c = (s.node y).number.c) (h2 : (s.node x).number.c ≠ 2)
    (ha : agree ((s.node x).number.c - 1) (s.node x).number (s.node y).number = true) :
    ((try_pair s x y).node x).next = some y ∧ ((try_pair s x y).node x).to_ = some y := by
  unfold agree at ha
  unfold try_pair
  simp only []
  rw [if_pos hc, if_neg h2, if_pos ha]
  constructor
  · rw [modify_node_self, modify_node_self]
  · rw [modify_node_self]

/-- The first loop links two adjacent entries of the same depth, and no later round of the
loop, which is one on an earlier pair, writes these links again. -/
theorem pair_loop_links (t : NodeTable) (a b : Nat) (post : List Nat) :
    ∀ pre : List Nat, (pre ++ a :: b :: post).Nodup →
      (pre ++ a :: b :: post).Pairwise
        (fun x y => (t.node x).number.c ≤ (t.node y).number.c) →
      1 ≤ (t.node a).number.c →
      (t.node a).number.c = (t.node b).number.c →
      ((t.node a).number.c = 2 →
        ((pair_loop (pre ++ a :: b :: post) t).node a).next = some b ∧
        ((pair_loop (pre ++ a :: b :: post) t).node b).to_ = some a) ∧
      ((t.node a).number.c ≠ 2 →
        agree ((t.node a).number.c - 1) (t.node a).number (t.node b).number = true →
        ((pair_loop (pre ++ a :: b :: post) t).node a).next = some b ∧
        ((pair_loop (pre ++ a :: b :: post) t).node a).to_ = some b) := by
  intro pre
  induction pre with
  | nil =>
    intro hnd _ _ hc
    have hab : a ≠ b := by
      intro e
      simp [e] at hnd
    simp only [List.nil_append, pair_loop_cons]
    constructor
    · intro h2
      exact try_pair_link2 _ a b (by rw [pair_loop_num, pair_loop_num]; exact hc)
        (by rw [pair_loop_num]; exact h2) hab
    · intro h2 ha
      exact try_pair_linkN _ a b (by rw [pair_loop_num, pair_loop_num]; exact hc)
        (by rw [pair_loop_num]; exact h2) (by rw [pair_loop_num, pair_loop_num]; exact ha)
  | cons x pre ih =>
    intro hnd hsort h1 hc
    have hnd' := (List.nodup_cons.mp hnd).2
    have hx := (List.nodup_cons.mp hnd).1
    have hsort' := (List.pairwise_cons.mp hsort).2
    have hxa : a ≠ x := by
      intro e
      exact hx (by rw [← e]; simp)
    have hxb : b ≠ x := by
      intro e
      exact hx (by rw [← e]; simp)
    obtain ⟨ih2, ihN⟩ := ih hnd' hsort' h1 hc
    -- the head of the rest of the array
    obtain ⟨y, r, hL, hya, hyb⟩ : ∃ y r, pre ++ a :: b :: post = y :: r ∧
        (t.node y).number.c ≤ (t.node a).number.c ∧ b ≠ y := by
      cases pre with
      | nil =>
        refine ⟨a, b :: post, rfl, le_refl _, ?_⟩
        intro e
        simp [e] at hnd'
      | cons y pre' =>
        refine ⟨y, pre' ++ a :: b :: post, rfl, ?_, ?_⟩
        · exact (List.pairwise_cons.mp hsort').1 a (by simp)
        · intro e
          have := (List.nodup_cons.mp hnd').1
          exact this (by rw [← e]; simp)
    rw [List.cons_append, hL, pair_loop_cons]
    rw [hL] at ih2 ihN
    have hnext : ((try_pair (pair_loop (y :: r) t) x y).node a).next
        = ((pair_loop (y :: r) t).node a).next :=
      try_pair_next_frame _ x y a hxa (by rw [pair_loop_num, pair_loop_num]; exact hya)
        (by rw [pair_loop_num]; exact h1)
    constructor
    · intro h2
      rw [hnext, try_pair_to_frame _ x y b hxb (Or.inl hyb)]
      exact ih2 h2
    · intro h2 ha
      rw [hnext, try_pair_to_frame _ x y a hxa (by
        by_cases e : a = y
        · right
          rw [pair_loop_num, ← e]
          exact h2
        · exact Or.inl e)]
      exact ihN h2 ha

theorem link_down_keep {α : Type} (π : Node → α) (t : NodeTable) (a z : Nat)
    (h1 : ∀ nd o, π { nd with sib := o } = π nd)
    (h2 : ∀ nd x, π { nd with down := some x } = π nd) :
    π ((link_down t a).node z) = π (t.node z) := by
  unfold link_down
  split_ifs
  · split
    · rfl
    · rename_i b _
      simp only []
      rw [modify_keep π _ _ _ _ (fun nd => h2 nd a),
        modify_keep π _ _ _ _ (fun nd => h1 nd (t.node b).down)]
  · rfl

theorem down_loop_keep {α : Type} (π : Node → α) (v : List Nat) (t : NodeTable) (z : Nat)
    (h1 : ∀ nd o, π { nd with sib := o } = π nd)
    (h2 : ∀ nd x, π { nd with down := some x } = π nd) :
    π ((down_loop v t).node z) = π (t.node z) := by
  unfold down_loop
  induction v with
  | nil => rfl
  | cons a v ih => rw [List.foldr_cons, link_down_keep π _ a z h1 h2]; exact ih

theorem NodeTable.WF.depth_pos {t : NodeTable} (hw : t.WF) {a : Nat} (ha : a ∈ all_nodes t) :
    1 ≤ (t.node a).number.c := by
  obtain ⟨h, _, hh⟩ := (mem_all_nodes t a).mp ha
  exact (hw.1 h a hh).2.2.2

/-- C22: after `build_branches` on a freshly populated table, with the C library sort
returning the nodes as a permutation in the order of `compare`, for two nodes `a`, `b`
that are adjacent in the sorted array and have the same depth `c`: `a` sorts strictly
before `b`; if `c = 2` then `a.next = b` and `b.to = a`; if `c > 2` and the two agree on
their first `c-1` components then `a.next = b` and `a.to = b`.  The links hold after the
round of the first loop on the pair, after every later round of that loop, after every
round of the second loop, and so when `build_branches` returns. -/
theorem build_branches_links (qsort : (Nat → Nat → Int) → List Nat → List Nat)
    (ns : List cvs_number) (t : NodeTable) (v pre post : List Nat) (a b : Nat)
    (ht : t = intern_all ns) (hns : ∀ m ∈ ns, 1 ≤ m.c)
    (hv : v = qsort (fun a b => compare (t.node a).number (t.node b).number) (all_nodes t))
    (hperm : v.Perm (all_nodes t))
    (hsorted : v.Pairwise (fun a b => compare (t.node a).number (t.node b).number ≤ 0))
    (hsplit : v = pre ++ a :: b :: post)
    (hc : (t.node a).number.c = (t.node b).number.c) :
    compare (t.node a).number (t.node b).number < 0 ∧
    build_branches qsort t = down_loop v (pair_loop v (trunk_if_last v t)) ∧
    ∀ s : NodeTable,
      ((∃ j, j ≤ pre.length ∧ s = pair_loop (v.drop j) (trunk_if_last v t)) ∨
       (∃ k, s = down_loop (v.drop k) (pair_loop v (trunk_if_last v t))) ∨
       s = build_branches qsort t) →
      ((t.node a).number.c = 2 → (s.node a).next = some b ∧ (s.node b).to_ = some a) ∧
      (2 < (t.node a).number.c →
        agree ((t.node a).number.c - 1) (t.node a).number (t.node b).number = true →
        (s.node a).next = some b ∧ (s.node a).to_ = some b) := by
  have hw : t.WF := ht ▸ intern_all_WF ns hns
  have hav : a ∈ v := by rw [hsplit]; simp
  have hbv : b ∈ v := by rw [hsplit]; simp
  have hat : a ∈ all_nodes t := hperm.mem_iff.mp hav
  have hbt : b ∈ all_nodes t := hperm.mem_iff.mp hbv
  have hne : t.nentries ≠ 0 := by
    rw [hw.2.2.2]
    exact Nat.ne_of_gt (List.length_pos_of_mem hat)
  have hnd : v.Nodup := hperm.nodup_iff.mpr hw.nodup_all_nodes
  have hab : a ≠ b := by
    intro e
    rw [hsplit, e] at hnd
    have := (List.nodup_append.mp hnd).2.1
    simp at this
  have hbuild : build_branches qsort t = down_loop v (pair_loop v (trunk_if_last v t)) := by
    rw [build_branches_loops qsort t hne, ← hv]
  have hlt : compare (t.node a).number (t.node b).number < 0 := by
    have hle : compare (t.node a).number (t.node b).number ≤ 0 := by
      rw [hsplit] at hsorted
      have := (List.pairwise_append.mp hsorted).2.1
      exact (List.pairwise_cons.mp this).1 b (List.mem_cons_self _ _)
    rcases lt_or_eq_of_le hle with h | h
    · exact h
    · exfalso
      obtain ⟨h1, _, ha'⟩ := (mem_all_nodes t a).mp hat
      obtain ⟨h2, _, hb'⟩ := (mem_all_nodes t b).mp hbt
      exact hab (hw.2.2.1 h1 h2 a b ha' hb' (compare_eq_zero h))
  have hdepth : v.Pairwise (fun x y =>
      ((trunk_if_last v t).node x).number.c ≤ ((trunk_if_last v t).node y).number.c) := by
    rw [trunk_if_last_node]
    exact hsorted.imp (fun h => compare_le_depth h)
  -- the links after the first loop has come down to the pair at index `j`
  have hloop : ∀ j, j ≤ pre.length →
      ((t.node a).number.c = 2 →
        ((pair_loop (v.drop j) (trunk_if_last v t)).node a).next = some b ∧
        ((pair_loop (v.drop j) (trunk_if_last v t)).node b).to_ = some a) ∧
      ((t.node a).number.c ≠ 2 →
        agree ((t.node a).number.c - 1) (t.node a).number (t.node b).number = true →
        ((pair_loop (v.drop j) (trunk_if_last v t)).node a).next = some b ∧
        ((pair_loop (v.drop j) (trunk_if_last v t)).node a).to_ = some b) := by
    intro j hj
    have hdrop : v.drop j = pre.drop j ++ a :: b :: post := by
      rw [hsplit, List.drop_append_of_le_length hj]
    have := pair_loop_links (trunk_if_last v t) a b post (pre.drop j)
      (by rw [← hdrop]; exact hnd.sublist (List.drop_sublist _ _))
      (by rw [← hdrop]; exact hdepth.sublist (List.drop_sublist _ _))
      (by rw [trunk_if_last_node]; exact hw.depth_pos hat)
      (by rw [trunk_if_last_node]; exact hc)
    rw [trunk_if_last_node, ← hdrop] at this
    exact this
  have hdown : ∀ k,
      ((t.node a).number.c = 2 →
        ((down_loop (v.drop k) (pair_loop v (trunk_if_last v t))).node a).next = some b ∧
        ((down_loop (v.drop k) (pair_loop v (trunk_if_last v t))).node b).to_ = some a) ∧
      ((t.node a).number.c ≠ 2 →
        agree ((t.node a).number.c - 1) (t.node a).number (t.node b).number = true →
        ((down_loop (v.drop k) (pair_loop v (trunk_if_last v t))).node a).next = some b ∧
        ((down_loop (v.drop k) (pair_loop v (trunk_if_last v t))).node a).to_ = some b) := by
    intro k
    have h0 := hloop 0 (Nat.zero_le _)
    rw [List.drop_zero] at h0
    rw [down_loop_keep (fun nd => nd.next) _ _ a (fun _ _ => rfl) (fun _ _ => rfl),
      down_loop_keep (fun nd => nd.to_) _ _ a (fun _ _ => rfl) (fun _ _ => rfl),
      down_loop_keep (fun nd => nd.to_) _ _ b (fun _ _ => rfl) (fun _ _ => rfl)]
    exact h0
  refine ⟨hlt, hbuild, ?_⟩
  intro s hs
  have key : ((t.node a).number.c = 2 → (s.node a).next = some b ∧ (s.node b).to_ = some a) ∧
      ((t.node a).number.c ≠ 2 →
        agree ((t.node a).number.c - 1) (t.node a).number (t.node b).number = true →
        (s.node a).next = some b ∧ (s.node a).to_ = some b) := by
    rcases hs with ⟨j, hj, e⟩ | ⟨k, e⟩ | e
    · rw [e]; exact hloop j hj
    · rw [e]; exact hdown k
    · rw [e, hbuild]
      have := hdown 0
      rw [List.drop_zero] at this
      exact this
  exact ⟨key.1, fun h2 ha => key.2 (by omega) ha⟩
/-- C22 at the table that holds 1.1, 1.2, 1.2.2.1 and 1.2.2.2, whose chains are already in
the order of `compare`: the trunk pair is linked by `next` and, backwards, by `to`, the
pair on the branch by `next` and `to` forwards. -/
theorem build_branches_links_witness :
    all_nodes (intern_all [rev_1_1, rev_1_2, rev_1_2_2_1, rev_1_2_2_2]) = [0, 1, 2, 3] ∧
    (((build_branches (fun _ l => l)
        (intern_all [rev_1_1, rev_1_2, rev_1_2_2_1, rev_1_2_2_2])).node 0).next = some 1 ∧
     ((build_branches (fun _ l => l)
        (intern_all [rev_1_1, rev_1_2, rev_1_2_2_1, rev_1_2_2_2])).node 1).to_ = some 0) ∧
    (((build_branches (fun _ l => l)
        (intern_all [rev_1_1, rev_1_2, rev_1_2_2_1, rev_1_2_2_2])).node 2).next = some 3 ∧
     ((build_branches (fun _ l => l)
        (intern_all [rev_1_1, rev_1_2, rev_1_2_2_1, rev_1_2_2_2])).node 2).to_ = some 3) :=
  have hall : all_nodes (intern_all [rev_1_1, rev_1_2, rev_1_2_2_1, rev_1_2_2_2])
      = [0, 1, 2, 3] := by decide!
  ⟨hall,
   ((build_branches_links (fun _ l => l) [rev_1_1, rev_1_2, rev_1_2_2_1, rev_1_2_2_2] _
      [0, 1, 2, 3] [] [2, 3] 0 1 rfl (by decide) hall.symm (by rw [hall]) (by decide) rfl
      (by decide)).2.2 _ (Or.inr (Or.inr rfl))).1 (by decide),
   ((build_branches_links (fun _ l => l) [rev_1_1, rev_1_2, rev_1_2_2_1, rev_1_2_2_2] _
      [0, 1, 2, 3] [0, 1] [] 2 3 rfl (by decide) hall.symm (by rw [hall]) (by decide) rfl
      (by decide)).2.2 _ (Or.inr (Or.inr rfl))).2 (by decide) (by decide)⟩
/-! ## Branch building: branch starts and the lists of child branches -/

theorem intern_all_fresh (ns : List cvs_number) :
    ∀ x, ∃ key, (intern_all ns).node x = Node.fresh key := by
  induction ns using List.reverseRecOn with
  | nil => intro x; exact ⟨_, rfl⟩
  | append_singleton l n ih =>
    intro x
    rw [intern_all_snoc]
    unfold hash_number
    split
    · exact ih x
    · simp only [NodeTable.alloc]
      by_cases e : x = (intern_all l).brk
      · subst e
        exact ⟨_, Function.update_same _ _ _⟩
      · rw [Function.update_noteq e]
        exact ih x

theorem pair_loop_flag_out (t : NodeTable) :
    ∀ (w : List Nat) (z : Nat), z ∉ w.tail →
      ((pair_loop w t).node z).starts = (t.node z).starts := by
  intro w
  induction w with
  | nil => intro z _; rfl
  | cons x w ih =>
    intro z hz
    cases w with
    | nil => rfl
    | cons y r =>
      simp only [List.tail_cons, List.mem_cons, not_or] at hz
      rw [pair_loop_cons, try_pair_flag, ih z (by simpa using hz.2)]
      simp [hz.1]

/-- The flag `starts` of an entry after the first loop: it is set in the round on the
entry and the one before it, when `try_pair` does not link the two and the entry has an
even depth. -/
theorem pair_loop_flag (t : NodeTable) (a b : Nat) (post : List Nat) :
    ∀ pre : List Nat, (pre ++ a :: b :: post).Nodup →
      ((pair_loop (pre ++ a :: b :: post) t).node b).starts =
        ((t.node b).starts || (!pair_linked (t.node a).number (t.node b).number &&
          decide ((t.node b).number.c % 2 = 0))) := by
  intro pre
  induction pre with
  | nil =>
    intro hnd
    have hb : b ∉ post := by
      simp only [List.nil_append, List.nodup_cons] at hnd
      exact hnd.2.1
    rw [List.nil_append, pair_loop_cons, try_pair_flag, pair_loop_num, pair_loop_num,
      pair_loop_flag_out t (b :: post) b hb]
    simp
  | cons x pre ih =>
    intro hnd
    have hnd' := (List.nodup_cons.mp hnd).2
    obtain ⟨y, r, hL, hyb⟩ : ∃ y r, pre ++ a :: b :: post = y :: r ∧ b ≠ y := by
      cases pre with
      | nil =>
        refine ⟨a, b :: post, rfl, ?_⟩
        intro e
        simp [e] at hnd'
      | cons y pre' =>
        refine ⟨y, pre' ++ a :: b :: post, rfl, ?_⟩
        intro e
        have := (List.nodup_cons.mp hnd').1
        exact this (by rw [← e]; simp)
    have ih' := ih hnd'
    rw [List.cons_append, hL, pair_loop_cons, try_pair_flag]
    rw [hL] at ih'
    rw [ih']
    simp [hyb]

theorem sib_chain_congr (s s' : NodeTable) :
    ∀ (l : List Nat) (first : Option Nat), (∀ x ∈ l, (s.node x).sib = (s'.node x).sib) →
      sib_chain s' first l → sib_chain s first l := by
  intro l
  induction l with
  | nil => intro first _ h; exact h
  | cons a l ih =>
    intro first hs h
    refine ⟨h.1, ?_⟩
    rw [hs a (List.mem_cons_self _ _)]
    exact ih _ (fun x hx => hs x (List.mem_cons_of_mem _ hx)) h.2

/-- Reading the list through `sib` gives the chain, as far as the fuel goes; with more
fuel than nodes the reading ends at the node without `sib`. -/
theorem sib_list_of_chain (s : NodeTable) :
    ∀ (l : List Nat) (first : Option Nat), sib_chain s first l →
      ∀ fuel, sib_list s fuel first = l.take fuel := by
  intro l
  induction l with
  | nil =>
    intro first h fuel
    have : first = none := h
    subst this
    cases fuel <;> rfl
  | cons a l ih =>
    intro first h fuel
    obtain ⟨h1, h2⟩ := h
    subst h1
    cases fuel with
    | zero => rfl
    | succ fuel =>
      simp only [sib_list, List.take_succ_cons]
      rw [ih _ h2 fuel]

theorem link_down_flag (t : NodeTable) (a z : Nat) :
    ((link_down t a).node z).starts = (t.node z).starts :=
  link_down_keep (fun nd => nd.starts) t a z (fun _ _ => rfl) (fun _ _ => rfl)

/-- The second loop over the entries `w`: afterwards the list `down`, `sib`, `sib`, ... of
every node `p` holds the entries of `w` that have `starts` set and for which `find_parent`
with depth 2 gives `p`, in the order of `w`. -/
theorem down_loop_chain (s2 : NodeTable) (hdown : ∀ x, (s2.node x).down = none) :
    ∀ w : List Nat, w.Nodup → (∀ a ∈ w, 1 ≤ (s2.node a).number.c) →
      ∀ p, sib_chain (down_loop w s2) ((down_loop w s2).node p).down
        (w.filter (fun a => (s2.node a).starts &&
          decide (find_parent s2 (s2.node a).number 2 = some p))) := by
  intro w
  induction w with
  | nil => intro _ _ p; exact hdown p
  | cons a w ih =>
    intro hnd hpos p
    have hnd' := (List.nodup_cons.mp hnd).2
    have haw := (List.nodup_cons.mp hnd).1
    have ih' := ih hnd' (fun x hx => hpos x (List.mem_cons_of_mem _ hx))
    have hstep : down_loop (a :: w) s2 = link_down (down_loop w s2) a := rfl
    have hst : ((down_loop w s2).node a).starts = (s2.node a).starts :=
      down_loop_keep (fun nd => nd.starts) w s2 a (fun _ _ => rfl) (fun _ _ => rfl)
    have hfp : find_parent (down_loop w s2) ((down_loop w s2).node a).number 2
        = find_parent s2 (s2.node a).number 2 := by
      unfold find_parent
      rw [down_loop_num]
      exact bucket_find_congr s2 _ _ (down_loop_table w s2) (down_loop_num w s2)
    rw [hstep, List.filter_cons]
    generalize hs' : down_loop w s2 = s' at ih' hst hfp
    unfold link_down
    rw [hst, hfp]
    cases hstart : (s2.node a).starts with
    | false =>
      simp only [Bool.false_eq_true, if_false, Bool.false_and]
      exact ih' p
    | true =>
      simp only [if_true, Bool.true_and]
      cases hfind : find_parent s2 (s2.node a).number 2 with
      | none =>
        simp only [decide_False, Bool.false_eq_true, if_false]
        exact ih' p
      | some b =>
        simp only [Option.some.injEq]
        have hab : a ≠ b := by
          intro e
          have hd := bucket_find_depth hfind
          rw [← e] at hd
          simp only [] at hd
          have := hpos a (List.mem_cons_self _ _)
          omega
        have hsib : ∀ x, x ≠ a →
            ((((s'.modify a (fun nd => { nd with sib := (s'.node b).down })).modify b
              (fun nd => { nd with down := some a })).node x).sib) = (s'.node x).sib := by
          intro x hx
          rw [modify_keep (fun nd => nd.sib) _ _ (fun nd => { nd with down := some a }) _
            (fun _ => rfl), modify_other _ _ _ _ hx]
        have hkeep : ∀ (l : List Nat) (first : Option Nat), (∀ x ∈ l, x ∈ w) →
            sib_chain s' first l →
            sib_chain ((s'.modify a (fun nd => { nd with sib := (s'.node b).down })).modify b
              (fun nd => { nd with down := some a })) first l := by
          intro l first hl h
          refine sib_chain_congr _ s' l first ?_ h
          intro x hx
          exact hsib x (fun e => haw (e ▸ hl x hx))
        by_cases hpb : b = p
        · subst hpb
          simp only [decide_True, if_true]
          rw [modify_node_self]
          refine ⟨rfl, ?_⟩
          have ha_sib : ((((s'.modify a (fun nd => { nd with sib := (s'.node b).down })).modify b
              (fun nd => { nd with down := some a })).node a).sib) = (s'.node b).down := by
            rw [modify_other _ _ _ _ hab, modify_node_self]
          rw [ha_sib]
          exact hkeep _ _ (fun x hx => List.mem_of_mem_filter hx) (ih' b)
        · simp only [hpb, decide_False, Bool.false_eq_true, if_false]
          have hpd : ((((s'.modify a (fun nd => { nd with sib := (s'.node b).down })).modify b
              (fun nd => { nd with down := some a })).node p).down) = (s'.node p).down := by
            rw [modify_other _ _ _ _ (fun e => hpb e.symm),
              modify_keep (fun nd => nd.down) _ _
                (fun nd => { nd with sib := (s'.node b).down }) _ (fun _ => rfl)]
          rw [hpd]
          exact hkeep _ _ (fun x hx => List.mem_of_mem_filter hx) (ih' p)

theorem pair_loop_keep {α : Type} (π : Node → α) (v : List Nat) (t : NodeTable) (z : Nat)
    (h1 : ∀ nd, π { nd with starts := true } = π nd)
    (h2 : ∀ nd x, π { nd with next := some x } = π nd)
    (h3 : ∀ nd x, π { nd with to_ := some x } = π nd) :
    π ((pair_loop v t).node z) = π (t.node z) := by
  induction v with
  | nil => rfl
  | cons a v ih =>
    cases v with
    | nil => rfl
    | cons b r => rw [pair_loop_cons, try_pair_keep π _ a b z h1 h2 h3]; exact ih

theorem mem_first_or_after {v : List Nat} {a : Nat} (h : a ∈ v) :
    (∃ post, v = a :: post) ∨ ∃ pre x post, v = pre ++ x :: a :: post := by
  obtain ⟨s, r, e⟩ := List.append_of_mem h
  rcases List.eq_nil_or_concat s with h0 | ⟨s', x, hs⟩
  · left
    exact ⟨r, by rw [e, h0]; rfl⟩
  · right
    refine ⟨s', x, r, ?_⟩
    rw [e, hs]
    simp

theorem agree_iff (k : Nat) (x y : cvs_number) :
    agree k x y = true ↔ ∀ i, i < k → x.n i = y.n i := by
  simp [agree]

/-- C23, amended: after `build_branches` on a freshly populated table without a node of
depth 1 and with a node of depth 2, with the C library sort returning the nodes as a
permutation `v` in the order of `compare`.  The first entry of `v` has depth 2 and not
`starts`; an entry `b` with the entry `a` before it has `starts` set exactly when its depth
is even and greater than 2 and `a` is not a node of the same depth with the same first
`c-1` components.  For every node `p` the list `p.down`, `.sib`, `.sib`, ... is the list
of the entries of `v`, in the order of `v`, that have `starts` set and whose number
without its last two components is the number of `p` (read with `fuel`, its first `fuel`
nodes); `v` is in strictly ascending order; and a node with `starts` set whose number
without its last two components is not interned is on no such list. -/
theorem build_branches_starts (qsort : (Nat → Nat → Int) → List Nat → List Nat)
    (ns : List cvs_number) (t : NodeTable) (v : List Nat)
    (ht : t = intern_all ns) (hns : ∀ m ∈ ns, 1 ≤ m.c)
    (hv : v = qsort (fun a b => compare (t.node a).number (t.node b).number) (all_nodes t))
    (hperm : v.Perm (all_nodes t))
    (hsorted : v.Pairwise (fun a b => compare (t.node a).number (t.node b).number ≤ 0))
    (hno1 : ∀ x ∈ all_nodes t, (t.node x).number.c ≠ 1)
    (h2 : ∃ x ∈ all_nodes t, (t.node x).number.c = 2) :
    (∀ b post, v = b :: post →
      ((build_branches qsort t).node b).starts = false ∧ (t.node b).number.c = 2) ∧
    (∀ pre a b post, v = pre ++ a :: b :: post →
      (((build_branches qsort t).node b).starts = true ↔
        (t.node b).number.c % 2 = 0 ∧ 2 < (t.node b).number.c ∧
        ¬ ((t.node a).number.c = (t.node b).number.c ∧
           agree ((t.node b).number.c - 1) (t.node a).number (t.node b).number = true))) ∧
    (∀ p ∈ all_nodes t, ∀ fuel,
      down_list (build_branches qsort t) fuel p =
        (v.filter (fun a => ((build_branches qsort t).node a).starts &&
          same_number (t.node p).number
            ⟨(t.node a).number.c - 2, (t.node a).number.n⟩)).take fuel) ∧
    v.Pairwise (fun a b => compare (t.node a).number (t.node b).number < 0) ∧
    (∀ a ∈ all_nodes t, ((build_branches qsort t).node a).starts = true →
      (∀ q ∈ all_nodes t, same_number (t.node q).number
        ⟨(t.node a).number.c - 2, (t.node a).number.n⟩ = false) →
      ∀ p ∈ all_nodes t, ∀ fuel, a ∉ down_list (build_branches qsort t) fuel p) := by
  have hw : t.WF := ht ▸ intern_all_WF ns hns
  obtain ⟨x2, hx2, hx2c⟩ := h2
  have hne : t.nentries ≠ 0 := by
    rw [hw.2.2.2]
    exact Nat.ne_of_gt (List.length_pos_of_mem hx2)
  have hnd : v.Nodup := hperm.nodup_iff.mpr hw.nodup_all_nodes
  have hbuild : build_branches qsort t = down_loop v (pair_loop v (trunk_if_last v t)) := by
    rw [build_branches_loops qsort t hne, ← hv]
  have hfresh : ∀ x, (t.node x).starts = false ∧ (t.node x).down = none := by
    intro x
    obtain ⟨key, hk⟩ := (ht ▸ intern_all_fresh ns x : ∃ key, t.node x = Node.fresh key)
    rw [hk]
    exact ⟨rfl, rfl⟩
  have hdepth2 : ∀ x ∈ v, 2 ≤ (t.node x).number.c := by
    intro x hx
    have h1 := hw.depth_pos (hperm.mem_iff.mp hx)
    have h3 := hno1 x (hperm.mem_iff.mp hx)
    omega
  -- the flag after the first loop is the flag at the end
  have hflag : ∀ z, ((build_branches qsort t).node z).starts
      = ((pair_loop v (trunk_if_last v t)).node z).starts := by
    intro z
    rw [hbuild]
    exact down_loop_keep (fun nd => nd.starts) v _ z (fun _ _ => rfl) (fun _ _ => rfl)
  have hfirst : ∀ b post, v = b :: post →
      ((build_branches qsort t).node b).starts = false ∧ (t.node b).number.c = 2 := by
    intro b post e
    constructor
    · rw [hflag, pair_loop_flag_out _ v b (by
        rw [e, List.tail_cons]
        rw [e] at hnd
        exact (List.nodup_cons.mp hnd).1), trunk_if_last_node]
      exact (hfresh b).1
    · have hb := hdepth2 b (by rw [e]; exact List.mem_cons_self _ _)
      have hx2v : x2 ∈ v := hperm.mem_iff.mpr hx2
      rw [e] at hx2v hsorted
      rcases List.mem_cons.mp hx2v with h | h
      · rw [← h]; exact hx2c
      · have := compare_le_depth ((List.pairwise_cons.mp hsorted).1 x2 h)
        omega
  have hafter : ∀ pre a b post, v = pre ++ a :: b :: post →
      (((build_branches qsort t).node b).starts = true ↔
        (t.node b).number.c % 2 = 0 ∧ 2 < (t.node b).number.c ∧
        ¬ ((t.node a).number.c = (t.node b).number.c ∧
           agree ((t.node b).number.c - 1) (t.node a).number (t.node b).number = true)) := by
    intro pre a b post e
    have ha2 := hdepth2 a (by rw [e]; simp)
    have hab : (t.node a).number.c ≤ (t.node b).number.c := by
      rw [e] at hsorted
      have := (List.pairwise_append.mp hsorted).2.1
      exact compare_le_depth ((List.pairwise_cons.mp this).1 b (List.mem_cons_self _ _))
    rw [hflag]
    have := pair_loop_flag (trunk_if_last v t) a b post pre (by rw [← e]; exact hnd)
    rw [← e, trunk_if_last_node, (hfresh b).1] at this
    rw [this]
    unfold pair_linked
    simp only [Bool.false_or, Bool.and_eq_true, Bool.not_eq_true', Bool.and_eq_false_iff,
      Bool.or_eq_false_iff, decide_eq_true_eq, decide_eq_false_iff_not]
    constructor
    · rintro ⟨hl, he⟩
      refine ⟨he, ?_, ?_⟩
      · rcases hl with h | ⟨h, _⟩
        · omega
        · omega
      · rintro ⟨hc, hag⟩
        rcases hl with h | ⟨_, h⟩
        · exact h hc
        · rw [hc, hag] at h
          exact absurd h (by simp)
    · rintro ⟨he, hgt, hnot⟩
      refine ⟨?_, he⟩
      by_cases hc : (t.node a).number.c = (t.node b).number.c
      · right
        refine ⟨by omega, ?_⟩
        rw [hc]
        cases hag : agree ((t.node b).number.c - 1) (t.node a).number (t.node b).number with
        | false => rfl
        | true => exact absurd ⟨hc, hag⟩ hnot
      · exact Or.inl hc
  have hdeep : ∀ a ∈ v, ((build_branches qsort t).node a).starts = true →
      2 < (t.node a).number.c := by
    intro a ha hs
    rcases mem_first_or_after ha with ⟨post, e⟩ | ⟨pre, x, post, e⟩
    · rw [(hfirst a post e).1] at hs
      exact absurd hs (by simp)
    · exact ((hafter pre x a post e).mp hs).2.1
  have hstrict : v.Pairwise (fun a b => compare (t.node a).number (t.node b).number < 0) := by
    refine (hsorted.and hnd).imp_of_mem ?_
    intro a b ha hb h
    rcases lt_or_eq_of_le h.1 with h1 | h1
    · exact h1
    · exfalso
      obtain ⟨k1, _, ha'⟩ := (mem_all_nodes t a).mp (hperm.mem_iff.mp ha)
      obtain ⟨k2, _, hb'⟩ := (mem_all_nodes t b).mp (hperm.mem_iff.mp hb)
      exact h.2 (hw.2.2.1 k1 k2 a b ha' hb' (compare_eq_zero h1))
  -- the lists of child branches
  have hs2num : ∀ x, ((pair_loop v (trunk_if_last v t)).node x).number = (t.node x).number := by
    intro x
    rw [pair_loop_num, trunk_if_last_node]
  have hs2tab : (pair_loop v (trunk_if_last v t)).table = t.table := by
    rw [pair_loop_table, trunk_if_last_table]
  have hlist : ∀ p ∈ all_nodes t, ∀ fuel,
      down_list (build_branches qsort t) fuel p =
        (v.filter (fun a => ((build_branches qsort t).node a).starts &&
          same_number (t.node p).number
            ⟨(t.node a).number.c - 2, (t.node a).number.n⟩)).take fuel := by
    intro p hp fuel
    have hchain := down_loop_chain (pair_loop v (trunk_if_last v t))
      (by
        intro x
        rw [pair_loop_keep (fun nd => nd.down) v _ x (fun _ => rfl) (fun _ _ => rfl)
          (fun _ _ => rfl), trunk_if_last_node]
        exact (hfresh x).2)
      v hnd
      (by
        intro a ha
        rw [hs2num]
        exact hw.depth_pos (hperm.mem_iff.mp ha)) p
    rw [← hbuild] at hchain
    have hfilter : v.filter (fun a => ((pair_loop v (trunk_if_last v t)).node a).starts &&
          decide (find_parent (pair_loop v (trunk_if_last v t))
            ((pair_loop v (trunk_if_last v t)).node a).number 2 = some p))
        = v.filter (fun a => ((build_branches qsort t).node a).starts &&
          same_number (t.node p).number
            ⟨(t.node a).number.c - 2, (t.node a).number.n⟩) := by
      apply List.filter_congr
      intro a ha
      rw [← hflag a]
      cases hst : ((build_branches qsort t).node a).starts with
      | false => rfl
      | true =>
        have hgt := hdeep a ha hst
        simp only [Bool.true_and]
        unfold find_parent
        rw [hs2num, bucket_find_congr t _ _ hs2tab hs2num]
        have hiff := hw.bucket_find_iff
          ⟨(t.node a).number.c - 2, (t.node a).number.n⟩ (by simp only []; omega) p
        cases hsn : same_number (t.node p).number
            ⟨(t.node a).number.c - 2, (t.node a).number.n⟩ with
        | true => exact decide_eq_true (hiff.mpr ⟨hp, hsn⟩)
        | false =>
          apply decide_eq_false
          intro hf
          rw [(hiff.mp hf).2] at hsn
          exact absurd hsn (by simp)
    rw [hfilter] at hchain
    unfold down_list
    exact sib_list_of_chain _ _ _ hchain fuel
  refine ⟨hfirst, hafter, hlist, hstrict, ?_⟩
  intro a _ hst hnone p hp fuel hmem
  rw [hlist p hp fuel] at hmem
  have := (List.mem_filter.mp (List.mem_of_mem_take hmem)).2
  rw [hst, Bool.true_and, hnone p hp] at this
  exact absurd this (by simp)

/-- C23, as stated, fails: in the table that holds 1.1, 1.2, the branch number 1.2.2 and
1.2.2.1, whose chains are already in the order of `compare`, the node of 1.2.2.1 has the
even depth 4 and the node before it, that of 1.2.2, has its first three components; yet
`starts` is set on it, since `try_pair` compares the components only for two nodes of the
same depth. -/
theorem branch_number_before_start :
    all_nodes (intern_all [rev_1_1, rev_1_2, rev_1_2_2, rev_1_2_2_1]) = [0, 1, 2, 3] ∧
    ([0, 1, 2, 3].map
      (fun x => ((intern_all [rev_1_1, rev_1_2, rev_1_2_2, rev_1_2_2_1]).node x).number.c)
        = [2, 2, 3, 4]) ∧
    [0, 1, 2, 3].Pairwise (fun a b =>
      compare ((intern_all [rev_1_1, rev_1_2, rev_1_2_2, rev_1_2_2_1]).node a).number
        ((intern_all [rev_1_1, rev_1_2, rev_1_2_2, rev_1_2_2_1]).node b).number < 0) ∧
    agree 3 ((intern_all [rev_1_1, rev_1_2, rev_1_2_2, rev_1_2_2_1]).node 2).number
      ((intern_all [rev_1_1, rev_1_2, rev_1_2_2, rev_1_2_2_1]).node 3).number = true ∧
    ((build_branches (fun _ l => l)
      (intern_all [rev_1_1, rev_1_2, rev_1_2_2, rev_1_2_2_1])).node 3).starts = true := by
  decide!

/-- C23, amended, at the table that holds 1.1, 1.2, the branch number 1.2.2, 1.2.2.1,
1.2.2.2 and 1.2.4.1, whose chains are already in the order of `compare`: `starts` is set
on 1.2.2.1 and on 1.2.4.1 and not on 1.2.2.2, and the list of child branches of 1.2 is
1.2.2.1, then 1.2.4.1. -/
theorem build_branches_starts_witness :
    all_nodes (intern_all [rev_1_1, rev_1_2, rev_1_2_2, rev_1_2_2_1, rev_1_2_2_2, rev_1_2_4_1])
      = [0, 1, 2, 3, 4, 5] ∧
    ((List.range 6).map (fun x => ((build_branches (fun _ l => l)
      (intern_all [rev_1_1, rev_1_2, rev_1_2_2, rev_1_2_2_1, rev_1_2_2_2, rev_1_2_4_1])).node
        x).starts) = [false, false, false, true, false, true]) ∧
    ([0, 1, 2, 3, 4, 5].filter (fun a => ((build_branches (fun _ l => l)
        (intern_all [rev_1_1, rev_1_2, rev_1_2_2, rev_1_2_2_1, rev_1_2_2_2, rev_1_2_4_1])).node
          a).starts &&
        same_number
          ((intern_all [rev_1_1, rev_1_2, rev_1_2_2, rev_1_2_2_1, rev_1_2_2_2,
            rev_1_2_4_1]).node 1).number
          ⟨((intern_all [rev_1_1, rev_1_2, rev_1_2_2, rev_1_2_2_1, rev_1_2_2_2,
              rev_1_2_4_1]).node a).number.c - 2,
            ((intern_all [rev_1_1, rev_1_2, rev_1_2_2, rev_1_2_2_1, rev_1_2_2_2,
              rev_1_2_4_1]).node a).number.n⟩)).take 6 = [3, 5] ∧
    down_list (build_branches (fun _ l => l)
      (intern_all [rev_1_1, rev_1_2, rev_1_2_2, rev_1_2_2_1, rev_1_2_2_2, rev_1_2_4_1])) 6 1
      = ([0, 1, 2, 3, 4, 5].filter (fun a => ((build_branches (fun _ l => l)
        (intern_all [rev_1_1, rev_1_2, rev_1_2_2, rev_1_2_2_1, rev_1_2_2_2, rev_1_2_4_1])).node
          a).starts &&
        same_number
          ((intern_all [rev_1_1, rev_1_2, rev_1_2_2, rev_1_2_2_1, rev_1_2_2_2,
            rev_1_2_4_1]).node 1).number
          ⟨((intern_all [rev_1_1, rev_1_2, rev_1_2_2, rev_1_2_2_1, rev_1_2_2_2,
              rev_1_2_4_1]).node a).number.c - 2,
            ((intern_all [rev_1_1, rev_1_2, rev_1_2_2, rev_1_2_2_1, rev_1_2_2_2,
              rev_1_2_4_1]).node a).number.n⟩)).take 6 :=
  have hall : all_nodes
      (intern_all [rev_1_1, rev_1_2, rev_1_2_2, rev_1_2_2_1, rev_1_2_2_2, rev_1_2_4_1])
      = [0, 1, 2, 3, 4, 5] := by decide!
  ⟨hall, by decide!, by decide!,
   (build_branches_starts (fun _ l => l)
      [rev_1_1, rev_1_2, rev_1_2_2, rev_1_2_2_1, rev_1_2_2_2, rev_1_2_4_1] _
      [0, 1, 2, 3, 4, 5] rfl (by decide) hall.symm (by rw [hall]) (by decide)
      (by rw [hall]; decide) ⟨0, by rw [hall]; decide, by decide⟩).2.2.1 1
      (by rw [hall]; decide) 6⟩

end CvsFastExport
